import Mathlib

/-!
Hierarchical page tables: a shallow embedding of `VirtualMemory.cpp`

The translation unit keeps no state of its own: everything lives in the
physical memory and in the backing store, which it reaches through the
primitives `PMread`, `PMwrite`, `PMevict` and `PMrestore`.  The embedding
passes that state explicitly (`Mem`) and returns `Except Fault _`, where a
fault stands for undefined behaviour of the C++ program: an access outside
the physical array, the use of a local variable that was never assigned, or
an `int` shift whose value does not fit an `int`.

Conventions of the translation:
* `uint64_t` values are `Nat`; `word_t` values are `Int`;
* the cast `(uint64_t)w` of a word is `toU64 w` (reduction modulo `2^64`);
* the cast `(int)x` of a 64 bit quantity is `toInt32 x` (two's complement);
* `_find_frame` recurses on `rem = TABLES_DEPTH - currentDepth`, so that the
  recursion is structural; the source counts `currentDepth` upwards.
-/

namespace VirtualMemory

/-! ## Constants -/

/-- Modelled from the spec: the address-width constants of the absent header
`MemoryConstants.h` (spec section 3).  The three widths are free; the proof
fields record what the C++ types require of them (a positive offset width, and
physical addresses that fit an `uint64_t`).  `RESTORE_ZERO_FILLS` selects the
contract of the external restore primitive for a page that was never evicted
(spec section 6): `false` leaves the frame unchanged, `true` zero-fills it. -/
structure Config where
  OFFSET_WIDTH : Nat
  PHYSICAL_ADDRESS_WIDTH : Nat
  VIRTUAL_ADDRESS_WIDTH : Nat
  RESTORE_ZERO_FILLS : Bool
  offset_pos : 0 < OFFSET_WIDTH
  offset_le_phys : OFFSET_WIDTH ≤ PHYSICAL_ADDRESS_WIDTH
  phys_le : PHYSICAL_ADDRESS_WIDTH ≤ 64

/-- Modelled from the spec: `PAGE_SIZE = 2^OFFSET_WIDTH`. -/
def Config.PAGE_SIZE (cfg : Config) : Nat := 2 ^ cfg.OFFSET_WIDTH

/-- Modelled from the spec: `NUM_FRAMES = 2^(PHYSICAL_ADDRESS_WIDTH - OFFSET_WIDTH)`. -/
def Config.NUM_FRAMES (cfg : Config) : Nat :=
  2 ^ (cfg.PHYSICAL_ADDRESS_WIDTH - cfg.OFFSET_WIDTH)

/-- Modelled from the spec: `NUM_PAGES = 2^(VIRTUAL_ADDRESS_WIDTH - OFFSET_WIDTH)`. -/
def Config.NUM_PAGES (cfg : Config) : Nat :=
  2 ^ (cfg.VIRTUAL_ADDRESS_WIDTH - cfg.OFFSET_WIDTH)

/-- Modelled from the spec:
`TABLES_DEPTH = ceil((VIRTUAL_ADDRESS_WIDTH - OFFSET_WIDTH) / OFFSET_WIDTH)`. -/
def Config.TABLES_DEPTH (cfg : Config) : Nat :=
  (cfg.VIRTUAL_ADDRESS_WIDTH - cfg.OFFSET_WIDTH + (cfg.OFFSET_WIDTH - 1)) / cfg.OFFSET_WIDTH

/-- Number of words of the physical array, `NUM_FRAMES * PAGE_SIZE`. -/
def Config.RAM_SIZE (cfg : Config) : Nat := cfg.NUM_FRAMES * cfg.PAGE_SIZE

/-! ## Machine integers -/

/-- The cast `(uint64_t)w` of a signed word. -/
def toU64 (w : Int) : Nat := (w % 2 ^ 64).toNat

/-- The cast `(int)x` of an unsigned 64 bit value: the low 32 bits, read in
two's complement. -/
def toInt32 (x : Nat) : Int := (((x + 2 ^ 31) % 2 ^ 32 : Nat) : Int) - 2 ^ 31

/-! ## State and primitives -/

/-- Undefined behaviour of the program. -/
inductive Fault where
  | outOfRange
  | uninitialised
  | overflow
  deriving DecidableEq, Repr

/-- The state the translation unit works on: the physical words and the
backing store, a partial map from page numbers to page contents. -/
structure Mem where
  ram : Nat → Int
  swap : Nat → Option (Nat → Int)

/-- Modelled from the spec: `read_word(physical_index)`, defined for
`physical_index < NUM_FRAMES * PAGE_SIZE` (spec section 6). -/
def PMread (cfg : Config) (m : Mem) (physicalAddress : Nat) : Except Fault Int :=
  if physicalAddress < cfg.RAM_SIZE then .ok (m.ram physicalAddress) else .error .outOfRange

/-- Modelled from the spec: `write_word(physical_index, word)`, same range. -/
def PMwrite (cfg : Config) (m : Mem) (physicalAddress : Nat) (value : Int) : Except Fault Mem :=
  if physicalAddress < cfg.RAM_SIZE then
    .ok { m with ram := fun a => if a = physicalAddress then value else m.ram a }
  else .error .outOfRange

/-- Modelled from the spec: `evict(f, q)` copies the contents of frame `f`
into the backing-store slot of page `q` (spec section 5). -/
def PMevict (cfg : Config) (m : Mem) (frameIndex pageIndex : Nat) : Except Fault Mem :=
  if frameIndex < cfg.NUM_FRAMES then
    .ok { m with swap := fun q =>
            if q = pageIndex then some (fun i => m.ram (frameIndex * cfg.PAGE_SIZE + i))
            else m.swap q }
  else .error .outOfRange

/-- Modelled from the spec: `restore(f, q)` copies the backing-store slot of
page `q` into frame `f`; for a page without stored contents the frame is left
unchanged or zero-filled, as `RESTORE_ZERO_FILLS` says (spec sections 5, 6). -/
def PMrestore (cfg : Config) (m : Mem) (frameIndex pageIndex : Nat) : Except Fault Mem :=
  if frameIndex < cfg.NUM_FRAMES then
    match m.swap pageIndex with
    | some c =>
        .ok { m with ram := fun a =>
                if a / cfg.PAGE_SIZE = frameIndex then c (a % cfg.PAGE_SIZE) else m.ram a }
    | none =>
        if cfg.RESTORE_ZERO_FILLS then
          .ok { m with ram := fun a => if a / cfg.PAGE_SIZE = frameIndex then 0 else m.ram a }
        else .ok m
  else .error .outOfRange

/-! ## The code -/

/-- A `for` loop over the given indices, threading a state and stopping at
the first fault. -/
def forEach {σ : Type} (body : Nat → σ → Except Fault σ) : List Nat → σ → Except Fault σ
  | [], s => .ok s
  | i :: rest, s =>
      match body i s with
      | .ok s' => forEach body rest s'
      | .error e => .error e

/-- `clearTable` (lines 7-11). -/
def clearTable (cfg : Config) (m : Mem) (frameIndex : Nat) : Except Fault Mem :=
  forEach (fun i m => PMwrite cfg m ((frameIndex * cfg.PAGE_SIZE + i) % 2 ^ 64) 0)
    (List.range cfg.PAGE_SIZE) m

/-- `VMinitialize` (lines 13-15). -/
def VMinitialize (cfg : Config) (m : Mem) : Except Fault Mem :=
  clearTable cfg m 0

/-- The by-reference parameters of `_find_frame`.  `frameToEvict` and
`pageToEvict` are declared without an initial value by the caller, which is
`none` here. -/
structure Search where
  maxFrame : Nat
  maxCyclicDistance : Int
  frameToEvict : Option Nat
  pageToEvict : Option Nat
  emptyFrame : Nat
  addressToEmpty : Nat

/-- The values of `Search` the caller passes in (lines 144-149). -/
def Search.start : Search :=
  { maxFrame := 0, maxCyclicDistance := -1, frameToEvict := none, pageToEvict := none,
    emptyFrame := 0, addressToEmpty := 0 }

/-- The expression of line 56:
`min((int)NUM_PAGES - abs((int)page - (int)p), abs((int)page - (int)p))`. -/
def leafDist (cfg : Config) (page p : Nat) : Int :=
  min (toInt32 cfg.NUM_PAGES - |toInt32 page - toInt32 p|) |toInt32 page - toInt32 p|

/-- The leaf branch of `_find_frame` (lines 55-62). -/
def visitLeaf (cfg : Config) (page frameToAvoid frameIndex p : Nat) (st : Search) : Search :=
  if frameIndex ≠ frameToAvoid then
    let dist := leafDist cfg page p
    let st1 := { st with maxCyclicDistance := max st.maxCyclicDistance dist }
    if dist = st1.maxCyclicDistance then
      { st1 with frameToEvict := some frameIndex, pageToEvict := some p }
    else st1
  else st

/-- `_find_frame` (lines 49-93).  The result is the returned `int` together
with the memory and the by-reference parameters after the call. -/
def _find_frame (cfg : Config) (page frameToAvoid : Nat) :
    Nat → Nat → Nat → Mem → Search → Except Fault (Int × Mem × Search)
  | 0, frameIndex, p, m, st =>
      let st := { st with maxFrame := max st.maxFrame frameIndex }
      .ok (1, m, visitLeaf cfg page frameToAvoid frameIndex p st)
  | rem + 1, frameIndex, p, m, st =>
      let st := { st with maxFrame := max st.maxFrame frameIndex }
      let rows := forEach
        (fun frameRow (x : Mem × Search × Nat) =>
          match PMread cfg x.1 ((frameIndex * cfg.PAGE_SIZE + frameRow) % 2 ^ 64) with
          | .error e => .error e
          | .ok val =>
              if val ≠ 0 then
                match _find_frame cfg page frameToAvoid rem (toU64 val)
                    ((p <<< cfg.OFFSET_WIDTH) + frameRow) x.1 x.2.1 with
                | .error e => .error e
                | .ok r => .ok (r.2.1, r.2.2, x.2.2)
              else .ok (x.1, x.2.1, x.2.2 + 1))
        (List.range cfg.PAGE_SIZE) (m, st, 0)
      match rows with
      | .error e => .error e
      | .ok (m, st, numOfZeroRows) =>
          let st :=
            if numOfZeroRows = cfg.PAGE_SIZE then
              if frameIndex ≠ frameToAvoid then
                { st with emptyFrame := frameIndex,
                          addressToEmpty := p <<< (cfg.OFFSET_WIDTH * (rem + 1)) }
              else st
            else st
          if cfg.TABLES_DEPTH - (rem + 1) = 0 then
            if (st.maxFrame + 1) % 2 ^ 64 < cfg.NUM_FRAMES then
              let st := { st with emptyFrame := (st.maxFrame + 1) % 2 ^ 64 }
              match clearTable cfg m st.emptyFrame with
              | .error e => .error e
              | .ok m => .ok (0, m, st)
            else if st.emptyFrame ≠ 0 then .ok (0, m, st)
            else .ok (1, m, st)
          else .ok (2, m, st)

/-- The body of the row loop of `_find_frame` (lines 67-72), for a table with
`rem + 1` levels below it; it is the loop body of `_find_frame`, named. -/
def rowStep (cfg : Config) (page frameToAvoid rem frameIndex p : Nat) (frameRow : Nat)
    (x : Mem × Search × Nat) : Except Fault (Mem × Search × Nat) :=
  match PMread cfg x.1 ((frameIndex * cfg.PAGE_SIZE + frameRow) % 2 ^ 64) with
  | .error e => .error e
  | .ok val =>
      if val ≠ 0 then
        match _find_frame cfg page frameToAvoid rem (toU64 val)
            ((p <<< cfg.OFFSET_WIDTH) + frameRow) x.1 x.2.1 with
        | .error e => .error e
        | .ok r => .ok (r.2.1, r.2.2, x.2.2)
      else .ok (x.1, x.2.1, x.2.2 + 1)

/-- The end of `_find_frame` (lines 80-92), for a table with `rem + 1` levels
below it; it is the tail of `_find_frame`, named. -/
def finishFind (cfg : Config) (rem : Nat) (m : Mem) (st : Search) :
    Except Fault (Int × Mem × Search) :=
  if cfg.TABLES_DEPTH - (rem + 1) = 0 then
    if (st.maxFrame + 1) % 2 ^ 64 < cfg.NUM_FRAMES then
      let st := { st with emptyFrame := (st.maxFrame + 1) % 2 ^ 64 }
      match clearTable cfg m st.emptyFrame with
      | .error e => .error e
      | .ok m => .ok (0, m, st)
    else if st.emptyFrame ≠ 0 then .ok (0, m, st)
    else .ok (1, m, st)
  else .ok (2, m, st)

/-- The loop of `_unlink_parent` (lines 107-116), from iteration `i` on, with
`n` iterations left. -/
def unlinkLoop (cfg : Config) (page : Nat) (frame : Int) (add_width : Nat) :
    Nat → Nat → Int → Mem → Except Fault Mem
  | 0, _, _, m => .ok m
  | n + 1, i, address, m =>
      let currentOffset := (page >>> (add_width - i * cfg.OFFSET_WIDTH)) % (1 <<< cfg.OFFSET_WIDTH)
      let currentRAMRow := toU64 (address * cfg.PAGE_SIZE + currentOffset)
      match PMread cfg m currentRAMRow with
      | .error e => .error e
      | .ok address =>
          if address = frame then PMwrite cfg m currentRAMRow 0
          else unlinkLoop cfg page frame add_width n (i + 1) address m

/-- `_unlink_parent` (lines 103-117). -/
def _unlink_parent (cfg : Config) (m : Mem) (page : Nat) (frame : Int) (add_width : Nat) :
    Except Fault Mem :=
  unlinkLoop cfg page frame add_width (add_width / cfg.OFFSET_WIDTH) 1 0 m

/-- The width computed at lines 128-130: `VIRTUAL_ADDRESS_WIDTH - OFFSET_WIDTH`
rounded up to a multiple of `OFFSET_WIDTH`. -/
def rounded_add_width (cfg : Config) : Nat :=
  let w := cfg.VIRTUAL_ADDRESS_WIDTH - cfg.OFFSET_WIDTH
  if w % cfg.OFFSET_WIDTH ≠ 0 then w + (cfg.OFFSET_WIDTH - w % cfg.OFFSET_WIDTH) else w

/-- The block of `_traverse_tree` that serves a zero entry (lines 143-163):
it runs `_find_frame` and returns the frame to link, `address`. -/
def allocate (cfg : Config) (m : Mem) (page frameToAvoid : Nat) : Except Fault (Int × Mem) :=
  match _find_frame cfg page frameToAvoid cfg.TABLES_DEPTH 0 0 m Search.start with
  | .error e => .error e
  | .ok (code, m, st) =>
      if code = 0 then
        if (st.maxFrame + 1) % 2 ^ 64 ≥ cfg.NUM_FRAMES then
          match _unlink_parent cfg m st.addressToEmpty (st.emptyFrame : Int)
              (rounded_add_width cfg) with
          | .error e => .error e
          | .ok m => .ok ((st.emptyFrame : Int), m)
        else .ok ((st.emptyFrame : Int), m)
      else
        match st.frameToEvict, st.pageToEvict with
        | some frameToEvict, some pageToEvict =>
            match PMevict cfg m frameToEvict pageToEvict with
            | .error e => .error e
            | .ok m =>
                match clearTable cfg m frameToEvict with
                | .error e => .error e
                | .ok m =>
                    match _unlink_parent cfg m pageToEvict (frameToEvict : Int)
                        (rounded_add_width cfg) with
                    | .error e => .error e
                    | .ok m => .ok ((frameToEvict : Int), m)
        | _, _ => .error .uninitialised

/-- One iteration of the loop of `_traverse_tree` (lines 135-165). -/
def traverseStep (cfg : Config) (page i : Nat) (address : Int) (m : Mem) :
    Except Fault (Int × Mem) :=
  let currentOffset :=
    (page >>> (rounded_add_width cfg - i * cfg.OFFSET_WIDTH)) % (1 <<< cfg.OFFSET_WIDTH)
  let currentRAMRow := toU64 (address * cfg.PAGE_SIZE + currentOffset)
  let frameToAvoid := toU64 address
  match PMread cfg m currentRAMRow with
  | .error e => .error e
  | .ok address =>
      if address = 0 then
        match allocate cfg m page frameToAvoid with
        | .error e => .error e
        | .ok (address, m) =>
            match PMwrite cfg m currentRAMRow address with
            | .error e => .error e
            | .ok m => .ok (address, m)
      else .ok (address, m)

/-- The loop of `_traverse_tree` (line 134), from iteration `i` on, with `n`
iterations left. -/
def traverseLoop (cfg : Config) (page : Nat) : Nat → Nat → Int → Mem → Except Fault (Int × Mem)
  | 0, _, address, m => .ok (address, m)
  | n + 1, i, address, m =>
      match traverseStep cfg page i address m with
      | .error e => .error e
      | .ok (address, m) => traverseLoop cfg page n (i + 1) address m

/-- `_traverse_tree` (lines 124-170): the frame of `page` and the memory after
the call. -/
def _traverse_tree (cfg : Config) (m : Mem) (page : Nat) : Except Fault (Int × Mem) :=
  match traverseLoop cfg page (rounded_add_width cfg / cfg.OFFSET_WIDTH) 1 0 m with
  | .error e => .error e
  | .ok (address, m) =>
      match PMrestore cfg m (toU64 address) page with
      | .error e => .error e
      | .ok m => .ok (address, m)

/-- The modulus of lines 174 and 185, `2 << (OFFSET_WIDTH - 1)`.  It is an
`int` expression: it has a value when `2 * 2^(OFFSET_WIDTH - 1)` fits an `int`,
that is for `OFFSET_WIDTH ≤ 30`; beyond that the shift overflows (at
`OFFSET_WIDTH = 32` the compiled program computes 0 and the `%` that follows
divides by 0). -/
def offsetModulus (cfg : Config) : Except Fault Nat :=
  if 2 <<< (cfg.OFFSET_WIDTH - 1) < 2 ^ 31 then .ok (2 <<< (cfg.OFFSET_WIDTH - 1))
  else .error .overflow

/-- `VMread` (lines 172-181): the returned `int`, the word stored through
`value`, and the memory after the call. -/
def VMread (cfg : Config) (m : Mem) (virtualAddress : Nat) : Except Fault (Int × Int × Mem) :=
  match offsetModulus cfg with
  | .error e => .error e
  | .ok modulus =>
      let offset := virtualAddress % modulus
      let page := virtualAddress >>> cfg.OFFSET_WIDTH
      match _traverse_tree cfg m page with
      | .error e => .error e
      | .ok (final_physical_add, m) =>
          match PMread cfg m (toU64 (final_physical_add * cfg.PAGE_SIZE + offset)) with
          | .error e => .error e
          | .ok value => .ok (1, value, m)

/-- `VMwrite` (lines 183-192): the returned `int` and the memory after the
call. -/
def VMwrite (cfg : Config) (m : Mem) (virtualAddress : Nat) (value : Int) :
    Except Fault (Int × Mem) :=
  match offsetModulus cfg with
  | .error e => .error e
  | .ok modulus =>
      let offset := virtualAddress % modulus
      let page := virtualAddress >>> cfg.OFFSET_WIDTH
      match _traverse_tree cfg m page with
      | .error e => .error e
      | .ok (final_physical_add, m) =>
          match PMwrite cfg m (toU64 (final_physical_add * cfg.PAGE_SIZE + offset)) value with
          | .error e => .error e
          | .ok m => .ok (1, m)

/-! ## The tree read off the physical memory -/

/-- The frame reached from frame 0 along the `d` index chunks of the prefix
`p` (most significant chunk first), when every entry on the way is non-zero. -/
def frameAt (cfg : Config) (ram : Nat → Int) : Nat → Nat → Option Nat
  | 0, p => if p = 0 then some 0 else none
  | d + 1, p =>
      match frameAt cfg ram d (p / cfg.PAGE_SIZE) with
      | none => none
      | some f =>
          if ram (f * cfg.PAGE_SIZE + p % cfg.PAGE_SIZE) = 0 then none
          else some (toU64 (ram (f * cfg.PAGE_SIZE + p % cfg.PAGE_SIZE)))

/-- The frames the depth-first scan of `_find_frame` visits below frame `f`,
in visiting order, each as `(rem, p, frame)`: `rem` levels remain below the
frame (a leaf has `rem = 0`) and `p` is the prefix accumulated on the way. -/
def nodes (cfg : Config) (ram : Nat → Int) : Nat → Nat → Nat → List (Nat × Nat × Nat)
  | 0, f, p => [(0, p, f)]
  | rem + 1, f, p =>
      (rem + 1, p, f) ::
        (List.range cfg.PAGE_SIZE).flatMap (fun row =>
          if ram (f * cfg.PAGE_SIZE + row) = 0 then []
          else nodes cfg ram rem (toU64 (ram (f * cfg.PAGE_SIZE + row))) (p * cfg.PAGE_SIZE + row))

/-- All `PAGE_SIZE` words of the frame are zero. -/
def ZeroFrame (cfg : Config) (ram : Nat → Int) (f : Nat) : Prop :=
  ∀ row, row < cfg.PAGE_SIZE → ram (f * cfg.PAGE_SIZE + row) = 0

instance (cfg : Config) (ram : Nat → Int) (f : Nat) : Decidable (ZeroFrame cfg ram f) :=
  Nat.decidableBallLT _ _

/-- What one visit of `_find_frame` does to the by-reference parameters. -/
def visitNode (cfg : Config) (ram : Nat → Int) (page frameToAvoid : Nat) (st : Search)
    (n : Nat × Nat × Nat) : Search :=
  let st1 := { st with maxFrame := max st.maxFrame n.2.2 }
  if n.1 = 0 then visitLeaf cfg page frameToAvoid n.2.2 n.2.1 st1
  else if ZeroFrame cfg ram n.2.2 ∧ n.2.2 ≠ frameToAvoid then
    { st1 with emptyFrame := n.2.2, addressToEmpty := n.2.1 <<< (cfg.OFFSET_WIDTH * n.1) }
  else st1

/-- The memory with the words of one frame set to zero. -/
def zeroFrame (cfg : Config) (ram : Nat → Int) (f : Nat) : Nat → Int :=
  fun a => if a / cfg.PAGE_SIZE = f then 0 else ram a

/-- The memory with one word replaced. -/
def setWord (ram : Nat → Int) (addr : Nat) (v : Int) : Nat → Int :=
  fun a => if a = addr then v else ram a

/-- The prefix of `page` that is `d` chunks long. -/
def pagePfx (cfg : Config) (page d : Nat) : Nat :=
  page / cfg.PAGE_SIZE ^ (cfg.TABLES_DEPTH - d)

/-- The cyclic distance between two pages,
`min(NUM_PAGES - |p - q|, |p - q|)`. -/
def cyclicDist (cfg : Config) (p q : Nat) : Int :=
  min ((cfg.NUM_PAGES : Int) - |(p : Int) - (q : Int)|) |(p : Int) - (q : Int)|

/-- A table the scan records as an empty intermediate. -/
def EmptyCand (cfg : Config) (ram : Nat → Int) (avoid : Nat) (n : Nat × Nat × Nat) : Prop :=
  n.1 ≠ 0 ∧ ZeroFrame cfg ram n.2.2 ∧ n.2.2 ≠ avoid

/-- A leaf the scan considers for eviction. -/
def LeafCand (avoid : Nat) (n : Nat × Nat × Nat) : Prop :=
  n.1 = 0 ∧ n.2.2 ≠ avoid

/-- The eviction candidate after the scan has visited the frames `seen`, when
no candidate leaf has a negative distance: nothing is recorded as long as no
candidate was met; afterwards the record is the last candidate among those of
greatest distance. -/
def BestOf (cfg : Config) (page avoid : Nat) (seen : List (Nat × Nat × Nat)) (st : Search) :
    Prop :=
  (st.maxCyclicDistance = -1 ∧ st.frameToEvict = none ∧ st.pageToEvict = none ∧
    ∀ n ∈ seen, ¬ LeafCand avoid n) ∨
  ∃ l1 n l2, seen = l1 ++ n :: l2 ∧ LeafCand avoid n ∧
    st.frameToEvict = some n.2.2 ∧ st.pageToEvict = some n.2.1 ∧
    st.maxCyclicDistance = leafDist cfg page n.2.1 ∧
    (∀ n' ∈ l1, LeafCand avoid n' → leafDist cfg page n'.2.1 ≤ leafDist cfg page n.2.1) ∧
    (∀ n' ∈ l2, LeafCand avoid n' → leafDist cfg page n'.2.1 < leafDist cfg page n.2.1)

/-- The shape of the tree: table entries lie in `[0, m]` with `m` a frame, and
every frame reachable from frame 0 within `TABLES_DEPTH` levels is at one
position only (single parent, no cycle, frame 0 is nobody's child). -/
structure TreeBase (cfg : Config) (ram : Nat → Int) (m : Nat) : Prop where
  lt : m < cfg.NUM_FRAMES
  entry : ∀ d p f row, d < cfg.TABLES_DEPTH → frameAt cfg ram d p = some f →
    row < cfg.PAGE_SIZE →
    0 ≤ ram (f * cfg.PAGE_SIZE + row) ∧ ram (f * cfg.PAGE_SIZE + row) ≤ (m : Int)
  inj : ∀ d p d' p' f, d ≤ cfg.TABLES_DEPTH → d' ≤ cfg.TABLES_DEPTH →
    frameAt cfg ram d p = some f → frameAt cfg ram d' p' = some f → d = d' ∧ p = p'

/-- The tree invariant: the shape of `TreeBase`, the frames of the tree are
exactly `0 .. m`, and every position is the prefix of a valid page. -/
structure TreeInv (cfg : Config) (ram : Nat → Int) (m : Nat) extends TreeBase cfg ram m :
    Prop where
  sur : ∀ f, f ≤ m → ∃ d p, d ≤ cfg.TABLES_DEPTH ∧ frameAt cfg ram d p = some f
  page : ∀ d p f, d ≤ cfg.TABLES_DEPTH → frameAt cfg ram d p = some f →
    p * cfg.PAGE_SIZE ^ (cfg.TABLES_DEPTH - d) < cfg.NUM_PAGES

/-- The tree between the allocation of frame `X` and its linking: as
`TreeInv`, but `X` is zero-filled and at no position. -/
structure Detached (cfg : Config) (ram : Nat → Int) (m X : Nat) : Prop where
  lt : m < cfg.NUM_FRAMES
  le : X ≤ m
  pos : X ≠ 0
  zero : ZeroFrame cfg ram X
  free : ∀ d p, d ≤ cfg.TABLES_DEPTH → frameAt cfg ram d p ≠ some X
  entry : ∀ d p f row, d < cfg.TABLES_DEPTH → frameAt cfg ram d p = some f →
    row < cfg.PAGE_SIZE →
    0 ≤ ram (f * cfg.PAGE_SIZE + row) ∧ ram (f * cfg.PAGE_SIZE + row) ≤ (m : Int)
  inj : ∀ d p d' p' f, d ≤ cfg.TABLES_DEPTH → d' ≤ cfg.TABLES_DEPTH →
    frameAt cfg ram d p = some f → frameAt cfg ram d' p' = some f → d = d' ∧ p = p'
  sur : ∀ f, f ≤ m → f ≠ X → ∃ d p, d ≤ cfg.TABLES_DEPTH ∧ frameAt cfg ram d p = some f
  page : ∀ d p f, d ≤ cfg.TABLES_DEPTH → frameAt cfg ram d p = some f →
    p * cfg.PAGE_SIZE ^ (cfg.TABLES_DEPTH - d) < cfg.NUM_PAGES

/-- The by-reference parameters after the scan of the whole tree. -/
def scan (cfg : Config) (ram : Nat → Int) (page frameToAvoid : Nat) : Search :=
  (nodes cfg ram cfg.TABLES_DEPTH 0 0).foldl (visitNode cfg ram page frameToAvoid) Search.start

/-- The four ways the allocation block can end on a tree whose largest frame
is `m` (the `maxFrame` of the scan): the next never-used frame, an empty table unlinked from its parent,
an evicted leaf, or the use of an eviction candidate that was never assigned. -/
inductive AllocOutcome (cfg : Config) (s : Mem) (page avoid m : Nat) :
    Except Fault (Int × Mem) → Prop where
  | fresh : m + 1 < cfg.NUM_FRAMES →
      AllocOutcome cfg s page avoid m
        (.ok (((m + 1 : Nat) : Int), { s with ram := zeroFrame cfg s.ram (m + 1) }))
  | reclaim (dE pE E g : Nat) : cfg.NUM_FRAMES ≤ m + 1 →
      frameAt cfg s.ram (dE + 1) pE = some E → dE + 1 < cfg.TABLES_DEPTH →
      ZeroFrame cfg s.ram E → E ≠ avoid →
      frameAt cfg s.ram dE (pE / cfg.PAGE_SIZE) = some g →
      (scan cfg s.ram page avoid).emptyFrame = E →
      AllocOutcome cfg s page avoid m
        (.ok ((E : Int),
          { s with ram := setWord s.ram (g * cfg.PAGE_SIZE + pE % cfg.PAGE_SIZE) 0 }))
  | evict (q L g : Nat) : cfg.NUM_FRAMES ≤ m + 1 →
      (scan cfg s.ram page avoid).emptyFrame = 0 →
      (scan cfg s.ram page avoid).frameToEvict = some L →
      (scan cfg s.ram page avoid).pageToEvict = some q →
      frameAt cfg s.ram cfg.TABLES_DEPTH q = some L → L ≠ avoid →
      frameAt cfg s.ram (cfg.TABLES_DEPTH - 1) (q / cfg.PAGE_SIZE) = some g →
      AllocOutcome cfg s page avoid m
        (.ok ((L : Int),
          { ram := setWord (zeroFrame cfg s.ram L) (g * cfg.PAGE_SIZE + q % cfg.PAGE_SIZE) 0,
            swap := fun x =>
              if x = q then some (fun i => s.ram (L * cfg.PAGE_SIZE + i)) else s.swap x }))
  | fault : cfg.NUM_FRAMES ≤ m + 1 →
      (scan cfg s.ram page avoid).emptyFrame = 0 →
      (scan cfg s.ram page avoid).frameToEvict = none →
      AllocOutcome cfg s page avoid m (.error .uninitialised)

/-- The contents of a virtual page: the words of its frame when the page is
resident, else its slot of the backing store, else zeros. -/
def content (cfg : Config) (s : Mem) (q : Nat) : Nat → Int :=
  match frameAt cfg s.ram cfg.TABLES_DEPTH q with
  | some f => fun i => s.ram (f * cfg.PAGE_SIZE + i)
  | none =>
      match s.swap q with
      | some c => c
      | none => fun _ => 0

/-- No resident page has a slot in the backing store. -/
def Clean (cfg : Config) (s : Mem) : Prop :=
  ∀ q f, frameAt cfg s.ram cfg.TABLES_DEPTH q = some f → s.swap q = none

/-- The state `s1` right after the allocation block has produced frame `X`
from state `s`, whose largest frame was `m`. -/
structure Alloced (cfg : Config) (s : Mem) (m X : Nat) (s1 : Mem) : Prop where
  det : ∃ m', Detached cfg s1.ram m' X ∧ m ≤ m' ∧ m' ≤ m + 1
  sub : ∀ d x f, d ≤ cfg.TABLES_DEPTH → frameAt cfg s1.ram d x = some f →
    frameAt cfg s.ram d x = some f
  keep : ∀ d x f, d ≤ cfg.TABLES_DEPTH → frameAt cfg s.ram d x = some f → f ≠ X →
    frameAt cfg s1.ram d x = some f
  zeros : ∀ a, s.ram a = 0 → s1.ram a = 0
  cont : ∀ q i, i < cfg.PAGE_SIZE → content cfg s1 q i = content cfg s q i
  swapQ : ∀ q, s1.swap q ≠ s.swap q →
    (∃ f, frameAt cfg s.ram cfg.TABLES_DEPTH q = some f) ∧
      frameAt cfg s1.ram cfg.TABLES_DEPTH q = none

/-- The state `s2` after one step of the walk has linked the allocated frame
`X` at entry `c` of the table at position `(dA, pA)`. -/
structure Linked (cfg : Config) (s : Mem) (m dA pA c X : Nat) (s2 : Mem) : Prop where
  tree : ∃ m', TreeInv cfg s2.ram m' ∧ m ≤ m' ∧ m' ≤ m + 1
  here : frameAt cfg s2.ram (dA + 1) (pA * cfg.PAGE_SIZE + c) = some X
  zero : ZeroFrame cfg s2.ram X
  res : ∀ q f, frameAt cfg s2.ram cfg.TABLES_DEPTH q = some f →
    ¬ (dA + 1 = cfg.TABLES_DEPTH ∧ q = pA * cfg.PAGE_SIZE + c) →
    frameAt cfg s.ram cfg.TABLES_DEPTH q = some f
  cont : ∀ q, ¬ (dA + 1 = cfg.TABLES_DEPTH ∧ q = pA * cfg.PAGE_SIZE + c) →
    ∀ i, i < cfg.PAGE_SIZE → content cfg s2 q i = content cfg s q i
  swapQ : ∀ q, s2.swap q ≠ s.swap q →
    (∃ f, frameAt cfg s.ram cfg.TABLES_DEPTH q = some f) ∧
      frameAt cfg s2.ram cfg.TABLES_DEPTH q = none

/-- The state `s'` after the first `k` steps of the walk for `page` from
state `s`, whose largest frame was `m`; the walk stands at frame `A`. -/
structure Walked (cfg : Config) (page : Nat) (s : Mem) (m k A : Nat) (s' : Mem) : Prop where
  tree : ∃ m', TreeInv cfg s'.ram m' ∧ m ≤ m' ∧ m' ≤ m + k
  here : frameAt cfg s'.ram k (pagePfx cfg page k) = some A
  res : ∀ q f, frameAt cfg s'.ram cfg.TABLES_DEPTH q = some f → q ≠ page →
    frameAt cfg s.ram cfg.TABLES_DEPTH q = some f
  cont : ∀ q, q ≠ page → ∀ i, i < cfg.PAGE_SIZE → content cfg s' q i = content cfg s q i
  swapP : s'.swap page = s.swap page
  swapQ : ∀ q, s'.swap q ≠ s.swap q →
    (∃ f, frameAt cfg s.ram cfg.TABLES_DEPTH q = some f) ∧
      frameAt cfg s'.ram cfg.TABLES_DEPTH q = none
  fresh : s' = s ∨ (frameAt cfg s.ram cfg.TABLES_DEPTH page = none ∧ ZeroFrame cfg s'.ram A)

/-- The state `s'` after `_traverse_tree` has served `page` from state `s`,
whose largest frame was `m`; `F` is the returned frame. -/
structure Done (cfg : Config) (page : Nat) (s : Mem) (m F : Nat) (s' : Mem) : Prop where
  tree : ∃ m', TreeInv cfg s'.ram m' ∧ m ≤ m' ∧ m' ≤ m + cfg.TABLES_DEPTH
  here : frameAt cfg s'.ram cfg.TABLES_DEPTH page = some F
  res : ∀ q f, frameAt cfg s'.ram cfg.TABLES_DEPTH q = some f → q ≠ page →
    frameAt cfg s.ram cfg.TABLES_DEPTH q = some f
  cont : ∀ q, q ≠ page → ∀ i, i < cfg.PAGE_SIZE → content cfg s' q i = content cfg s q i
  contP : ∀ i, i < cfg.PAGE_SIZE →
    content cfg s' page i =
      match s.swap page with
      | some c => c i
      | none => if cfg.RESTORE_ZERO_FILLS then 0 else content cfg s page i
  swapP : s'.swap page = s.swap page
  swapQ : ∀ q, s'.swap q ≠ s.swap q →
    (∃ f, frameAt cfg s.ram cfg.TABLES_DEPTH q = some f) ∧
      frameAt cfg s'.ram cfg.TABLES_DEPTH q = none
  same : ∀ f, frameAt cfg s.ram cfg.TABLES_DEPTH page = some f → s.swap page = none →
    cfg.RESTORE_ZERO_FILLS = false → s' = s

/-- The walk for `page` from state `s` stops at an eviction whose candidate
was never assigned: at step `k + 1`, in state `s'`, standing at frame `A`. -/
def Stuck (cfg : Config) (page : Nat) (s : Mem) (m0 : Nat) : Prop :=
  ∃ k A s' m, k < cfg.TABLES_DEPTH ∧ Walked cfg page s m0 k A s' ∧
    TreeInv cfg s'.ram m ∧ m ≤ m0 + k ∧ cfg.NUM_FRAMES ≤ m + 1 ∧
    frameAt cfg s'.ram cfg.TABLES_DEPTH page = none ∧
    (scan cfg s'.ram page A).emptyFrame = 0 ∧
    (scan cfg s'.ram page A).frameToEvict = none

/-- The states the public interface can produce: `VMinitialize` on a
powered-on memory with an empty backing store, then `VMread` and `VMwrite` at
valid virtual addresses. -/
inductive Reachable (cfg : Config) : Mem → Prop where
  | init (ram : Nat → Int) (m : Mem) :
      VMinitialize cfg { ram := ram, swap := fun _ => none } = .ok m → Reachable cfg m
  | read (m m' : Mem) (a : Nat) (r w : Int) :
      Reachable cfg m → a < 2 ^ cfg.VIRTUAL_ADDRESS_WIDTH →
      VMread cfg m a = .ok (r, w, m') → Reachable cfg m'
  | write (m m' : Mem) (a : Nat) (v r : Int) :
      Reachable cfg m → a < 2 ^ cfg.VIRTUAL_ADDRESS_WIDTH →
      VMwrite cfg m a v = .ok (r, m') → Reachable cfg m'

/-! ## Concrete configurations and runs -/

/-- The configuration of the end-to-end scenarios of the spec: `OFFSET_WIDTH = 4`,
`PHYSICAL_ADDRESS_WIDTH = 8`, `VIRTUAL_ADDRESS_WIDTH = 20`, with a restore
that leaves the frame of a never-evicted page unchanged. -/
def cfgSpec : Config :=
  { OFFSET_WIDTH := 4, PHYSICAL_ADDRESS_WIDTH := 8, VIRTUAL_ADDRESS_WIDTH := 20,
    RESTORE_ZERO_FILLS := false,
    offset_pos := by decide, offset_le_phys := by decide, phys_le := by decide }

/-- The configuration of the scenarios with a restore that zero-fills the
frame of a never-evicted page. -/
def cfgZero : Config :=
  { OFFSET_WIDTH := 4, PHYSICAL_ADDRESS_WIDTH := 8, VIRTUAL_ADDRESS_WIDTH := 20,
    RESTORE_ZERO_FILLS := true,
    offset_pos := by decide, offset_le_phys := by decide, phys_le := by decide }

/-- A small configuration: 2 words per page, 4 frames, 4 pages, 2 levels. -/
def cfgSmall : Config :=
  { OFFSET_WIDTH := 1, PHYSICAL_ADDRESS_WIDTH := 3, VIRTUAL_ADDRESS_WIDTH := 3,
    RESTORE_ZERO_FILLS := false,
    offset_pos := by decide, offset_le_phys := by decide, phys_le := by decide }

/-- A configuration with `2^32` pages: 4 words per page, 32 frames, 16 levels. -/
def cfgWide : Config :=
  { OFFSET_WIDTH := 2, PHYSICAL_ADDRESS_WIDTH := 7, VIRTUAL_ADDRESS_WIDTH := 34,
    RESTORE_ZERO_FILLS := false,
    offset_pos := by decide, offset_le_phys := by decide, phys_le := by decide }

/-- A configuration with fewer frames than a walk needs: 2 words per page,
2 frames, 2 levels. -/
def cfgTiny : Config :=
  { OFFSET_WIDTH := 1, PHYSICAL_ADDRESS_WIDTH := 2, VIRTUAL_ADDRESS_WIDTH := 3,
    RESTORE_ZERO_FILLS := false,
    offset_pos := by decide, offset_le_phys := by decide, phys_le := by decide }

/-- A configuration whose offset modulus `2 << (OFFSET_WIDTH - 1)` does not fit
an `int`: `OFFSET_WIDTH = PHYSICAL_ADDRESS_WIDTH = VIRTUAL_ADDRESS_WIDTH = 32`
(one frame, one page, no table level). -/
def cfgInt32 : Config :=
  { OFFSET_WIDTH := 32, PHYSICAL_ADDRESS_WIDTH := 32, VIRTUAL_ADDRESS_WIDTH := 32,
    RESTORE_ZERO_FILLS := false,
    offset_pos := by decide, offset_le_phys := by decide, phys_le := by decide }

/-- The powered-on memory: all words zero, empty backing store. -/
def zeroMem : Mem := { ram := fun _ => 0, swap := fun _ => none }

/-- The value of a call that returned, and `d` for a call that faulted. -/
def okVal {α : Type} (d : α) : Except Fault α → α
  | .ok a => a
  | .error _ => d

/-- The fault of a call that faulted. -/
def faultOf {α : Type} : Except Fault α → Option Fault
  | .ok _ => none
  | .error e => some e

/-- The memory after `VMinitialize` on the powered-on memory. -/
def memInit (cfg : Config) : Mem := okVal zeroMem ( VMinitialize cfg zeroMem)

/-- The memory after a `VMwrite`. -/
def memWrite (cfg : Config) (s : Mem) (a : Nat) (v : Int) : Mem :=
  (okVal (0, s) (VMwrite cfg s a v)).2

/-- The memory after a `VMread`. -/
def memRead (cfg : Config) (s : Mem) (a : Nat) : Mem :=
  (okVal (0, 0, s) (VMread cfg s a)).2.2

/-- The status and the word of a `VMread`, when it returns. -/
def readOut (cfg : Config) (s : Mem) (a : Nat) : Option (Int × Int) :=
  match VMread cfg s a with
  | .ok r => some (r.1, r.2.1)
  | .error _ => none

/-- The status of a `VMwrite`, when it returns. -/
def writeOut (cfg : Config) (s : Mem) (a : Nat) (v : Int) : Option Int :=
  match VMwrite cfg s a v with
  | .ok r => some r.1
  | .error _ => none

/-- The frame a `_traverse_tree` returns, when it returns. -/
def walkOut (cfg : Config) (s : Mem) (page : Nat) : Option Int :=
  match _traverse_tree cfg s page with
  | .ok r => some r.1
  | .error _ => none

/-- The state of the scenario in `cfgWide`: after `VMinitialize` and
`VMwrite(0, 5)`. -/
def wideMem : Mem := memWrite cfgWide (memInit cfgWide) 0 5

/-- The first 15 of the 16 iterations of the walk for page `2^30` from
`wideMem`. -/
def wideLoop : Except Fault (Int × Mem) := traverseLoop cfgWide 1073741824 15 1 0 wideMem

/-- The scan that the 16th iteration starts. -/
def wideFind : Except Fault (Int × Mem × Search) :=
  _find_frame cfgWide 1073741824 (toU64 (okVal (0, zeroMem) wideLoop).1) cfgWide.TABLES_DEPTH
    0 0 (okVal (0, zeroMem) wideLoop).2 Search.start

/-- The state of the scenarios in `cfgSmall`: after `VMinitialize` and
`VMwrite(0, 5)`. -/
def smallMem : Mem := memWrite cfgSmall (memInit cfgSmall) 0 5

/-! ## The walk, read without allocating -/

/-- The index chunk of step `i` of the walk, `currentOffset` (line 136, and
line 108 with `add_width = rounded_add_width`). -/
def chunk (cfg : Config) (page i : Nat) : Nat :=
  (page >>> (rounded_add_width cfg - i * cfg.OFFSET_WIDTH)) % (1 <<< cfg.OFFSET_WIDTH)

/-- The walk of `_traverse_tree` on a path without zero entries: `n` steps
from frame `address`, step `i` first; `none` when an entry on the way is
zero. -/
def readWalk (cfg : Config) (ram : Nat → Int) (page : Nat) : Nat → Nat → Nat → Option Nat
  | 0, _, address => some address
  | n + 1, i, address =>
      if ram (address * cfg.PAGE_SIZE + chunk cfg page i) = 0 then none
      else readWalk cfg ram page n (i + 1)
        (toU64 (ram (address * cfg.PAGE_SIZE + chunk cfg page i)))

/-- The prefix `_find_frame` has accumulated (line 71,
`(p << OFFSET_WIDTH) + frameRow`) after descending along the first `i` chunks
of the walk of `page`. -/
def accumulate (cfg : Config) (page : Nat) : Nat → Nat
  | 0 => 0
  | i + 1 => (accumulate cfg page i <<< cfg.OFFSET_WIDTH) + chunk cfg page (i + 1)

/-- The entries the loop of `_unlink_parent` reads (line 110) when it runs
`n` more iterations from iteration `i` without meeting `frame`. -/
def unlinkReads (cfg : Config) (ram : Nat → Int) (page add_width : Nat) :
    Nat → Nat → Int → List Int
  | 0, _, _ => []
  | n + 1, i, address =>
      let currentOffset := (page >>> (add_width - i * cfg.OFFSET_WIDTH)) % (1 <<< cfg.OFFSET_WIDTH)
      ram (toU64 (address * cfg.PAGE_SIZE + currentOffset)) ::
        unlinkReads cfg ram page add_width n (i + 1)
          (ram (toU64 (address * cfg.PAGE_SIZE + currentOffset)))

/-- A configuration whose top chunk is narrow: 4 words per page, 8 frames,
8 pages, 2 levels, a top chunk of 1 bit. -/
def cfgNarrow : Config :=
  { OFFSET_WIDTH := 2, PHYSICAL_ADDRESS_WIDTH := 5, VIRTUAL_ADDRESS_WIDTH := 5,
    RESTORE_ZERO_FILLS := false,
    offset_pos := by decide, offset_le_phys := by decide, phys_le := by decide }

/-- A memory no sequence of calls produces: entry 0 of the root holds frame 3,
every other word is zero. -/
def strayMem : Mem := { ram := fun a => if a = 0 then 3 else 0, swap := fun _ => none }

/-- The loop of the walk for page 0 on the initial memory of `cfgSmall`. -/
def smallLoop : Except Fault (Int × Mem) :=
  traverseLoop cfgSmall 0 (rounded_add_width cfgSmall / cfgSmall.OFFSET_WIDTH) 1 0
    (memInit cfgSmall)

/-- The restore that ends the walk for page 0 on the initial memory of
`cfgSmall`. -/
def smallRestore : Except Fault Mem :=
  PMrestore cfgSmall (okVal (0, zeroMem) smallLoop).2 (toU64 (okVal (0, zeroMem) smallLoop).1) 0

theorem PAGE_SIZE_pos (cfg : Config) : 0 < cfg.PAGE_SIZE := by
  unfold Config.PAGE_SIZE; positivity

theorem NUM_FRAMES_pos (cfg : Config) : 0 < cfg.NUM_FRAMES := by
  unfold Config.NUM_FRAMES; positivity

theorem NUM_PAGES_pos (cfg : Config) : 0 < cfg.NUM_PAGES := by
  unfold Config.NUM_PAGES; positivity

theorem RAM_SIZE_eq (cfg : Config) : cfg.RAM_SIZE = 2 ^ cfg.PHYSICAL_ADDRESS_WIDTH := by
  unfold Config.RAM_SIZE Config.NUM_FRAMES Config.PAGE_SIZE
  rw [← pow_add]
  congr 1
  have := cfg.offset_le_phys
  omega

theorem RAM_SIZE_le (cfg : Config) : cfg.RAM_SIZE ≤ 2 ^ 64 := by
  rw [RAM_SIZE_eq]
  exact Nat.pow_le_pow_right (by norm_num) cfg.phys_le

theorem NUM_FRAMES_le (cfg : Config) : cfg.NUM_FRAMES ≤ 2 ^ 63 := by
  unfold Config.NUM_FRAMES
  apply Nat.pow_le_pow_right (by norm_num)
  have := cfg.offset_pos
  have := cfg.phys_le
  omega

theorem row_lt_ram (cfg : Config) {f row : Nat} (hf : f < cfg.NUM_FRAMES)
    (hr : row < cfg.PAGE_SIZE) : f * cfg.PAGE_SIZE + row < cfg.RAM_SIZE := by
  unfold Config.RAM_SIZE
  calc f * cfg.PAGE_SIZE + row < f * cfg.PAGE_SIZE + cfg.PAGE_SIZE := by omega
    _ = (f + 1) * cfg.PAGE_SIZE := by ring
    _ ≤ cfg.NUM_FRAMES * cfg.PAGE_SIZE := Nat.mul_le_mul_right _ hf

theorem frame_lt_of_row_lt (cfg : Config) {f row : Nat}
    (h : f * cfg.PAGE_SIZE + row < cfg.RAM_SIZE) : f < cfg.NUM_FRAMES := by
  unfold Config.RAM_SIZE at h
  by_contra hc
  have h1 : cfg.NUM_FRAMES * cfg.PAGE_SIZE ≤ f * cfg.PAGE_SIZE :=
    Nat.mul_le_mul_right _ (by omega)
  omega

theorem toU64_natCast {n : Nat} (h : n < 2 ^ 64) : toU64 (n : Int) = n := by
  unfold toU64
  have h1 : ((n : Int)) % 2 ^ 64 = n := by
    apply Int.emod_eq_of_lt
    · exact Int.natCast_nonneg n
    · exact_mod_cast h
  rw [h1]; simp

theorem toU64_lt (w : Int) : toU64 w < 2 ^ 64 := by
  unfold toU64
  have h1 : 0 ≤ w % 2 ^ 64 := Int.emod_nonneg _ (by norm_num)
  have h2 : w % 2 ^ 64 < 2 ^ 64 := Int.emod_lt_of_pos _ (by norm_num)
  omega

theorem rounded_eq (cfg : Config) :
    rounded_add_width cfg = cfg.TABLES_DEPTH * cfg.OFFSET_WIDTH := by
  have hp := cfg.offset_pos
  unfold rounded_add_width Config.TABLES_DEPTH
  generalize cfg.VIRTUAL_ADDRESS_WIDTH - cfg.OFFSET_WIDTH = w
  generalize cfg.OFFSET_WIDTH = k at hp
  have hdm := Nat.div_add_mod w k
  have hml := Nat.mod_lt w hp
  simp only
  split_ifs with h
  · have e1 : k * (w / k + 1) = k * (w / k) + k := by ring
    have e2 : (w / k + 1 + 1) * k = k * (w / k) + k + k := by ring
    have e3 : (w / k + 1) * k = k * (w / k) + k := by ring
    have h3 : (w + (k - 1)) / k = w / k + 1 :=
      Nat.div_eq_of_lt_le (by rw [e3]; omega) (by rw [e2]; omega)
    rw [h3, e3]
    omega
  · have h0 : w % k = 0 := by simpa using h
    have e2 : (w / k + 1) * k = k * (w / k) + k := by ring
    have e3 : w / k * k = k * (w / k) := by ring
    have h3 : (w + (k - 1)) / k = w / k :=
      Nat.div_eq_of_lt_le (by rw [e3]; omega) (by rw [e2]; omega)
    rw [h3, e3]
    omega

theorem rounded_div (cfg : Config) :
    rounded_add_width cfg / cfg.OFFSET_WIDTH = cfg.TABLES_DEPTH := by
  rw [rounded_eq, Nat.mul_div_cancel _ cfg.offset_pos]

theorem PAGE_SIZE_pow (cfg : Config) (k : Nat) :
    cfg.PAGE_SIZE ^ k = 2 ^ (cfg.OFFSET_WIDTH * k) := by
  unfold Config.PAGE_SIZE; rw [pow_mul]

theorem width_le_rounded (cfg : Config) :
    cfg.VIRTUAL_ADDRESS_WIDTH - cfg.OFFSET_WIDTH ≤ cfg.OFFSET_WIDTH * cfg.TABLES_DEPTH := by
  have h := rounded_eq cfg
  rw [Nat.mul_comm] at h
  rw [← h]
  unfold rounded_add_width
  simp only
  split_ifs <;> omega

theorem NUM_PAGES_le (cfg : Config) : cfg.NUM_PAGES ≤ cfg.PAGE_SIZE ^ cfg.TABLES_DEPTH := by
  rw [PAGE_SIZE_pow]
  exact Nat.pow_le_pow_right (by norm_num) (width_le_rounded cfg)

/-! ## Loops and primitives -/

theorem forEach_append {σ : Type} (body : Nat → σ → Except Fault σ) (l1 l2 : List Nat) (s : σ) :
    forEach body (l1 ++ l2) s =
      match forEach body l1 s with
      | .ok s' => forEach body l2 s'
      | .error e => .error e := by
  induction l1 generalizing s with
  | nil => simp [forEach]
  | cons i rest ih =>
      simp only [List.cons_append, forEach]
      cases body i s with
      | error e => simp
      | ok s' => simpa using ih s'

theorem PMread_ok (cfg : Config) (m : Mem) {a : Nat} (h : a < cfg.RAM_SIZE) :
    PMread cfg m a = .ok (m.ram a) := by
  simp [PMread, h]

theorem PMwrite_ok (cfg : Config) (m : Mem) {a : Nat} (v : Int) (h : a < cfg.RAM_SIZE) :
    PMwrite cfg m a v = .ok { m with ram := setWord m.ram a v } := by
  unfold PMwrite
  rw [if_pos h]
  rfl

theorem rowAddr_mod (cfg : Config) {f row : Nat} (hf : f < cfg.NUM_FRAMES)
    (hr : row < cfg.PAGE_SIZE) :
    (f * cfg.PAGE_SIZE + row) % 2 ^ 64 = f * cfg.PAGE_SIZE + row :=
  Nat.mod_eq_of_lt (lt_of_lt_of_le (row_lt_ram cfg hf hr) (RAM_SIZE_le cfg))

theorem div_eq_frame (cfg : Config) (f row : Nat) (hr : row < cfg.PAGE_SIZE) :
    (f * cfg.PAGE_SIZE + row) / cfg.PAGE_SIZE = f := by
  rw [Nat.mul_comm, Nat.mul_add_div (PAGE_SIZE_pos cfg), Nat.div_eq_of_lt hr]; simp

theorem mod_eq_row (cfg : Config) (f row : Nat) (hr : row < cfg.PAGE_SIZE) :
    (f * cfg.PAGE_SIZE + row) % cfg.PAGE_SIZE = row := by
  rw [Nat.mul_comm, Nat.mul_add_mod, Nat.mod_eq_of_lt hr]

theorem rowAddr_inj (cfg : Config) {f g r s : Nat} (hr : r < cfg.PAGE_SIZE)
    (hs : s < cfg.PAGE_SIZE) (h : f * cfg.PAGE_SIZE + r = g * cfg.PAGE_SIZE + s) :
    f = g ∧ r = s := by
  have h1 := congrArg (· / cfg.PAGE_SIZE) h
  have h2 := congrArg (· % cfg.PAGE_SIZE) h
  simp only [div_eq_frame cfg _ _ hr, div_eq_frame cfg _ _ hs, mod_eq_row cfg _ _ hr,
    mod_eq_row cfg _ _ hs] at h1 h2
  exact ⟨h1, h2⟩

theorem clearTable_rows (cfg : Config) (m : Mem) (f : Nat) (hf : f < cfg.NUM_FRAMES)
    (n : Nat) (hn : n ≤ cfg.PAGE_SIZE) :
    forEach (fun i m => PMwrite cfg m ((f * cfg.PAGE_SIZE + i) % 2 ^ 64) 0) (List.range n) m =
      .ok { m with ram := fun a =>
              if a / cfg.PAGE_SIZE = f ∧ a % cfg.PAGE_SIZE < n then 0 else m.ram a } := by
  induction n with
  | zero => simp [forEach]
  | succ n ih =>
      rw [List.range_succ, forEach_append, ih (by omega)]
      simp only [forEach]
      rw [rowAddr_mod cfg hf (by omega), PMwrite_ok cfg _ _ (row_lt_ram cfg hf (by omega))]
      simp only
      congr 2
      funext a
      show (if a = f * cfg.PAGE_SIZE + n then (0 : Int) else _) = _
      by_cases ha : a = f * cfg.PAGE_SIZE + n
      · subst ha
        simp [div_eq_frame cfg f n (by omega), mod_eq_row cfg f n (by omega)]
      · simp only [ha, if_false]
        by_cases hd : a / cfg.PAGE_SIZE = f
        · have hne : a % cfg.PAGE_SIZE ≠ n := by
            intro hmod
            apply ha
            have := Nat.div_add_mod a cfg.PAGE_SIZE
            rw [hd, hmod, Nat.mul_comm] at this
            exact this.symm
          have : (a % cfg.PAGE_SIZE < n + 1) ↔ (a % cfg.PAGE_SIZE < n) := by omega
          simp [hd, this]
        · simp [hd]

theorem clearTable_eq (cfg : Config) (m : Mem) (f : Nat) (hf : f < cfg.NUM_FRAMES) :
    clearTable cfg m f = .ok { m with ram := zeroFrame cfg m.ram f } := by
  unfold clearTable
  rw [clearTable_rows cfg m f hf cfg.PAGE_SIZE le_rfl]
  congr 2
  funext a
  simp [zeroFrame, Nat.mod_lt _ (PAGE_SIZE_pos cfg)]

/-! ## The scan of `_find_frame` as a fold over the visited frames -/

theorem shiftLeft_row (cfg : Config) (p row : Nat) :
    p <<< cfg.OFFSET_WIDTH + row = p * cfg.PAGE_SIZE + row := by
  rw [Nat.shiftLeft_eq]; rfl

/-- The frames below the rows `l` of table `f`, in visiting order. -/
theorem rows_loop (cfg : Config) (page avoid rem f p : Nat) (m : Mem) (hf : f < cfg.NUM_FRAMES)
    (hinner : ∀ f' p' st',
      (∀ n ∈ nodes cfg m.ram rem f' p', n.1 ≠ 0 → n.2.2 < cfg.NUM_FRAMES) →
      ∃ c, _find_frame cfg page avoid rem f' p' m st' =
        .ok (c, m, (nodes cfg m.ram rem f' p').foldl (visitNode cfg m.ram page avoid) st')) :
    ∀ (l : List Nat) (st : Search) (nz : Nat),
      (∀ row ∈ l, row < cfg.PAGE_SIZE) →
      (∀ n ∈ l.flatMap (fun row =>
          if m.ram (f * cfg.PAGE_SIZE + row) = 0 then []
          else nodes cfg m.ram rem (toU64 (m.ram (f * cfg.PAGE_SIZE + row)))
            (p * cfg.PAGE_SIZE + row)), n.1 ≠ 0 → n.2.2 < cfg.NUM_FRAMES) →
      forEach (rowStep cfg page avoid rem f p) l (m, st, nz) =
        .ok (m,
          (l.flatMap (fun row =>
            if m.ram (f * cfg.PAGE_SIZE + row) = 0 then []
            else nodes cfg m.ram rem (toU64 (m.ram (f * cfg.PAGE_SIZE + row)))
              (p * cfg.PAGE_SIZE + row))).foldl (visitNode cfg m.ram page avoid) st,
          nz + l.countP (fun row => decide (m.ram (f * cfg.PAGE_SIZE + row) = 0))) := by
  intro l
  induction l with
  | nil => intro st nz _ _; simp [forEach]
  | cons row rest ih =>
      intro st nz hrow hb
      have hr : row < cfg.PAGE_SIZE := hrow row (List.mem_cons_self _ _)
      simp only [forEach, rowStep]
      rw [rowAddr_mod cfg hf hr, PMread_ok cfg _ (row_lt_ram cfg hf hr)]
      simp only
      by_cases hz : m.ram (f * cfg.PAGE_SIZE + row) = 0
      · simp only [hz, ne_eq, not_true_eq_false, if_false]
        rw [ih st (nz + 1) (fun r hr' => hrow r (List.mem_cons_of_mem _ hr'))]
        · simp [List.flatMap_cons, hz, List.countP_cons]
          omega
        · intro n hn
          apply hb n
          simp only [List.flatMap_cons, hz, if_true, List.nil_append]
          exact hn
      · simp only [ne_eq, hz, not_false_eq_true, if_true]
        have hb1 : ∀ n ∈ nodes cfg m.ram rem (toU64 (m.ram (f * cfg.PAGE_SIZE + row)))
            (p * cfg.PAGE_SIZE + row), n.1 ≠ 0 → n.2.2 < cfg.NUM_FRAMES := by
          intro n hn
          apply hb n
          simp only [List.flatMap_cons, hz, if_false, List.mem_append]
          exact Or.inl hn
        obtain ⟨c, hc⟩ := hinner (toU64 (m.ram (f * cfg.PAGE_SIZE + row)))
          (p * cfg.PAGE_SIZE + row) st hb1
        rw [shiftLeft_row, hc]
        simp only
        rw [ih _ nz (fun r hr' => hrow r (List.mem_cons_of_mem _ hr'))]
        · simp [List.flatMap_cons, hz, List.countP_cons, List.foldl_append]
        · intro n hn
          apply hb n
          simp only [List.flatMap_cons, hz, if_false, List.mem_append]
          exact Or.inr hn

theorem countP_range_eq (cfg : Config) (ram : Nat → Int) (f : Nat) :
    (List.range cfg.PAGE_SIZE).countP (fun row => decide (ram (f * cfg.PAGE_SIZE + row) = 0))
      = cfg.PAGE_SIZE ↔ ZeroFrame cfg ram f := by
  have h := List.countP_eq_length (p := fun row => decide (ram (f * cfg.PAGE_SIZE + row) = 0))
    (l := List.range cfg.PAGE_SIZE)
  rw [List.length_range] at h
  rw [h]
  simp [ZeroFrame]

theorem flatMap_zero (cfg : Config) (ram : Nat → Int) (rem f p : Nat)
    (hz : ZeroFrame cfg ram f) :
    (List.range cfg.PAGE_SIZE).flatMap (fun row =>
        if ram (f * cfg.PAGE_SIZE + row) = 0 then []
        else nodes cfg ram rem (toU64 (ram (f * cfg.PAGE_SIZE + row)))
          (p * cfg.PAGE_SIZE + row)) = [] := by
  rw [List.flatMap_eq_nil_iff]
  intro row hrow
  rw [if_pos (hz row (List.mem_range.mp hrow))]

/-- One call of `_find_frame` on a table, given what the recursive calls do. -/
theorem find_frame_succ (cfg : Config) (page avoid rem f p : Nat) (m : Mem) (st : Search)
    (hinner : ∀ f' p' st',
      (∀ n ∈ nodes cfg m.ram rem f' p', n.1 ≠ 0 → n.2.2 < cfg.NUM_FRAMES) →
      ∃ c, _find_frame cfg page avoid rem f' p' m st' =
        .ok (c, m, (nodes cfg m.ram rem f' p').foldl (visitNode cfg m.ram page avoid) st'))
    (hb : ∀ n ∈ nodes cfg m.ram (rem + 1) f p, n.1 ≠ 0 → n.2.2 < cfg.NUM_FRAMES) :
    _find_frame cfg page avoid (rem + 1) f p m st =
      finishFind cfg rem m
        ((nodes cfg m.ram (rem + 1) f p).foldl (visitNode cfg m.ram page avoid) st) := by
  have hf : f < cfg.NUM_FRAMES := hb (rem + 1, p, f) (by simp [nodes]) (by simp)
  rw [_find_frame]
  show (match forEach (rowStep cfg page avoid rem f p) (List.range cfg.PAGE_SIZE)
      (m, { st with maxFrame := max st.maxFrame f }, 0) with
    | Except.error e => (Except.error e : Except Fault (Int × Mem × Search))
    | Except.ok (m, st, numOfZeroRows) => finishFind cfg rem m
        (if numOfZeroRows = cfg.PAGE_SIZE then
          if f ≠ avoid then
            { st with emptyFrame := f, addressToEmpty := p <<< (cfg.OFFSET_WIDTH * (rem + 1)) }
          else st
        else st)) = _
  rw [rows_loop cfg page avoid rem f p m hf hinner (List.range cfg.PAGE_SIZE) _ 0
    (fun row h => List.mem_range.mp h)
    (fun n hn => hb n (by simp only [nodes]; exact List.mem_cons_of_mem _ hn))]
  simp only [Nat.zero_add]
  congr 1
  rw [nodes, List.foldl_cons]
  by_cases hz : ZeroFrame cfg m.ram f
  · rw [if_pos ((countP_range_eq cfg m.ram f).mpr hz), flatMap_zero cfg m.ram rem f p hz]
    simp only [List.foldl_nil, visitNode]
    by_cases ha : f = avoid
    · simp [ha]
    · simp [ha, hz]
  · rw [if_neg (fun h => hz ((countP_range_eq cfg m.ram f).mp h))]
    congr 1
    simp [visitNode, hz]

/-- Below the top level `_find_frame` only scans: the memory is unchanged and
the by-reference parameters are folded over the visited frames. -/
theorem find_frame_inner (cfg : Config) (page avoid : Nat) (m : Mem) :
    ∀ rem, rem < cfg.TABLES_DEPTH → ∀ f p st,
      (∀ n ∈ nodes cfg m.ram rem f p, n.1 ≠ 0 → n.2.2 < cfg.NUM_FRAMES) →
      ∃ c, _find_frame cfg page avoid rem f p m st =
        .ok (c, m, (nodes cfg m.ram rem f p).foldl (visitNode cfg m.ram page avoid) st) := by
  intro rem
  induction rem with
  | zero =>
      intro _ f p st _
      exact ⟨1, by simp [_find_frame, nodes, visitNode]⟩
  | succ rem ih =>
      intro hlt f p st hb
      refine ⟨2, ?_⟩
      rw [find_frame_succ cfg page avoid rem f p m st
        (fun f' p' st' hb' => ih (by omega) f' p' st' hb') hb]
      unfold finishFind
      rw [if_neg (by omega)]

/-- The top-level call of `_find_frame`. -/
theorem find_frame_top (cfg : Config) (page avoid : Nat) (m : Mem) (st : Search)
    (hD : 0 < cfg.TABLES_DEPTH)
    (hb : ∀ n ∈ nodes cfg m.ram cfg.TABLES_DEPTH 0 0, n.1 ≠ 0 → n.2.2 < cfg.NUM_FRAMES) :
    _find_frame cfg page avoid cfg.TABLES_DEPTH 0 0 m st =
      finishFind cfg (cfg.TABLES_DEPTH - 1) m
        ((nodes cfg m.ram cfg.TABLES_DEPTH 0 0).foldl (visitNode cfg m.ram page avoid) st) := by
  obtain ⟨k, hk⟩ : ∃ k, cfg.TABLES_DEPTH = k + 1 := ⟨cfg.TABLES_DEPTH - 1, by omega⟩
  rw [hk] at hb ⊢
  simp only [Nat.add_sub_cancel]
  exact find_frame_succ cfg page avoid k 0 0 m st
    (fun f' p' st' hb' => find_frame_inner cfg page avoid m k (by omega) f' p' st' hb') hb

/-! ## The visited frames are the frames of the tree -/

theorem nodes_head (cfg : Config) (ram : Nat → Int) (rem f p : Nat) :
    (rem, p, f) ∈ nodes cfg ram rem f p := by
  cases rem <;> simp [nodes]

theorem frameAt_child (cfg : Config) (ram : Nat → Int) {d p f row : Nat}
    (h : frameAt cfg ram d p = some f) (hr : row < cfg.PAGE_SIZE)
    (hv : ram (f * cfg.PAGE_SIZE + row) ≠ 0) :
    frameAt cfg ram (d + 1) (p * cfg.PAGE_SIZE + row) =
      some (toU64 (ram (f * cfg.PAGE_SIZE + row))) := by
  rw [frameAt, div_eq_frame cfg p row hr, mod_eq_row cfg p row hr, h]
  simp [hv]

theorem frameAt_child_zero (cfg : Config) (ram : Nat → Int) {d p f row : Nat}
    (h : frameAt cfg ram d p = some f) (hr : row < cfg.PAGE_SIZE)
    (hv : ram (f * cfg.PAGE_SIZE + row) = 0) :
    frameAt cfg ram (d + 1) (p * cfg.PAGE_SIZE + row) = none := by
  rw [frameAt, div_eq_frame cfg p row hr, mod_eq_row cfg p row hr, h]
  simp [hv]

/-- A position below the root has a parent, and the parent entry holds it. -/
theorem frameAt_succ_inv (cfg : Config) (ram : Nat → Int) {d p f : Nat}
    (h : frameAt cfg ram (d + 1) p = some f) :
    ∃ g, frameAt cfg ram d (p / cfg.PAGE_SIZE) = some g ∧
      ram (g * cfg.PAGE_SIZE + p % cfg.PAGE_SIZE) ≠ 0 ∧
      f = toU64 (ram (g * cfg.PAGE_SIZE + p % cfg.PAGE_SIZE)) := by
  rw [frameAt] at h
  cases hg : frameAt cfg ram d (p / cfg.PAGE_SIZE) with
  | none => rw [hg] at h; simp at h
  | some g =>
      rw [hg] at h
      simp only at h
      by_cases hv : ram (g * cfg.PAGE_SIZE + p % cfg.PAGE_SIZE) = 0
      · simp [hv] at h
      · simp only [hv, if_false, Option.some.injEq] at h
        exact ⟨g, rfl, hv, h.symm⟩

theorem frameAt_zero_inv (cfg : Config) (ram : Nat → Int) {p f : Nat}
    (h : frameAt cfg ram 0 p = some f) : p = 0 ∧ f = 0 := by
  rw [frameAt] at h
  by_cases hp : p = 0
  · simp [hp] at h; exact ⟨hp, h.symm⟩
  · simp [hp] at h

theorem frameAt_root (cfg : Config) (ram : Nat → Int) : frameAt cfg ram 0 0 = some 0 := by
  simp [frameAt]

theorem nodes_sound (cfg : Config) (ram : Nat → Int) :
    ∀ rem f p d, frameAt cfg ram d p = some f →
      ∀ n ∈ nodes cfg ram rem f p,
        n.1 ≤ rem ∧ frameAt cfg ram (d + (rem - n.1)) n.2.1 = some n.2.2 := by
  intro rem
  induction rem with
  | zero =>
      intro f p d h n hn
      simp only [nodes, List.mem_singleton] at hn
      subst hn
      exact ⟨le_rfl, by simpa using h⟩
  | succ rem ih =>
      intro f p d h n hn
      rw [nodes, List.mem_cons] at hn
      rcases hn with hn | hn
      · subst hn
        exact ⟨le_rfl, by simpa using h⟩
      · rw [List.mem_flatMap] at hn
        obtain ⟨row, hrow, hn⟩ := hn
        have hr : row < cfg.PAGE_SIZE := List.mem_range.mp hrow
        by_cases hv : ram (f * cfg.PAGE_SIZE + row) = 0
        · simp [hv] at hn
        · rw [if_neg hv] at hn
          obtain ⟨h1, h2⟩ := ih _ _ (d + 1) (frameAt_child cfg ram h hr hv) n hn
          refine ⟨by omega, ?_⟩
          have : d + (rem + 1 - n.1) = d + 1 + (rem - n.1) := by omega
          rw [this]; exact h2

theorem nodes_closed (cfg : Config) (ram : Nat → Int) :
    ∀ rem f p r q g row, (r + 1, q, g) ∈ nodes cfg ram rem f p → row < cfg.PAGE_SIZE →
      ram (g * cfg.PAGE_SIZE + row) ≠ 0 →
      (r, q * cfg.PAGE_SIZE + row, toU64 (ram (g * cfg.PAGE_SIZE + row))) ∈ nodes cfg ram rem f p := by
  intro rem
  induction rem with
  | zero =>
      intro f p r q g row hn _ _
      simp [nodes] at hn
  | succ rem ih =>
      intro f p r q g row hn hr hv
      rw [nodes, List.mem_cons] at hn
      rw [nodes, List.mem_cons]
      right
      rw [List.mem_flatMap]
      rcases hn with hn | hn
      · simp only [Prod.mk.injEq, add_left_inj] at hn
        obtain ⟨h1, h2, h3⟩ := hn
        subst h1 h2 h3
        refine ⟨row, List.mem_range.mpr hr, ?_⟩
        rw [if_neg hv]
        exact nodes_head cfg ram _ _ _
      · rw [List.mem_flatMap] at hn
        obtain ⟨row', hrow', hn⟩ := hn
        refine ⟨row', hrow', ?_⟩
        by_cases hv' : ram (f * cfg.PAGE_SIZE + row') = 0
        · simp [hv'] at hn
        · rw [if_neg hv'] at hn ⊢
          exact ih _ _ r q g row hn hr hv

theorem nodes_complete (cfg : Config) (ram : Nat → Int) :
    ∀ d p f, d ≤ cfg.TABLES_DEPTH → frameAt cfg ram d p = some f →
      (cfg.TABLES_DEPTH - d, p, f) ∈ nodes cfg ram cfg.TABLES_DEPTH 0 0 := by
  intro d
  induction d with
  | zero =>
      intro p f _ h
      obtain ⟨hp, hf⟩ := frameAt_zero_inv cfg ram h
      subst hp hf
      exact nodes_head cfg ram _ _ _
  | succ d ih =>
      intro p f hd h
      obtain ⟨g, hg, hv, hf⟩ := frameAt_succ_inv cfg ram h
      have hmem := ih (p / cfg.PAGE_SIZE) g (by omega) hg
      have e : cfg.TABLES_DEPTH - d = (cfg.TABLES_DEPTH - (d + 1)) + 1 := by omega
      rw [e] at hmem
      have := nodes_closed cfg ram _ _ _ _ _ _ (p % cfg.PAGE_SIZE) hmem
        (Nat.mod_lt _ (PAGE_SIZE_pos cfg)) hv
      rw [← hf, Nat.div_add_mod' p cfg.PAGE_SIZE] at this
      exact this

/-- The frames `_find_frame` visits from the root are the positions of the tree. -/
theorem mem_nodes_iff (cfg : Config) (ram : Nat → Int) (n : Nat × Nat × Nat) :
    n ∈ nodes cfg ram cfg.TABLES_DEPTH 0 0 ↔
      n.1 ≤ cfg.TABLES_DEPTH ∧ frameAt cfg ram (cfg.TABLES_DEPTH - n.1) n.2.1 = some n.2.2 := by
  constructor
  · intro h
    have := nodes_sound cfg ram cfg.TABLES_DEPTH 0 0 0 (frameAt_root cfg ram) n h
    simpa using this
  · rintro ⟨h1, h2⟩
    have := nodes_complete cfg ram (cfg.TABLES_DEPTH - n.1) n.2.1 n.2.2 (by omega) h2
    have e : cfg.TABLES_DEPTH - (cfg.TABLES_DEPTH - n.1) = n.1 := by omega
    rw [e] at this
    exact this

/-! ## What the fold computes -/

theorem visitLeaf_maxFrame (cfg : Config) (page avoid f p : Nat) (st : Search) :
    (visitLeaf cfg page avoid f p st).maxFrame = st.maxFrame := by
  unfold visitLeaf
  by_cases h : f = avoid
  · simp [h]
  · simp only [ne_eq, h, not_false_eq_true, if_true]
    split_ifs <;> simp

theorem visitLeaf_emptyFrame (cfg : Config) (page avoid f p : Nat) (st : Search) :
    (visitLeaf cfg page avoid f p st).emptyFrame = st.emptyFrame ∧
    (visitLeaf cfg page avoid f p st).addressToEmpty = st.addressToEmpty := by
  unfold visitLeaf
  by_cases h : f = avoid
  · simp [h]
  · simp only [ne_eq, h, not_false_eq_true, if_true]
    split_ifs <;> simp

theorem visitNode_maxFrame (cfg : Config) (ram : Nat → Int) (page avoid : Nat) (st : Search)
    (n : Nat × Nat × Nat) :
    (visitNode cfg ram page avoid st n).maxFrame = max st.maxFrame n.2.2 := by
  unfold visitNode
  simp only
  split_ifs
  · rw [visitLeaf_maxFrame]
  · rfl
  · rfl

theorem fold_maxFrame_ge (cfg : Config) (ram : Nat → Int) (page avoid : Nat) :
    ∀ (l : List (Nat × Nat × Nat)) (st : Search),
      st.maxFrame ≤ (l.foldl (visitNode cfg ram page avoid) st).maxFrame ∧
      ∀ n ∈ l, n.2.2 ≤ (l.foldl (visitNode cfg ram page avoid) st).maxFrame := by
  intro l
  induction l with
  | nil => intro st; simp
  | cons a l ih =>
      intro st
      rw [List.foldl_cons]
      obtain ⟨h1, h2⟩ := ih (visitNode cfg ram page avoid st a)
      rw [visitNode_maxFrame] at h1
      refine ⟨le_trans (le_max_left _ _) h1, ?_⟩
      intro n hn
      rcases List.mem_cons.mp hn with h | h
      · subst h; exact le_trans (le_max_right _ _) h1
      · exact h2 n h

theorem fold_maxFrame_mem (cfg : Config) (ram : Nat → Int) (page avoid : Nat) :
    ∀ (l : List (Nat × Nat × Nat)) (st : Search),
      (l.foldl (visitNode cfg ram page avoid) st).maxFrame = st.maxFrame ∨
      ∃ n ∈ l, n.2.2 = (l.foldl (visitNode cfg ram page avoid) st).maxFrame := by
  intro l
  induction l with
  | nil => intro st; simp
  | cons a l ih =>
      intro st
      rw [List.foldl_cons]
      rcases ih (visitNode cfg ram page avoid st a) with h | ⟨n, hn, h⟩
      · rw [visitNode_maxFrame] at h
        rcases le_total st.maxFrame a.2.2 with hle | hle
        · right
          exact ⟨a, List.mem_cons_self _ _, by rw [h, max_eq_right hle]⟩
        · left
          rw [h, max_eq_left hle]
      · right
        exact ⟨n, List.mem_cons_of_mem _ hn, h⟩

theorem visitNode_empty (cfg : Config) (ram : Nat → Int) (page avoid : Nat) (st : Search)
    (n : Nat × Nat × Nat) :
    (EmptyCand cfg ram avoid n ∧
      (visitNode cfg ram page avoid st n).emptyFrame = n.2.2 ∧
      (visitNode cfg ram page avoid st n).addressToEmpty = n.2.1 <<< (cfg.OFFSET_WIDTH * n.1)) ∨
    (¬ EmptyCand cfg ram avoid n ∧
      (visitNode cfg ram page avoid st n).emptyFrame = st.emptyFrame ∧
      (visitNode cfg ram page avoid st n).addressToEmpty = st.addressToEmpty) := by
  unfold visitNode EmptyCand
  simp only
  by_cases h0 : n.1 = 0
  · right
    rw [if_pos h0]
    refine ⟨by simp [h0], ?_⟩
    exact visitLeaf_emptyFrame cfg page avoid _ _ _
  · rw [if_neg h0]
    by_cases hc : ZeroFrame cfg ram n.2.2 ∧ n.2.2 ≠ avoid
    · left
      rw [if_pos hc]
      exact ⟨⟨h0, hc⟩, rfl, rfl⟩
    · right
      rw [if_neg hc]
      exact ⟨fun h => hc h.2, rfl, rfl⟩

/-- The empty intermediate the scan ends with is the last one it met. -/
theorem fold_empty (cfg : Config) (ram : Nat → Int) (page avoid : Nat) :
    ∀ (l : List (Nat × Nat × Nat)) (st : Search),
      ((l.foldl (visitNode cfg ram page avoid) st).emptyFrame = st.emptyFrame ∧
        (l.foldl (visitNode cfg ram page avoid) st).addressToEmpty = st.addressToEmpty ∧
        ∀ n ∈ l, ¬ EmptyCand cfg ram avoid n) ∨
      ∃ n ∈ l, EmptyCand cfg ram avoid n ∧
        (l.foldl (visitNode cfg ram page avoid) st).emptyFrame = n.2.2 ∧
        (l.foldl (visitNode cfg ram page avoid) st).addressToEmpty =
          n.2.1 <<< (cfg.OFFSET_WIDTH * n.1) := by
  intro l
  induction l with
  | nil => intro st; left; simp
  | cons a l ih =>
      intro st
      rw [List.foldl_cons]
      rcases ih (visitNode cfg ram page avoid st a) with ⟨h1, h2, h3⟩ | ⟨n, hn, h⟩
      · rcases visitNode_empty cfg ram page avoid st a with ⟨hc, e1, e2⟩ | ⟨hc, e1, e2⟩
        · right
          exact ⟨a, List.mem_cons_self _ _, hc, by rw [h1, e1], by rw [h2, e2]⟩
        · left
          refine ⟨by rw [h1, e1], by rw [h2, e2], ?_⟩
          intro n hn
          rcases List.mem_cons.mp hn with h | h
          · subst h; exact hc
          · exact h3 n h
      · right
        exact ⟨n, List.mem_cons_of_mem _ hn, h⟩

/-! ## The eviction candidate -/

theorem visitNode_evict (cfg : Config) (ram : Nat → Int) (page avoid : Nat) (st : Search)
    (n : Nat × Nat × Nat) :
    (¬ LeafCand avoid n ∧
      (visitNode cfg ram page avoid st n).maxCyclicDistance = st.maxCyclicDistance ∧
      (visitNode cfg ram page avoid st n).frameToEvict = st.frameToEvict ∧
      (visitNode cfg ram page avoid st n).pageToEvict = st.pageToEvict) ∨
    (LeafCand avoid n ∧ st.maxCyclicDistance ≤ leafDist cfg page n.2.1 ∧
      (visitNode cfg ram page avoid st n).maxCyclicDistance = leafDist cfg page n.2.1 ∧
      (visitNode cfg ram page avoid st n).frameToEvict = some n.2.2 ∧
      (visitNode cfg ram page avoid st n).pageToEvict = some n.2.1) ∨
    (LeafCand avoid n ∧ leafDist cfg page n.2.1 < st.maxCyclicDistance ∧
      (visitNode cfg ram page avoid st n).maxCyclicDistance = st.maxCyclicDistance ∧
      (visitNode cfg ram page avoid st n).frameToEvict = st.frameToEvict ∧
      (visitNode cfg ram page avoid st n).pageToEvict = st.pageToEvict) := by
  unfold visitNode LeafCand
  simp only
  by_cases h0 : n.1 = 0
  · rw [if_pos h0]
    unfold visitLeaf
    by_cases ha : n.2.2 = avoid
    · left
      simp [ha]
    · right
      simp only [ne_eq, ha, not_false_eq_true, if_true]
      rcases le_or_lt st.maxCyclicDistance (leafDist cfg page n.2.1) with hle | hlt
      · left
        rw [max_eq_right hle]
        simp [h0, hle]
      · right
        rw [max_eq_left (le_of_lt hlt), if_neg (ne_of_lt hlt)]
        simp [h0, hlt]
  · left
    rw [if_neg h0]
    refine ⟨fun h => h0 h.1, ?_⟩
    split_ifs <;> simp

/-- Whatever the distances are, a recorded eviction candidate is a leaf the
scan met, other than the avoided frame. -/
theorem fold_evict_mem (cfg : Config) (ram : Nat → Int) (page avoid : Nat) :
    ∀ (l : List (Nat × Nat × Nat)) (st : Search),
      ((l.foldl (visitNode cfg ram page avoid) st).frameToEvict = st.frameToEvict ∧
        (l.foldl (visitNode cfg ram page avoid) st).pageToEvict = st.pageToEvict) ∨
      ∃ n ∈ l, LeafCand avoid n ∧
        (l.foldl (visitNode cfg ram page avoid) st).frameToEvict = some n.2.2 ∧
        (l.foldl (visitNode cfg ram page avoid) st).pageToEvict = some n.2.1 := by
  intro l
  induction l with
  | nil => intro st; left; simp
  | cons a l ih =>
      intro st
      rw [List.foldl_cons]
      rcases ih (visitNode cfg ram page avoid st a) with ⟨h1, h2⟩ | ⟨n, hn, h⟩
      · rcases visitNode_evict cfg ram page avoid st a with
          ⟨_, _, e1, e2⟩ | ⟨hc, _, _, e1, e2⟩ | ⟨_, _, _, e1, e2⟩
        · left; exact ⟨by rw [h1, e1], by rw [h2, e2]⟩
        · right; exact ⟨a, List.mem_cons_self _ _, hc, by rw [h1, e1], by rw [h2, e2]⟩
        · left; exact ⟨by rw [h1, e1], by rw [h2, e2]⟩
      · right
        exact ⟨n, List.mem_cons_of_mem _ hn, h⟩

theorem bestOf_step (cfg : Config) (ram : Nat → Int) (page avoid : Nat)
    (seen : List (Nat × Nat × Nat)) (st : Search) (a : Nat × Nat × Nat)
    (h : BestOf cfg page avoid seen st)
    (hd : LeafCand avoid a → 0 ≤ leafDist cfg page a.2.1) :
    BestOf cfg page avoid (seen ++ [a]) (visitNode cfg ram page avoid st a) := by
  rcases visitNode_evict cfg ram page avoid st a with
    ⟨hc, e0, e1, e2⟩ | ⟨hc, hle, e0, e1, e2⟩ | ⟨hc, hlt, e0, e1, e2⟩
  · -- not a candidate: the record is unchanged
    rcases h with ⟨h0, h1, h2, h3⟩ | ⟨l1, n, l2, hs, hn, h1, h2, h0, h3, h4⟩
    · left
      refine ⟨by rw [e0, h0], by rw [e1, h1], by rw [e2, h2], ?_⟩
      intro n hn
      rcases List.mem_append.mp hn with hn | hn
      · exact h3 n hn
      · rw [List.mem_singleton] at hn; subst hn; exact hc
    · right
      refine ⟨l1, n, l2 ++ [a], by rw [hs]; simp, hn, by rw [e1, h1], by rw [e2, h2],
        by rw [e0, h0], h3, ?_⟩
      intro n' hn' hc'
      rcases List.mem_append.mp hn' with hn' | hn'
      · exact h4 n' hn' hc'
      · rw [List.mem_singleton] at hn'; subst hn'; exact absurd hc' hc
  · -- a candidate at least as far as the record: it replaces the record
    right
    refine ⟨seen, a, [], rfl, hc, e1, e2, e0, ?_, by simp⟩
    intro n' hn' hc'
    rcases h with ⟨_, _, _, h3⟩ | ⟨l1, n, l2, hs, hn, _, _, h0, h3, h4⟩
    · exact absurd hc' (h3 n' hn')
    · rw [h0] at hle
      rw [hs] at hn'
      rcases List.mem_append.mp hn' with hn' | hn'
      · exact le_trans (h3 n' hn' hc') hle
      · rcases List.mem_cons.mp hn' with hn' | hn'
        · subst hn'; exact hle
        · exact le_trans (le_of_lt (h4 n' hn' hc')) hle
  · -- a nearer candidate: the record is kept
    rcases h with ⟨h0, _, _, _⟩ | ⟨l1, n, l2, hs, hn, h1, h2, h0, h3, h4⟩
    · have := hd hc
      rw [h0] at hlt
      omega
    · right
      refine ⟨l1, n, l2 ++ [a], by rw [hs]; simp, hn, by rw [e1, h1], by rw [e2, h2],
        by rw [e0, h0], h3, ?_⟩
      intro n' hn' hc'
      rcases List.mem_append.mp hn' with hn' | hn'
      · exact h4 n' hn' hc'
      · rw [List.mem_singleton] at hn'; subst hn'; rw [← h0]; exact hlt

theorem bestOf_fold (cfg : Config) (ram : Nat → Int) (page avoid : Nat) :
    ∀ (l seen : List (Nat × Nat × Nat)) (st : Search),
      BestOf cfg page avoid seen st →
      (∀ a ∈ l, LeafCand avoid a → 0 ≤ leafDist cfg page a.2.1) →
      BestOf cfg page avoid (seen ++ l) (l.foldl (visitNode cfg ram page avoid) st) := by
  intro l
  induction l with
  | nil => intro seen st h _; simpa using h
  | cons a l ih =>
      intro seen st h hd
      rw [List.foldl_cons]
      have h1 := bestOf_step cfg ram page avoid seen st a h (hd a (List.mem_cons_self _ _))
      have h2 := ih (seen ++ [a]) _ h1 (fun b hb => hd b (List.mem_cons_of_mem _ hb))
      simpa using h2

theorem bestOf_start (cfg : Config) (page avoid : Nat) :
    BestOf cfg page avoid [] Search.start := by
  left
  simp [Search.start]

/-! ## Leaves are met in ascending page order -/

/-- Changing words outside the reachable tables does not change the tree. -/
theorem frameAt_congr (cfg : Config) (ram ram' : Nat → Int)
    (h : ∀ d p f row, d < cfg.TABLES_DEPTH → frameAt cfg ram d p = some f →
      row < cfg.PAGE_SIZE → ram' (f * cfg.PAGE_SIZE + row) = ram (f * cfg.PAGE_SIZE + row)) :
    ∀ d, d ≤ cfg.TABLES_DEPTH → ∀ p, frameAt cfg ram' d p = frameAt cfg ram d p := by
  intro d
  induction d with
  | zero => intro _ p; simp [frameAt]
  | succ d ih =>
      intro hd p
      rw [frameAt, frameAt, ih (by omega)]
      cases hf : frameAt cfg ram d (p / cfg.PAGE_SIZE) with
      | none => rfl
      | some f =>
          simp only
          rw [h d _ f _ (by omega) hf (Nat.mod_lt _ (PAGE_SIZE_pos cfg))]

theorem setWord_same (ram : Nat → Int) (a : Nat) (v : Int) : setWord ram a v a = v := by
  simp [setWord]

theorem setWord_other (ram : Nat → Int) {a b : Nat} (v : Int) (h : b ≠ a) :
    setWord ram a v b = ram b := by
  simp [setWord, h]

theorem zeroFrame_same (cfg : Config) (ram : Nat → Int) (f row : Nat)
    (hr : row < cfg.PAGE_SIZE) : zeroFrame cfg ram f (f * cfg.PAGE_SIZE + row) = 0 := by
  simp [zeroFrame, div_eq_frame cfg f row hr]

theorem zeroFrame_other (cfg : Config) (ram : Nat → Int) {f g : Nat} (row : Nat)
    (hr : row < cfg.PAGE_SIZE) (h : g ≠ f) :
    zeroFrame cfg ram f (g * cfg.PAGE_SIZE + row) = ram (g * cfg.PAGE_SIZE + row) := by
  simp [zeroFrame, div_eq_frame cfg g row hr, h]

/-- Zeroing the entry that holds a frame without children removes that one
position from the tree. -/
theorem frameAt_detach (cfg : Config) (ram : Nat → Int) (dg pg g c : Nat)
    (hinj : ∀ d p d' p' f, d ≤ cfg.TABLES_DEPTH → d' ≤ cfg.TABLES_DEPTH →
      frameAt cfg ram d p = some f → frameAt cfg ram d' p' = some f → d = d' ∧ p = p')
    (hg : frameAt cfg ram dg pg = some g) (hdg : dg < cfg.TABLES_DEPTH)
    (hc : c < cfg.PAGE_SIZE)
    (hX : ∀ X, frameAt cfg ram (dg + 1) (pg * cfg.PAGE_SIZE + c) = some X →
      dg + 1 < cfg.TABLES_DEPTH → ZeroFrame cfg ram X) :
    ∀ d, d ≤ cfg.TABLES_DEPTH → ∀ p,
      frameAt cfg (setWord ram (g * cfg.PAGE_SIZE + c) 0) d p =
        if d = dg + 1 ∧ p = pg * cfg.PAGE_SIZE + c then none else frameAt cfg ram d p := by
  intro d
  induction d with
  | zero => intro _ p; simp [frameAt]
  | succ d ih =>
      intro hd p
      have hmod : p % cfg.PAGE_SIZE < cfg.PAGE_SIZE := Nat.mod_lt _ (PAGE_SIZE_pos cfg)
      rw [frameAt, ih (by omega)]
      by_cases hA : d = dg + 1 ∧ p / cfg.PAGE_SIZE = pg * cfg.PAGE_SIZE + c
      · rw [if_pos hA, if_neg (by omega)]
        simp only
        rw [frameAt]
        obtain ⟨hA1, hA2⟩ := hA
        rw [hA2, hA1]
        cases hx : frameAt cfg ram (dg + 1) (pg * cfg.PAGE_SIZE + c) with
        | none => rfl
        | some X =>
            simp only
            rw [hX X hx (by omega) _ hmod]
            simp
      · rw [if_neg hA]
        cases hf : frameAt cfg ram d (p / cfg.PAGE_SIZE) with
        | none =>
            simp only
            split_ifs
            · rfl
            · rw [frameAt, hf]
        | some f =>
            simp only
            by_cases hfg : f = g ∧ p % cfg.PAGE_SIZE = c
            · obtain ⟨h1, h2⟩ := hfg
              subst h1
              obtain ⟨e1, e2⟩ := hinj _ _ _ _ _ (by omega) (by omega) hf hg
              rw [h2, setWord_same]
              have hp : p = pg * cfg.PAGE_SIZE + c := by
                rw [← e2, ← h2]; exact (Nat.div_add_mod' p cfg.PAGE_SIZE).symm
              simp [e1, hp]
            · have hne : f * cfg.PAGE_SIZE + p % cfg.PAGE_SIZE ≠ g * cfg.PAGE_SIZE + c := by
                intro heq
                exact hfg (rowAddr_inj cfg hmod hc heq)
              rw [setWord_other _ _ hne]
              have hcond : ¬ (d + 1 = dg + 1 ∧ p = pg * cfg.PAGE_SIZE + c) := by
                rintro ⟨h1, h2⟩
                have hd' : d = dg := by omega
                have h3 : p / cfg.PAGE_SIZE = pg := by
                  rw [h2]; exact div_eq_frame cfg pg c hc
                have h4 : p % cfg.PAGE_SIZE = c := by
                  rw [h2]; exact mod_eq_row cfg pg c hc
                rw [hd', h3, hg] at hf
                exact hfg ⟨(Option.some.inj hf).symm, h4⟩
              rw [if_neg hcond, frameAt, hf]

/-- Writing a free, zero-filled frame into a zero entry adds that one position
to the tree. -/
theorem frameAt_attach (cfg : Config) (ram : Nat → Int) (dg pg g c X : Nat)
    (hinj : ∀ d p d' p' f, d ≤ cfg.TABLES_DEPTH → d' ≤ cfg.TABLES_DEPTH →
      frameAt cfg ram d p = some f → frameAt cfg ram d' p' = some f → d = d' ∧ p = p')
    (hg : frameAt cfg ram dg pg = some g) (hdg : dg < cfg.TABLES_DEPTH)
    (hc : c < cfg.PAGE_SIZE) (hz : ram (g * cfg.PAGE_SIZE + c) = 0)
    (hX0 : X ≠ 0) (hX64 : X < 2 ^ 64)
    (hfree : ∀ d p, d ≤ cfg.TABLES_DEPTH → frameAt cfg ram d p ≠ some X)
    (hXz : ZeroFrame cfg ram X) :
    ∀ d, d ≤ cfg.TABLES_DEPTH → ∀ p,
      frameAt cfg (setWord ram (g * cfg.PAGE_SIZE + c) (X : Int)) d p =
        if d = dg + 1 ∧ p = pg * cfg.PAGE_SIZE + c then some X else frameAt cfg ram d p := by
  have hXg : X ≠ g := fun h => hfree dg pg (by omega) (by rw [hg, h])
  intro d
  induction d with
  | zero => intro _ p; simp [frameAt]
  | succ d ih =>
      intro hd p
      have hmod : p % cfg.PAGE_SIZE < cfg.PAGE_SIZE := Nat.mod_lt _ (PAGE_SIZE_pos cfg)
      rw [frameAt, ih (by omega)]
      by_cases hA : d = dg + 1 ∧ p / cfg.PAGE_SIZE = pg * cfg.PAGE_SIZE + c
      · rw [if_pos hA, if_neg (by omega)]
        simp only
        have hne : X * cfg.PAGE_SIZE + p % cfg.PAGE_SIZE ≠ g * cfg.PAGE_SIZE + c := by
          intro heq
          exact hXg (rowAddr_inj cfg hmod hc heq).1
        rw [setWord_other _ _ hne, hXz _ hmod]
        simp only [if_true]
        rw [frameAt]
        obtain ⟨hA1, hA2⟩ := hA
        rw [hA2, hA1, frameAt_child_zero cfg ram hg hc hz]
      · rw [if_neg hA]
        cases hf : frameAt cfg ram d (p / cfg.PAGE_SIZE) with
        | none =>
            simp only
            have hcond : ¬ (d + 1 = dg + 1 ∧ p = pg * cfg.PAGE_SIZE + c) := by
              rintro ⟨h1, h2⟩
              have hd' : d = dg := by omega
              have h3 : p / cfg.PAGE_SIZE = pg := by
                rw [h2]; exact div_eq_frame cfg pg c hc
              rw [hd', h3, hg] at hf
              exact absurd hf (by simp)
            rw [if_neg hcond, frameAt, hf]
        | some f =>
            simp only
            by_cases hfg : f = g ∧ p % cfg.PAGE_SIZE = c
            · obtain ⟨h1, h2⟩ := hfg
              subst h1
              obtain ⟨e1, e2⟩ := hinj _ _ _ _ _ (by omega) (by omega) hf hg
              rw [h2, setWord_same]
              have hp : p = pg * cfg.PAGE_SIZE + c := by
                rw [← e2, ← h2]; exact (Nat.div_add_mod' p cfg.PAGE_SIZE).symm
              have hXi : (X : Int) ≠ 0 := by exact_mod_cast hX0
              simp [e1, hp, hXi, toU64_natCast hX64]
            · have hne : f * cfg.PAGE_SIZE + p % cfg.PAGE_SIZE ≠ g * cfg.PAGE_SIZE + c := by
                intro heq
                exact hfg (rowAddr_inj cfg hmod hc heq)
              rw [setWord_other _ _ hne]
              have hcond : ¬ (d + 1 = dg + 1 ∧ p = pg * cfg.PAGE_SIZE + c) := by
                rintro ⟨h1, h2⟩
                have hd' : d = dg := by omega
                have h3 : p / cfg.PAGE_SIZE = pg := by
                  rw [h2]; exact div_eq_frame cfg pg c hc
                have h4 : p % cfg.PAGE_SIZE = c := by
                  rw [h2]; exact mod_eq_row cfg pg c hc
                rw [hd', h3, hg] at hf
                exact hfg ⟨(Option.some.inj hf).symm, h4⟩
              rw [if_neg hcond, frameAt, hf]

/-! ## Consequences of the tree invariant -/

theorem entry_toU64 {v : Int} {m : Nat} (h0 : 0 ≤ v) (hm : v ≤ (m : Int)) (h64 : m < 2 ^ 64) :
    ((toU64 v : Nat) : Int) = v ∧ toU64 v ≤ m := by
  obtain ⟨n, rfl⟩ := Int.eq_ofNat_of_zero_le h0
  have hn : n ≤ m := by exact_mod_cast hm
  rw [toU64_natCast (by omega)]
  exact ⟨rfl, hn⟩

theorem m_lt_pow (cfg : Config) {m : Nat} (h : m < cfg.NUM_FRAMES) : m < 2 ^ 64 := by
  have := NUM_FRAMES_le cfg
  have : (2 : Nat) ^ 63 < 2 ^ 64 := by norm_num
  omega

/-- A child position holds the frame its parent entry names. -/
theorem frameAt_parent (cfg : Config) (ram : Nat → Int) (m : Nat)
    (hlt : m < cfg.NUM_FRAMES)
    (hentry : ∀ d p f row, d < cfg.TABLES_DEPTH → frameAt cfg ram d p = some f →
      row < cfg.PAGE_SIZE →
      0 ≤ ram (f * cfg.PAGE_SIZE + row) ∧ ram (f * cfg.PAGE_SIZE + row) ≤ (m : Int))
    {d p f : Nat} (hd : d < cfg.TABLES_DEPTH) (h : frameAt cfg ram (d + 1) p = some f) :
    ∃ g, frameAt cfg ram d (p / cfg.PAGE_SIZE) = some g ∧
      ram (g * cfg.PAGE_SIZE + p % cfg.PAGE_SIZE) = (f : Int) ∧ f ≠ 0 ∧ f ≤ m := by
  obtain ⟨g, hg, hv, hf⟩ := frameAt_succ_inv cfg ram h
  obtain ⟨h0, hm⟩ := hentry d _ g _ hd hg (Nat.mod_lt p (PAGE_SIZE_pos cfg))
  obtain ⟨e1, e2⟩ := entry_toU64 h0 hm (m_lt_pow cfg hlt)
  refine ⟨g, hg, by rw [hf, e1], ?_, by rw [hf]; exact e2⟩
  intro hf0
  apply hv
  rw [← e1, ← hf, hf0]
  rfl

theorem TreeBase.frame_le {cfg : Config} {ram : Nat → Int} {m : Nat} (T : TreeBase cfg ram m)
    {d p f : Nat} (hd : d ≤ cfg.TABLES_DEPTH) (h : frameAt cfg ram d p = some f) : f ≤ m := by
  cases d with
  | zero => rw [(frameAt_zero_inv cfg ram h).2]; exact Nat.zero_le _
  | succ d =>
      obtain ⟨g, _, _, _, hle⟩ := frameAt_parent cfg ram m T.lt T.entry (by omega) h
      exact hle

theorem TreeBase.frame_lt {cfg : Config} {ram : Nat → Int} {m : Nat} (T : TreeBase cfg ram m)
    {d p f : Nat} (hd : d ≤ cfg.TABLES_DEPTH) (h : frameAt cfg ram d p = some f) :
    f < cfg.NUM_FRAMES :=
  lt_of_le_of_lt (T.frame_le hd h) T.lt

theorem TreeBase.child {cfg : Config} {ram : Nat → Int} {m : Nat} (T : TreeBase cfg ram m)
    {d p f row : Nat} (hd : d < cfg.TABLES_DEPTH) (h : frameAt cfg ram d p = some f)
    (hr : row < cfg.PAGE_SIZE) (hv : ram (f * cfg.PAGE_SIZE + row) ≠ 0) :
    ∃ c, frameAt cfg ram (d + 1) (p * cfg.PAGE_SIZE + row) = some c ∧
      ram (f * cfg.PAGE_SIZE + row) = (c : Int) ∧ c ≤ m := by
  obtain ⟨h0, hm⟩ := T.entry d p f row hd h hr
  obtain ⟨e1, e2⟩ := entry_toU64 h0 hm (m_lt_pow cfg T.lt)
  exact ⟨_, frameAt_child cfg ram h hr hv, e1.symm, e2⟩

/-- The prefixes of a position are positions. -/
theorem frameAt_pfx (cfg : Config) (ram : Nat → Int) :
    ∀ k d p f, frameAt cfg ram (d + k) p = some f →
      ∃ g, frameAt cfg ram d (p / cfg.PAGE_SIZE ^ k) = some g := by
  intro k
  induction k with
  | zero => intro d p f h; exact ⟨f, by simpa using h⟩
  | succ k ih =>
      intro d p f h
      obtain ⟨g, hg, _, _⟩ := frameAt_succ_inv cfg ram (d := d + k) h
      obtain ⟨g', hg'⟩ := ih d _ g hg
      refine ⟨g', ?_⟩
      rw [pow_succ, Nat.mul_comm, ← Nat.div_div_eq_div_mul]
      exact hg'

/-! ## Allocation keeps the invariant -/

/-- Words of a frame at the last level are no table words. -/
theorem TreeBase.leaf_change {cfg : Config} {ram : Nat → Int} {m : Nat}
    (T : TreeBase cfg ram m) (ram' : Nat → Int) {q F : Nat} (hF : frameAt cfg ram cfg.TABLES_DEPTH q = some F)
    (h : ∀ a, a / cfg.PAGE_SIZE ≠ F → ram' a = ram a) :
    TreeBase cfg ram' m ∧ ∀ d, d ≤ cfg.TABLES_DEPTH → ∀ p,
      frameAt cfg ram' d p = frameAt cfg ram d p := by
  have hw : ∀ d p f row, d < cfg.TABLES_DEPTH → frameAt cfg ram d p = some f →
      row < cfg.PAGE_SIZE → ram' (f * cfg.PAGE_SIZE + row) = ram (f * cfg.PAGE_SIZE + row) := by
    intro d p f row hd hf hr
    apply h
    rw [div_eq_frame cfg f row hr]
    intro hfF
    rw [hfF] at hf
    have := (T.inj _ _ _ _ _ (by omega) le_rfl hf hF).1
    omega
  have hfr := frameAt_congr cfg ram ram' hw
  refine ⟨⟨T.lt, ?_, ?_⟩, hfr⟩
  · intro d p f row hd hf hr
    rw [hfr d (by omega)] at hf
    rw [hw d p f row hd hf hr]
    exact T.entry d p f row hd hf hr
  · intro d p d' p' f hd hd' h1 h2
    rw [hfr d hd] at h1
    rw [hfr d' hd'] at h2
    exact T.inj _ _ _ _ _ hd hd' h1 h2

theorem TreeInv.of_leaf_change {cfg : Config} {ram : Nat → Int} {m : Nat}
    (T : TreeInv cfg ram m) (ram' : Nat → Int) {q F : Nat} (hF : frameAt cfg ram cfg.TABLES_DEPTH q = some F)
    (h : ∀ a, a / cfg.PAGE_SIZE ≠ F → ram' a = ram a) :
    TreeInv cfg ram' m ∧ ∀ d, d ≤ cfg.TABLES_DEPTH → ∀ p,
      frameAt cfg ram' d p = frameAt cfg ram d p := by
  obtain ⟨B, hfr⟩ := T.toTreeBase.leaf_change ram' hF h
  refine ⟨⟨B, ?_, ?_⟩, hfr⟩
  · intro f hf
    obtain ⟨d, p, hd, hp⟩ := T.sur f hf
    exact ⟨d, p, hd, by rw [hfr d hd]; exact hp⟩
  · intro d p f hd hf
    rw [hfr d hd] at hf
    exact T.page d p f hd hf

/-- Taking the next never-used frame. -/
theorem TreeInv.fresh {cfg : Config} {ram : Nat → Int} {m : Nat} (T : TreeInv cfg ram m)
    (h : m + 1 < cfg.NUM_FRAMES) :
    Detached cfg (zeroFrame cfg ram (m + 1)) (m + 1) (m + 1) ∧
      ∀ d, d ≤ cfg.TABLES_DEPTH → ∀ p,
        frameAt cfg (zeroFrame cfg ram (m + 1)) d p = frameAt cfg ram d p := by
  have hw : ∀ d p f row, d < cfg.TABLES_DEPTH → frameAt cfg ram d p = some f →
      row < cfg.PAGE_SIZE →
      zeroFrame cfg ram (m + 1) (f * cfg.PAGE_SIZE + row) = ram (f * cfg.PAGE_SIZE + row) := by
    intro d p f row hd hf hr
    apply zeroFrame_other cfg ram row hr
    have := T.frame_le (by omega) hf
    omega
  have hfr := frameAt_congr cfg ram _ hw
  refine ⟨⟨h, le_rfl, by omega, ?_, ?_, ?_, ?_, ?_, ?_⟩, hfr⟩
  · intro row hr; exact zeroFrame_same cfg ram _ row hr
  · intro d p hd hf
    rw [hfr d hd] at hf
    have := T.frame_le hd hf
    omega
  · intro d p f row hd hf hr
    rw [hfr d (by omega)] at hf
    rw [hw d p f row hd hf hr]
    obtain ⟨h1, h2⟩ := T.entry d p f row hd hf hr
    refine ⟨h1, le_trans h2 ?_⟩
    push_cast; omega
  · intro d p d' p' f hd hd' h1 h2
    rw [hfr d hd] at h1
    rw [hfr d' hd'] at h2
    exact T.inj _ _ _ _ _ hd hd' h1 h2
  · intro f hf hne
    obtain ⟨d, p, hd, hp⟩ := T.sur f (by omega)
    exact ⟨d, p, hd, by rw [hfr d hd]; exact hp⟩
  · intro d p f hd hf
    rw [hfr d hd] at hf
    exact T.page d p f hd hf

/-- Zeroing the parent entry of a zero-filled frame removes its position. -/
theorem TreeBase.frameAt_unlink {cfg : Config} {ram : Nat → Int} {m : Nat}
    (T : TreeBase cfg ram m)
    {dg pX X g : Nat} (hX : frameAt cfg ram (dg + 1) pX = some X)
    (hd : dg + 1 ≤ cfg.TABLES_DEPTH) (hz : ZeroFrame cfg ram X)
    (hg : frameAt cfg ram dg (pX / cfg.PAGE_SIZE) = some g) :
    ∀ d, d ≤ cfg.TABLES_DEPTH → ∀ p,
      frameAt cfg (setWord ram (g * cfg.PAGE_SIZE + pX % cfg.PAGE_SIZE) 0) d p =
        if d = dg + 1 ∧ p = pX then none else frameAt cfg ram d p := by
  have hmod : pX % cfg.PAGE_SIZE < cfg.PAGE_SIZE := Nat.mod_lt _ (PAGE_SIZE_pos cfg)
  have hpX : pX / cfg.PAGE_SIZE * cfg.PAGE_SIZE + pX % cfg.PAGE_SIZE = pX :=
    Nat.div_add_mod' pX cfg.PAGE_SIZE
  have := frameAt_detach cfg ram dg (pX / cfg.PAGE_SIZE) g (pX % cfg.PAGE_SIZE) T.inj hg
    (by omega) hmod (by
      intro X' hX' _
      rw [hpX, hX] at hX'
      rw [← Option.some.inj hX']; exact hz)
  rw [hpX] at this
  exact this

/-- Unlinking a zero-filled frame from its parent. -/
theorem TreeInv.detach {cfg : Config} {ram : Nat → Int} {m : Nat} (T : TreeInv cfg ram m)
    {dg pX X g : Nat} (hX : frameAt cfg ram (dg + 1) pX = some X)
    (hd : dg + 1 ≤ cfg.TABLES_DEPTH) (hz : ZeroFrame cfg ram X)
    (hg : frameAt cfg ram dg (pX / cfg.PAGE_SIZE) = some g) :
    Detached cfg (setWord ram (g * cfg.PAGE_SIZE + pX % cfg.PAGE_SIZE) 0) m X ∧
      ∀ d, d ≤ cfg.TABLES_DEPTH → ∀ p,
        frameAt cfg (setWord ram (g * cfg.PAGE_SIZE + pX % cfg.PAGE_SIZE) 0) d p =
          if d = dg + 1 ∧ p = pX then none else frameAt cfg ram d p := by
  have hmod : pX % cfg.PAGE_SIZE < cfg.PAGE_SIZE := Nat.mod_lt _ (PAGE_SIZE_pos cfg)
  have hfr := T.toTreeBase.frameAt_unlink hX hd hz hg
  have hgX : g ≠ X := by
    intro e
    rw [e] at hg
    have := (T.inj _ _ _ _ _ (by omega) hd hg hX).1
    omega
  have hold : ∀ d p f, d ≤ cfg.TABLES_DEPTH →
      frameAt cfg (setWord ram (g * cfg.PAGE_SIZE + pX % cfg.PAGE_SIZE) 0) d p = some f →
      frameAt cfg ram d p = some f ∧ ¬ (d = dg + 1 ∧ p = pX) := by
    intro d p f hd' hf
    rw [hfr d hd'] at hf
    by_cases hc : d = dg + 1 ∧ p = pX
    · rw [if_pos hc] at hf; exact absurd hf (by simp)
    · rw [if_neg hc] at hf; exact ⟨hf, hc⟩
  refine ⟨⟨T.lt, T.frame_le hd hX, ?_, ?_, ?_, ?_, ?_, ?_, ?_⟩, hfr⟩
  · intro h0
    rw [h0] at hX
    have := (T.inj _ _ _ _ _ hd (Nat.zero_le _) hX (frameAt_root cfg ram)).1
    omega
  · intro row hr
    rw [setWord_other]
    · exact hz row hr
    · intro heq
      exact hgX (rowAddr_inj cfg hr hmod heq).1.symm
  · intro d p hd' hf
    obtain ⟨h1, h2⟩ := hold d p X hd' hf
    exact h2 (T.inj _ _ _ _ _ hd' hd h1 hX)
  · intro d p f row hd' hf hr
    obtain ⟨h1, _⟩ := hold d p f (by omega) hf
    by_cases ha : f * cfg.PAGE_SIZE + row = g * cfg.PAGE_SIZE + pX % cfg.PAGE_SIZE
    · rw [ha, setWord_same]
      exact ⟨le_rfl, by positivity⟩
    · rw [setWord_other _ _ ha]
      exact T.entry d p f row hd' h1 hr
  · intro d p d' p' f hd1 hd2 h1 h2
    exact T.inj _ _ _ _ _ hd1 hd2 (hold d p f hd1 h1).1 (hold d' p' f hd2 h2).1
  · intro f hf hne
    obtain ⟨d, p, hd', hp⟩ := T.sur f hf
    refine ⟨d, p, hd', ?_⟩
    rw [hfr d hd', if_neg]
    · exact hp
    · rintro ⟨h1, h2⟩
      rw [h1, h2, hX] at hp
      exact hne (Option.some.inj hp).symm
  · intro d p f hd' hf
    exact T.page d p f hd' (hold d p f hd' hf).1

/-- Linking the allocated frame at a zero entry. -/
theorem Detached.attach {cfg : Config} {ram : Nat → Int} {m X : Nat} (T : Detached cfg ram m X)
    {dg pg g c : Nat} (hg : frameAt cfg ram dg pg = some g) (hdg : dg < cfg.TABLES_DEPTH)
    (hc : c < cfg.PAGE_SIZE) (hz : ram (g * cfg.PAGE_SIZE + c) = 0)
    (hpage : (pg * cfg.PAGE_SIZE + c) * cfg.PAGE_SIZE ^ (cfg.TABLES_DEPTH - (dg + 1))
      < cfg.NUM_PAGES) :
    TreeInv cfg (setWord ram (g * cfg.PAGE_SIZE + c) (X : Int)) m ∧
      ∀ d, d ≤ cfg.TABLES_DEPTH → ∀ p,
        frameAt cfg (setWord ram (g * cfg.PAGE_SIZE + c) (X : Int)) d p =
          if d = dg + 1 ∧ p = pg * cfg.PAGE_SIZE + c then some X else frameAt cfg ram d p := by
  have hX64 : X < 2 ^ 64 := lt_of_le_of_lt T.le (m_lt_pow cfg T.lt)
  have hfr := frameAt_attach cfg ram dg pg g c X T.inj hg hdg hc hz T.pos hX64 T.free T.zero
  have hXg : X ≠ g := fun h => T.free dg pg (by omega) (by rw [hg, h])
  have hnew : frameAt cfg ram (dg + 1) (pg * cfg.PAGE_SIZE + c) = none :=
    frameAt_child_zero cfg ram hg hc hz
  have hold : ∀ d p f, d ≤ cfg.TABLES_DEPTH →
      frameAt cfg (setWord ram (g * cfg.PAGE_SIZE + c) (X : Int)) d p = some f →
      (d = dg + 1 ∧ p = pg * cfg.PAGE_SIZE + c ∧ f = X) ∨
      (¬ (d = dg + 1 ∧ p = pg * cfg.PAGE_SIZE + c) ∧ frameAt cfg ram d p = some f) := by
    intro d p f hd' hf
    rw [hfr d hd'] at hf
    by_cases hcnd : d = dg + 1 ∧ p = pg * cfg.PAGE_SIZE + c
    · rw [if_pos hcnd] at hf
      exact Or.inl ⟨hcnd.1, hcnd.2, (Option.some.inj hf).symm⟩
    · rw [if_neg hcnd] at hf
      exact Or.inr ⟨hcnd, hf⟩
  refine ⟨⟨⟨T.lt, ?_, ?_⟩, ?_, ?_⟩, hfr⟩
  · intro d p f row hd' hf hr
    rcases hold d p f (by omega) hf with ⟨_, _, e⟩ | ⟨_, h1⟩
    · subst e
      rw [setWord_other]
      · rw [T.zero row hr]; exact ⟨le_rfl, by positivity⟩
      · intro heq; exact hXg (rowAddr_inj cfg hr hc heq).1
    · by_cases ha : f * cfg.PAGE_SIZE + row = g * cfg.PAGE_SIZE + c
      · rw [ha, setWord_same]
        exact ⟨by positivity, by exact_mod_cast T.le⟩
      · rw [setWord_other _ _ ha]
        exact T.entry d p f row hd' h1 hr
  · intro d p d' p' f hd1 hd2 h1 h2
    rcases hold d p f hd1 h1 with ⟨a1, a2, a3⟩ | ⟨a1, a2⟩
    · rcases hold d' p' f hd2 h2 with ⟨b1, b2, b3⟩ | ⟨b1, b2⟩
      · exact ⟨by omega, by rw [a2, b2]⟩
      · rw [a3] at b2; exact absurd b2 (T.free d' p' hd2)
    · rcases hold d' p' f hd2 h2 with ⟨b1, b2, b3⟩ | ⟨b1, b2⟩
      · rw [b3] at a2; exact absurd a2 (T.free d p hd1)
      · exact T.inj _ _ _ _ _ hd1 hd2 a2 b2
  · intro f hf
    by_cases hfX : f = X
    · subst hfX
      exact ⟨dg + 1, pg * cfg.PAGE_SIZE + c, by omega, by rw [hfr _ (by omega)]; simp⟩
    · obtain ⟨d, p, hd', hp⟩ := T.sur f hf hfX
      refine ⟨d, p, hd', ?_⟩
      rw [hfr d hd', if_neg]
      · exact hp
      · rintro ⟨h1, h2⟩
        rw [h1, h2, hnew] at hp
        exact absurd hp (by simp)
  · intro d p f hd' hf
    rcases hold d p f hd' hf with ⟨a1, a2, _⟩ | ⟨_, a2⟩
    · rw [a1, a2]; exact hpage
    · exact T.page d p f hd' a2

/-! ## Index chunks -/

theorem shift_chunk (cfg : Config) (page i : Nat) :
    (page >>> (rounded_add_width cfg - i * cfg.OFFSET_WIDTH)) % (1 <<< cfg.OFFSET_WIDTH) =
      pagePfx cfg page i % cfg.PAGE_SIZE := by
  rw [rounded_eq, Nat.shiftRight_eq_div_pow, Nat.shiftLeft_eq, Nat.one_mul, ← Nat.sub_mul]
  unfold pagePfx
  rw [PAGE_SIZE_pow, Nat.mul_comm]
  rfl

theorem pagePfx_div (cfg : Config) (page : Nat) {k j : Nat} (hkj : k ≤ j)
    (hj : j ≤ cfg.TABLES_DEPTH) :
    pagePfx cfg page j / cfg.PAGE_SIZE ^ (j - k) = pagePfx cfg page k := by
  unfold pagePfx
  rw [Nat.div_div_eq_div_mul, ← pow_add]
  congr 2
  omega

theorem pagePfx_pred (cfg : Config) (page : Nat) {k : Nat} (hk : k < cfg.TABLES_DEPTH) :
    pagePfx cfg page (k + 1) / cfg.PAGE_SIZE = pagePfx cfg page k := by
  have := pagePfx_div cfg page (Nat.le_succ k) hk
  simpa using this

theorem pagePfx_full (cfg : Config) (page : Nat) :
    pagePfx cfg page cfg.TABLES_DEPTH = page := by
  simp [pagePfx]

theorem pagePfx_zero (cfg : Config) {page : Nat} (h : page < cfg.NUM_PAGES) :
    pagePfx cfg page 0 = 0 := by
  unfold pagePfx
  exact Nat.div_eq_of_lt (lt_of_lt_of_le h (NUM_PAGES_le cfg))

theorem pagePfx_bound (cfg : Config) {page : Nat} (h : page < cfg.NUM_PAGES) (d : Nat) :
    pagePfx cfg page d * cfg.PAGE_SIZE ^ (cfg.TABLES_DEPTH - d) < cfg.NUM_PAGES := by
  unfold pagePfx
  exact lt_of_le_of_lt (Nat.div_mul_le_self _ _) h

theorem pagePfx_shift (cfg : Config) (p d : Nat) :
    pagePfx cfg (p <<< (cfg.OFFSET_WIDTH * (cfg.TABLES_DEPTH - d))) d = p := by
  unfold pagePfx
  rw [Nat.shiftLeft_eq, PAGE_SIZE_pow]
  exact Nat.mul_div_cancel _ (by positivity)

theorem toU64_row (cfg : Config) {a off : Nat} (ha : a < cfg.NUM_FRAMES)
    (ho : off < cfg.PAGE_SIZE) :
    toU64 ((a : Int) * (cfg.PAGE_SIZE : Int) + (off : Int)) = a * cfg.PAGE_SIZE + off := by
  have h := lt_of_lt_of_le (row_lt_ram cfg ha ho) (RAM_SIZE_le cfg)
  have e : (a : Int) * (cfg.PAGE_SIZE : Int) + (off : Int) =
      ((a * cfg.PAGE_SIZE + off : Nat) : Int) := by push_cast; ring
  rw [e, toU64_natCast h]

/-! ## `_unlink_parent` -/

theorem unlinkLoop_spec (cfg : Config) (s : Mem) (m : Nat) (T : TreeBase cfg s.ram m)
    (P dg pX X g : Nat) (hX : frameAt cfg s.ram (dg + 1) pX = some X)
    (hd : dg + 1 ≤ cfg.TABLES_DEPTH) (hP : pagePfx cfg P (dg + 1) = pX)
    (hg : frameAt cfg s.ram dg (pX / cfg.PAGE_SIZE) = some g) :
    ∀ j k a, j + k = dg → frameAt cfg s.ram k (pagePfx cfg P k) = some a →
      unlinkLoop cfg P (X : Int) (rounded_add_width cfg) (cfg.TABLES_DEPTH - k) (k + 1)
          (a : Int) s =
        .ok { s with ram := setWord s.ram (g * cfg.PAGE_SIZE + pX % cfg.PAGE_SIZE) 0 } := by
  intro j
  induction j with
  | zero =>
      intro k a hk ha
      have hkd : k = dg := by omega
      subst hkd
      obtain ⟨n, hn⟩ : ∃ n, cfg.TABLES_DEPTH - k = n + 1 := ⟨cfg.TABLES_DEPTH - k - 1, by omega⟩
      rw [hn, unlinkLoop]
      rw [shift_chunk cfg P (k + 1), hP]
      have hag : a = g := by
        rw [← pagePfx_pred cfg P (by omega), hP, hg] at ha
        exact (Option.some.inj ha).symm
      subst hag
      have hmod : pX % cfg.PAGE_SIZE < cfg.PAGE_SIZE := Nat.mod_lt _ (PAGE_SIZE_pos cfg)
      have haN := T.frame_lt (by omega) hg
      rw [toU64_row cfg haN hmod, PMread_ok cfg _ (row_lt_ram cfg haN hmod)]
      simp only
      obtain ⟨g', hg', hv, _, _⟩ := frameAt_parent cfg s.ram m T.lt T.entry (by omega) hX
      rw [hg] at hg'
      have := Option.some.inj hg'
      subst this
      rw [if_pos hv, PMwrite_ok cfg _ _ (row_lt_ram cfg haN hmod)]
  | succ j ih =>
      intro k a hk ha
      obtain ⟨n, hn⟩ : ∃ n, cfg.TABLES_DEPTH - k = n + 1 := ⟨cfg.TABLES_DEPTH - k - 1, by omega⟩
      rw [hn, unlinkLoop]
      rw [shift_chunk cfg P (k + 1)]
      have hmod : pagePfx cfg P (k + 1) % cfg.PAGE_SIZE < cfg.PAGE_SIZE :=
        Nat.mod_lt _ (PAGE_SIZE_pos cfg)
      have haN := T.frame_lt (by omega) ha
      rw [toU64_row cfg haN hmod, PMread_ok cfg _ (row_lt_ram cfg haN hmod)]
      simp only
      -- the child on the way to `X`
      have e1 : dg + 1 = (k + 1) + (dg - k) := by omega
      have hX' := hX
      rw [e1] at hX'
      obtain ⟨Y, hY⟩ := frameAt_pfx cfg s.ram (dg - k) (k + 1) pX X hX'
      have e2 : pX / cfg.PAGE_SIZE ^ (dg - k) = pagePfx cfg P (k + 1) := by
        rw [← hP]
        have := pagePfx_div cfg P (k := k + 1) (j := dg + 1) (by omega) hd
        rw [← this]
        congr 2
        omega
      rw [e2] at hY
      obtain ⟨a', ha', hv, _, _⟩ := frameAt_parent cfg s.ram m T.lt T.entry (by omega) hY
      rw [pagePfx_pred cfg P (by omega), ha] at ha'
      have := Option.some.inj ha'
      subst this
      rw [hv]
      have hYX : (Y : Int) ≠ (X : Int) := by
        intro h
        have hYX' : Y = X := by exact_mod_cast h
        rw [hYX'] at hY
        have := (T.inj _ _ _ _ _ (by omega) hd hY hX).1
        omega
      rw [if_neg hYX]
      have := ih (k + 1) Y (by omega) hY
      have e3 : cfg.TABLES_DEPTH - (k + 1) = n := by omega
      rw [e3] at this
      exact this

/-- `_unlink_parent` zeroes the parent entry of a frame of the tree, given a
page that passes through the frame. -/
theorem unlink_spec (cfg : Config) (s : Mem) (m : Nat) (T : TreeBase cfg s.ram m)
    (P dg pX X g : Nat) (hX : frameAt cfg s.ram (dg + 1) pX = some X)
    (hd : dg + 1 ≤ cfg.TABLES_DEPTH) (hP : pagePfx cfg P (dg + 1) = pX)
    (hg : frameAt cfg s.ram dg (pX / cfg.PAGE_SIZE) = some g) :
    _unlink_parent cfg s P (X : Int) (rounded_add_width cfg) =
      .ok { s with ram := setWord s.ram (g * cfg.PAGE_SIZE + pX % cfg.PAGE_SIZE) 0 } := by
  unfold _unlink_parent
  rw [rounded_div]
  have e1 : dg + 1 = 0 + (dg + 1) := by omega
  have hX' := hX
  rw [e1] at hX'
  obtain ⟨r, hr⟩ := frameAt_pfx cfg s.ram (dg + 1) 0 pX X hX'
  obtain ⟨h1, h2⟩ := frameAt_zero_inv cfg s.ram hr
  have h0 : pagePfx cfg P 0 = 0 := by
    have := pagePfx_div cfg P (k := 0) (j := dg + 1) (by omega) hd
    rw [hP] at this
    rw [← this]
    exact h1
  have := unlinkLoop_spec cfg s m T P dg pX X g hX hd hP hg dg 0 0 (by omega)
    (by rw [h0]; exact frameAt_root cfg s.ram)
  simpa using this

/-! ## The scan on a well-formed tree -/

theorem TreeBase.nodes_bound {cfg : Config} {ram : Nat → Int} {m : Nat}
    (T : TreeBase cfg ram m) :
    ∀ n ∈ nodes cfg ram cfg.TABLES_DEPTH 0 0, n.1 ≠ 0 → n.2.2 < cfg.NUM_FRAMES := by
  intro n hn _
  obtain ⟨_, h2⟩ := (mem_nodes_iff cfg ram n).mp hn
  exact T.frame_lt (Nat.sub_le _ _) h2

theorem TreeBase.scan_maxFrame_le {cfg : Config} {ram : Nat → Int} {m : Nat}
    (T : TreeBase cfg ram m) (page avoid : Nat) : (scan cfg ram page avoid).maxFrame ≤ m := by
  unfold scan
  rcases fold_maxFrame_mem cfg ram page avoid (nodes cfg ram cfg.TABLES_DEPTH 0 0)
    Search.start with h | ⟨n, hn, h⟩
  · rw [h]; simp [Search.start]
  · rw [← h]
    obtain ⟨_, h2⟩ := (mem_nodes_iff cfg ram n).mp hn
    exact T.frame_le (Nat.sub_le _ _) h2

theorem TreeInv.scan_maxFrame {cfg : Config} {ram : Nat → Int} {m : Nat} (T : TreeInv cfg ram m)
    (page avoid : Nat) : (scan cfg ram page avoid).maxFrame = m := by
  apply le_antisymm (T.toTreeBase.scan_maxFrame_le page avoid)
  unfold scan
  · obtain ⟨d, p, hd, hp⟩ := T.sur m le_rfl
    exact (fold_maxFrame_ge cfg ram page avoid _ Search.start).2 _
      (nodes_complete cfg ram d p m hd hp)

theorem scan_empty_pos (cfg : Config) (ram : Nat → Int) (page avoid : Nat)
    (h : (scan cfg ram page avoid).emptyFrame ≠ 0) :
    ∃ dE pE, dE + 1 < cfg.TABLES_DEPTH ∧
      frameAt cfg ram (dE + 1) pE = some (scan cfg ram page avoid).emptyFrame ∧
      ZeroFrame cfg ram (scan cfg ram page avoid).emptyFrame ∧
      (scan cfg ram page avoid).emptyFrame ≠ avoid ∧
      pagePfx cfg (scan cfg ram page avoid).addressToEmpty (dE + 1) = pE := by
  rcases fold_empty cfg ram page avoid (nodes cfg ram cfg.TABLES_DEPTH 0 0) Search.start with
    ⟨h1, _, _⟩ | ⟨n, hn, ⟨hc0, hc1, hc2⟩, e1, e2⟩
  · exact absurd h1 h
  · obtain ⟨hle, hfr⟩ := (mem_nodes_iff cfg ram n).mp hn
    have e1' : (scan cfg ram page avoid).emptyFrame = n.2.2 := e1
    have e2' : (scan cfg ram page avoid).addressToEmpty =
        n.2.1 <<< (cfg.OFFSET_WIDTH * n.1) := e2
    have hdep : cfg.TABLES_DEPTH - n.1 ≠ 0 := by
      intro h0
      rw [h0] at hfr
      have := (frameAt_zero_inv cfg ram hfr).2
      rw [e1', this] at h
      exact h rfl
    refine ⟨cfg.TABLES_DEPTH - n.1 - 1, n.2.1, by omega, ?_, ?_, ?_, ?_⟩
    · have : cfg.TABLES_DEPTH - n.1 - 1 + 1 = cfg.TABLES_DEPTH - n.1 := by omega
      rw [this, e1']; exact hfr
    · rw [e1']; exact hc1
    · rw [e1']; exact hc2
    · rw [e2']
      have : n.1 = cfg.TABLES_DEPTH - (cfg.TABLES_DEPTH - n.1 - 1 + 1) := by omega
      rw [this]
      have e3 : cfg.TABLES_DEPTH - (cfg.TABLES_DEPTH - (cfg.TABLES_DEPTH - n.1 - 1 + 1)) - 1 + 1
          = cfg.TABLES_DEPTH - n.1 - 1 + 1 := by omega
      rw [e3]
      exact pagePfx_shift cfg _ _

/-- The root of a tree that holds another table is not empty. -/
theorem root_not_empty (cfg : Config) (ram : Nat → Int) {dA pA A : Nat}
    (hA : frameAt cfg ram dA pA = some A) (hA0 : A ≠ 0) : ¬ ZeroFrame cfg ram 0 := by
  intro hz
  cases dA with
  | zero => exact hA0 (frameAt_zero_inv cfg ram hA).2
  | succ k =>
      have e : k + 1 = 1 + k := by omega
      rw [e] at hA
      obtain ⟨g, hg⟩ := frameAt_pfx cfg ram k 1 pA A hA
      obtain ⟨g0, hg0, hv, _⟩ := frameAt_succ_inv cfg ram (d := 0) hg
      have := (frameAt_zero_inv cfg ram hg0).2
      subst this
      exact hv (hz _ (Nat.mod_lt _ (PAGE_SIZE_pos cfg)))

theorem scan_empty_zero (cfg : Config) (ram : Nat → Int) (page : Nat) {dA pA A : Nat}
    (hA : frameAt cfg ram dA pA = some A)
    (h : (scan cfg ram page A).emptyFrame = 0) :
    ∀ d p f, d < cfg.TABLES_DEPTH → frameAt cfg ram d p = some f → f ≠ A →
      ¬ ZeroFrame cfg ram f := by
  intro d p f hd hf hne hz
  have hmem := nodes_complete cfg ram d p f (by omega) hf
  have hcand : EmptyCand cfg ram A (cfg.TABLES_DEPTH - d, p, f) := ⟨by simp; omega, hz, hne⟩
  rcases fold_empty cfg ram page A (nodes cfg ram cfg.TABLES_DEPTH 0 0) Search.start with
    ⟨_, _, h3⟩ | ⟨n, hn, ⟨hc0, hc1, hc2⟩, e1, _⟩
  · exact h3 _ hmem hcand
  · have e1' : (scan cfg ram page A).emptyFrame = n.2.2 := e1
    rw [h] at e1'
    rw [← e1'] at hc1 hc2
    exact root_not_empty cfg ram hA (Ne.symm hc2) hc1

theorem scan_evict (cfg : Config) (ram : Nat → Int) (page avoid : Nat) :
    ((scan cfg ram page avoid).frameToEvict = none ∧
      (scan cfg ram page avoid).pageToEvict = none) ∨
    ∃ q L, (scan cfg ram page avoid).frameToEvict = some L ∧
      (scan cfg ram page avoid).pageToEvict = some q ∧
      frameAt cfg ram cfg.TABLES_DEPTH q = some L ∧ L ≠ avoid := by
  rcases fold_evict_mem cfg ram page avoid (nodes cfg ram cfg.TABLES_DEPTH 0 0)
    Search.start with ⟨h1, h2⟩ | ⟨n, hn, ⟨hc0, hc1⟩, e1, e2⟩
  · left; exact ⟨h1, h2⟩
  · right
    obtain ⟨_, hfr⟩ := (mem_nodes_iff cfg ram n).mp hn
    rw [hc0] at hfr
    exact ⟨n.2.1, n.2.2, e1, e2, by simpa using hfr, hc1⟩

/-! ## The allocation block -/

theorem allocate_spec (cfg : Config) (s : Mem) (m : Nat) (T : TreeBase cfg s.ram m)
    (page A : Nat) (hD : 0 < cfg.TABLES_DEPTH) :
    AllocOutcome cfg s page A (scan cfg s.ram page A).maxFrame (allocate cfg s page A) := by
  have hmaxle := T.scan_maxFrame_le page A
  generalize hM : (scan cfg s.ram page A).maxFrame = M at hmaxle
  have hm64 : (M + 1) % 2 ^ 64 = M + 1 := by
    apply Nat.mod_eq_of_lt
    have := NUM_FRAMES_le cfg
    have := T.lt
    have : (2 : Nat) ^ 63 < 2 ^ 64 := by norm_num
    omega
  unfold allocate
  rw [find_frame_top cfg page A s Search.start hD T.nodes_bound]
  have hscan : (nodes cfg s.ram cfg.TABLES_DEPTH 0 0).foldl (visitNode cfg s.ram page A)
      Search.start = scan cfg s.ram page A := rfl
  rw [hscan]
  unfold finishFind
  rw [if_pos (by omega), hM, hm64]
  by_cases hfresh : M + 1 < cfg.NUM_FRAMES
  · rw [if_pos hfresh]
    simp only
    rw [clearTable_eq cfg s (M + 1) hfresh]
    simp only [if_true, hm64]
    rw [if_neg (by omega)]
    exact AllocOutcome.fresh hfresh
  · rw [if_neg hfresh]
    by_cases hE : (scan cfg s.ram page A).emptyFrame = 0
    · rw [if_neg (by simpa using hE)]
      simp only [one_ne_zero, if_false]
      rcases scan_evict cfg s.ram page A with ⟨h1, h2⟩ | ⟨q, L, h1, h2, hL, hLA⟩
      · rw [h1, h2]
        exact AllocOutcome.fault (by omega) hE h1
      · rw [h1, h2]
        simp only
        have hLN := T.frame_lt le_rfl hL
        unfold PMevict
        rw [if_pos hLN]
        simp only
        rw [clearTable_eq cfg _ L hLN]
        simp only
        obtain ⟨T', hfr'⟩ := T.leaf_change (zeroFrame cfg s.ram L) hL (by
          intro a ha
          simp [zeroFrame, ha])
        obtain ⟨k, hk⟩ : ∃ k, cfg.TABLES_DEPTH = k + 1 := ⟨cfg.TABLES_DEPTH - 1, by omega⟩
        have hL' : frameAt cfg s.ram (k + 1) q = some L := by rw [← hk]; exact hL
        obtain ⟨g, hg, _⟩ := frameAt_succ_inv cfg s.ram hL'
        have hL2 : frameAt cfg (zeroFrame cfg s.ram L) (k + 1) q = some L := by
          rw [hfr' _ (by omega)]; exact hL'
        have hg2 : frameAt cfg (zeroFrame cfg s.ram L) k (q / cfg.PAGE_SIZE) = some g := by
          rw [hfr' _ (by omega)]; exact hg
        have hP : pagePfx cfg q (k + 1) = q := by rw [← hk]; exact pagePfx_full cfg q
        rw [unlink_spec cfg
          { ram := zeroFrame cfg s.ram L,
            swap := fun x =>
              if x = q then some (fun i => s.ram (L * cfg.PAGE_SIZE + i)) else s.swap x }
          m T' q k q L g hL2 (by omega) hP hg2]
        simp only
        have hg3 : frameAt cfg s.ram (cfg.TABLES_DEPTH - 1) (q / cfg.PAGE_SIZE) = some g := by
          rw [hk]; simpa using hg
        exact AllocOutcome.evict q L g (by omega) hE h1 h2 hL hLA hg3
    · rw [if_pos (by simpa using hE)]
      simp only [if_true]
      rw [hM, hm64, if_pos (by omega)]
      obtain ⟨dE, pE, hdE, hfE, hzE, hneE, hPE⟩ := scan_empty_pos cfg s.ram page A hE
      obtain ⟨g, hg, _⟩ := frameAt_succ_inv cfg s.ram hfE
      rw [unlink_spec cfg s m T _ dE pE _ g hfE (by omega) hPE hg]
      simp only
      exact AllocOutcome.reclaim dE pE _ g (by omega) hfE hdE hzE hneE hg rfl

/-! ## The three allocations, seen from the tree -/

theorem content_resident (cfg : Config) (s : Mem) {q f : Nat}
    (h : frameAt cfg s.ram cfg.TABLES_DEPTH q = some f) (i : Nat) :
    content cfg s q i = s.ram (f * cfg.PAGE_SIZE + i) := by
  unfold content; rw [h]

theorem content_absent (cfg : Config) (s : Mem) {q : Nat}
    (h : frameAt cfg s.ram cfg.TABLES_DEPTH q = none) (i : Nat) :
    content cfg s q i = match s.swap q with
      | some c => c i
      | none => 0 := by
  unfold content; rw [h]
  cases s.swap q <;> rfl

theorem alloced_fresh (cfg : Config) (s : Mem) (m : Nat) (T : TreeInv cfg s.ram m)
    (h : m + 1 < cfg.NUM_FRAMES) :
    Alloced cfg s m (m + 1) { s with ram := zeroFrame cfg s.ram (m + 1) } := by
  obtain ⟨hdet, hfr⟩ := T.fresh h
  refine ⟨⟨m + 1, hdet, by omega, le_rfl⟩, ?_, ?_, ?_, ?_, ?_⟩
  · intro d x f hd hf
    rw [← hfr d hd]; exact hf
  · intro d x f hd hf _
    show frameAt cfg (zeroFrame cfg s.ram (m + 1)) d x = some f
    rw [hfr d hd]; exact hf
  · intro a ha
    show zeroFrame cfg s.ram (m + 1) a = 0
    unfold zeroFrame; split_ifs
    · rfl
    · exact ha
  · intro q i hi
    cases hq : frameAt cfg s.ram cfg.TABLES_DEPTH q with
    | none =>
        have hq1 : frameAt cfg (zeroFrame cfg s.ram (m + 1)) cfg.TABLES_DEPTH q = none := by
          rw [hfr _ le_rfl]; exact hq
        rw [content_absent cfg s hq, content_absent cfg _ hq1]
    | some f =>
        have hq1 : frameAt cfg (zeroFrame cfg s.ram (m + 1)) cfg.TABLES_DEPTH q = some f := by
          rw [hfr _ le_rfl]; exact hq
        rw [content_resident cfg s hq, content_resident cfg _ hq1]
        apply zeroFrame_other cfg s.ram i hi
        have := T.frame_le le_rfl hq
        omega
  · intro q hq
    exact absurd rfl hq

theorem alloced_reclaim (cfg : Config) (s : Mem) (m : Nat) (T : TreeInv cfg s.ram m)
    {dE pE E g : Nat} (hE : frameAt cfg s.ram (dE + 1) pE = some E)
    (hdE : dE + 1 < cfg.TABLES_DEPTH) (hz : ZeroFrame cfg s.ram E)
    (hg : frameAt cfg s.ram dE (pE / cfg.PAGE_SIZE) = some g) :
    Alloced cfg s m E
      { s with ram := setWord s.ram (g * cfg.PAGE_SIZE + pE % cfg.PAGE_SIZE) 0 } := by
  obtain ⟨hdet, hfr⟩ := T.detach hE (by omega) hz hg
  have hmod : pE % cfg.PAGE_SIZE < cfg.PAGE_SIZE := Nat.mod_lt _ (PAGE_SIZE_pos cfg)
  refine ⟨⟨m, hdet, le_rfl, by omega⟩, ?_, ?_, ?_, ?_, ?_⟩
  · intro d x f hd hf
    change frameAt cfg (setWord s.ram (g * cfg.PAGE_SIZE + pE % cfg.PAGE_SIZE) 0) d x = some f
      at hf
    rw [hfr d hd] at hf
    split_ifs at hf
    exact hf
  · intro d x f hd hf hne
    show frameAt cfg (setWord s.ram (g * cfg.PAGE_SIZE + pE % cfg.PAGE_SIZE) 0) d x = some f
    rw [hfr d hd, if_neg]
    · exact hf
    · rintro ⟨h1, h2⟩
      rw [h1, h2, hE] at hf
      exact hne (Option.some.inj hf).symm
  · intro a ha
    show setWord s.ram _ 0 a = 0
    unfold setWord; split_ifs
    · rfl
    · exact ha
  · intro q i hi
    have hsame : frameAt cfg (setWord s.ram (g * cfg.PAGE_SIZE + pE % cfg.PAGE_SIZE) 0)
        cfg.TABLES_DEPTH q = frameAt cfg s.ram cfg.TABLES_DEPTH q := by
      rw [hfr _ le_rfl, if_neg (by omega)]
    cases hq : frameAt cfg s.ram cfg.TABLES_DEPTH q with
    | none =>
        rw [content_absent cfg s hq, content_absent cfg _ (by rw [← hq]; exact hsame)]
    | some f =>
        rw [content_resident cfg s hq, content_resident cfg _ (by rw [← hq]; exact hsame)]
        apply setWord_other
        intro heq
        have hfg := (rowAddr_inj cfg hi hmod heq).1
        rw [hfg] at hq
        have := (T.inj _ _ _ _ _ le_rfl (by omega) hq hg).1
        omega
  · intro q hq
    exact absurd rfl hq

theorem alloced_evict (cfg : Config) (s : Mem) (m : Nat) (T : TreeInv cfg s.ram m)
    (hD : 0 < cfg.TABLES_DEPTH) {q L g : Nat}
    (hL : frameAt cfg s.ram cfg.TABLES_DEPTH q = some L)
    (hg : frameAt cfg s.ram (cfg.TABLES_DEPTH - 1) (q / cfg.PAGE_SIZE) = some g) :
    Alloced cfg s m L
      { ram := setWord (zeroFrame cfg s.ram L) (g * cfg.PAGE_SIZE + q % cfg.PAGE_SIZE) 0,
        swap := fun x =>
          if x = q then some (fun i => s.ram (L * cfg.PAGE_SIZE + i)) else s.swap x } := by
  obtain ⟨k, hk⟩ : ∃ k, cfg.TABLES_DEPTH = k + 1 := ⟨cfg.TABLES_DEPTH - 1, by omega⟩
  have hk' : cfg.TABLES_DEPTH - 1 = k := by omega
  rw [hk'] at hg
  obtain ⟨T', hfr'⟩ := T.of_leaf_change (zeroFrame cfg s.ram L) hL (by
    intro a ha
    simp [zeroFrame, ha])
  have hL' : frameAt cfg (zeroFrame cfg s.ram L) (k + 1) q = some L := by
    rw [← hk, hfr' _ le_rfl]; exact hL
  have hg' : frameAt cfg (zeroFrame cfg s.ram L) k (q / cfg.PAGE_SIZE) = some g := by
    rw [hfr' _ (by omega)]; exact hg
  have hzL : ZeroFrame cfg (zeroFrame cfg s.ram L) L :=
    fun row hr => zeroFrame_same cfg s.ram L row hr
  obtain ⟨hdet, hfr⟩ := T'.detach hL' (by omega) hzL hg'
  have hmod : q % cfg.PAGE_SIZE < cfg.PAGE_SIZE := Nat.mod_lt _ (PAGE_SIZE_pos cfg)
  have hform : ∀ d, d ≤ cfg.TABLES_DEPTH → ∀ x,
      frameAt cfg (setWord (zeroFrame cfg s.ram L) (g * cfg.PAGE_SIZE + q % cfg.PAGE_SIZE) 0) d x
        = if d = k + 1 ∧ x = q then none else frameAt cfg s.ram d x := by
    intro d hd x
    rw [hfr d hd, hfr' d hd]
  have hgL : g ≠ L := by
    intro e
    rw [e] at hg
    have := (T.inj _ _ _ _ _ (by omega) le_rfl hg hL).1
    omega
  refine ⟨⟨m, hdet, le_rfl, by omega⟩, ?_, ?_, ?_, ?_, ?_⟩
  · intro d x f hd hf
    change frameAt cfg (setWord (zeroFrame cfg s.ram L) _ 0) d x = some f at hf
    rw [hform d hd] at hf
    split_ifs at hf
    exact hf
  · intro d x f hd hf hne
    show frameAt cfg (setWord (zeroFrame cfg s.ram L) _ 0) d x = some f
    rw [hform d hd, if_neg]
    · exact hf
    · rintro ⟨h1, h2⟩
      rw [h1, h2, ← hk, hL] at hf
      exact hne (Option.some.inj hf).symm
  · intro a ha
    show setWord (zeroFrame cfg s.ram L) _ 0 a = 0
    unfold setWord zeroFrame; split_ifs
    · rfl
    · rfl
    · exact ha
  · intro q' i hi
    by_cases hqq : q' = q
    · subst hqq
      have h1 : frameAt cfg (setWord (zeroFrame cfg s.ram L)
          (g * cfg.PAGE_SIZE + q' % cfg.PAGE_SIZE) 0) cfg.TABLES_DEPTH q' = none := by
        rw [hform _ le_rfl, if_pos ⟨hk, rfl⟩]
      rw [content_resident cfg s hL, content_absent cfg _ h1]
      simp
    · have hsame : frameAt cfg (setWord (zeroFrame cfg s.ram L)
          (g * cfg.PAGE_SIZE + q % cfg.PAGE_SIZE) 0) cfg.TABLES_DEPTH q' =
          frameAt cfg s.ram cfg.TABLES_DEPTH q' := by
        rw [hform _ le_rfl, if_neg (fun h => hqq h.2)]
      cases hq : frameAt cfg s.ram cfg.TABLES_DEPTH q' with
      | none =>
          rw [content_absent cfg s hq, content_absent cfg _ (by rw [← hq]; exact hsame)]
          simp [hqq]
      | some f =>
          rw [content_resident cfg s hq, content_resident cfg _ (by rw [← hq]; exact hsame)]
          show setWord (zeroFrame cfg s.ram L) _ 0 (f * cfg.PAGE_SIZE + i) = _
          have hfL : f ≠ L := by
            intro e
            rw [e] at hq
            exact hqq (T.inj _ _ _ _ _ le_rfl le_rfl hq hL).2
          rw [setWord_other, zeroFrame_other cfg s.ram i hi hfL]
          intro heq
          have hfg := (rowAddr_inj cfg hi hmod heq).1
          rw [hfg] at hq
          have := (T.inj _ _ _ _ _ le_rfl (by omega) hq hg).1
          omega
  · intro x hx
    by_cases hxq : x = q
    · subst hxq
      refine ⟨⟨L, hL⟩, ?_⟩
      show frameAt cfg (setWord (zeroFrame cfg s.ram L) _ 0) cfg.TABLES_DEPTH x = none
      rw [hform _ le_rfl, if_pos ⟨hk, rfl⟩]
    · exact absurd (by simp [hxq]) hx

/-- Whatever the allocation block returns on the tree of a reachable state, it
leaves the tree ready for the link. -/
theorem AllocOutcome.alloced {cfg : Config} {s : Mem} {page A m : Nat} (T : TreeInv cfg s.ram m)
    (hD : 0 < cfg.TABLES_DEPTH) {dA pA : Nat} (hA : frameAt cfg s.ram dA pA = some A)
    (hdA : dA ≤ cfg.TABLES_DEPTH) {a : Int} {s1 : Mem}
    (h : AllocOutcome cfg s page A m (.ok (a, s1))) :
    ∃ X : Nat, a = (X : Int) ∧ X ≠ A ∧ Alloced cfg s m X s1 := by
  generalize hr : (Except.ok (a, s1) : Except Fault (Int × Mem)) = r at h
  cases h with
  | fresh hlt =>
      simp only [Except.ok.injEq, Prod.mk.injEq] at hr
      obtain ⟨h1, h2⟩ := hr
      subst h1 h2
      refine ⟨m + 1, rfl, ?_, alloced_fresh cfg s m T hlt⟩
      have := T.frame_le hdA hA
      omega
  | reclaim dE pE E g hge hE hdE hz hne hg _ =>
      simp only [Except.ok.injEq, Prod.mk.injEq] at hr
      obtain ⟨h1, h2⟩ := hr
      subst h1 h2
      exact ⟨E, rfl, hne, alloced_reclaim cfg s m T hE hdE hz hg⟩
  | evict q L g hge _ _ _ hL hne hg =>
      simp only [Except.ok.injEq, Prod.mk.injEq] at hr
      obtain ⟨h1, h2⟩ := hr
      subst h1 h2
      exact ⟨L, rfl, hne, alloced_evict cfg s m T hD hL hg⟩
  | fault _ _ _ => simp at hr

/-- Writing the allocated frame into the entry the walk found empty. -/
theorem Alloced.link {cfg : Config} {s s1 : Mem} {m X : Nat} (H : Alloced cfg s m X s1)
    {dA pA A c : Nat} (hA : frameAt cfg s.ram dA pA = some A) (hAX : A ≠ X)
    (hdA : dA < cfg.TABLES_DEPTH) (hc : c < cfg.PAGE_SIZE)
    (hz : s.ram (A * cfg.PAGE_SIZE + c) = 0)
    (hpage : (pA * cfg.PAGE_SIZE + c) * cfg.PAGE_SIZE ^ (cfg.TABLES_DEPTH - (dA + 1))
      < cfg.NUM_PAGES) :
    Linked cfg s m dA pA c X
      { s1 with ram := setWord s1.ram (A * cfg.PAGE_SIZE + c) (X : Int) } := by
  obtain ⟨m', hdet, hm1, hm2⟩ := H.det
  have hA1 : frameAt cfg s1.ram dA pA = some A := H.keep dA pA A (by omega) hA hAX
  have hz1 : s1.ram (A * cfg.PAGE_SIZE + c) = 0 := H.zeros _ hz
  obtain ⟨T2, hfr2⟩ := hdet.attach hA1 hdA hc hz1 hpage
  have hnew0 : frameAt cfg s.ram (dA + 1) (pA * cfg.PAGE_SIZE + c) = none :=
    frameAt_child_zero cfg s.ram hA hc hz
  refine ⟨⟨m', T2, hm1, hm2⟩, ?_, ?_, ?_, ?_, ?_⟩
  · show frameAt cfg (setWord s1.ram _ _) _ _ = _
    rw [hfr2 _ (by omega)]; simp
  · intro row hr
    show setWord s1.ram _ _ _ = 0
    rw [setWord_other]
    · exact hdet.zero row hr
    · intro heq
      exact hAX (rowAddr_inj cfg hr hc heq).1.symm
  · intro q f hf hnot
    change frameAt cfg (setWord s1.ram _ _) _ _ = _ at hf
    rw [hfr2 _ le_rfl, if_neg (fun h => hnot ⟨h.1.symm, h.2⟩)] at hf
    exact H.sub _ _ _ le_rfl hf
  · intro q hnot i hi
    rw [← H.cont q i hi]
    have hsame : frameAt cfg (setWord s1.ram (A * cfg.PAGE_SIZE + c) (X : Int))
        cfg.TABLES_DEPTH q = frameAt cfg s1.ram cfg.TABLES_DEPTH q := by
      rw [hfr2 _ le_rfl, if_neg (fun h => hnot ⟨h.1.symm, h.2⟩)]
    cases hq : frameAt cfg s1.ram cfg.TABLES_DEPTH q with
    | none =>
        rw [content_absent cfg s1 hq, content_absent cfg _ (by rw [← hq]; exact hsame)]
    | some f =>
        rw [content_resident cfg s1 hq, content_resident cfg _ (by rw [← hq]; exact hsame)]
        apply setWord_other
        intro heq
        have hfA := (rowAddr_inj cfg hi hc heq).1
        rw [hfA] at hq
        have := (hdet.inj _ _ _ _ _ le_rfl (by omega) hq hA1).1
        omega
  · intro q hq
    obtain ⟨⟨f, hf⟩, h1⟩ := H.swapQ q hq
    refine ⟨⟨f, hf⟩, ?_⟩
    show frameAt cfg (setWord s1.ram _ _) _ _ = _
    rw [hfr2 _ le_rfl, if_neg, h1]
    rintro ⟨e1, e2⟩
    rw [e1, e2, hnew0] at hf
    exact absurd hf (by simp)

/-! ## The distance computed with `int` casts -/

theorem toInt32_small {x : Nat} (h : x < 2 ^ 31) : toInt32 x = (x : Int) := by
  unfold toInt32
  rw [Nat.mod_eq_of_lt (by omega)]
  push_cast
  ring

theorem leafDist_eq (cfg : Config) (hN : cfg.NUM_PAGES < 2 ^ 31) {p q : Nat}
    (hp : p < cfg.NUM_PAGES) (hq : q < cfg.NUM_PAGES) :
    leafDist cfg p q = cyclicDist cfg p q := by
  unfold leafDist cyclicDist
  rw [toInt32_small hN, toInt32_small (lt_trans hp hN), toInt32_small (lt_trans hq hN)]

theorem cyclicDist_nonneg (cfg : Config) {p q : Nat}
    (hp : p < cfg.NUM_PAGES) (hq : q < cfg.NUM_PAGES) : 0 ≤ cyclicDist cfg p q := by
  unfold cyclicDist
  have h1 : |(p : Int) - (q : Int)| < (cfg.NUM_PAGES : Int) := by
    rw [abs_lt]
    constructor <;> omega
  exact le_min (by omega) (abs_nonneg _)

/-! ## There is always a leaf to evict -/

/-- Below a frame that is off the path of the walk, and hence not the avoided
frame, the scan reaches a leaf as soon as no table but the avoided one is empty. -/
theorem descend_to_leaf (cfg : Config) (ram : Nat → Int) (m : Nat) (T : TreeInv cfg ram m)
    {dA pA A : Nat} (hA : frameAt cfg ram dA pA = some A) (hdA : dA < cfg.TABLES_DEPTH)
    (hne : ∀ d p f, d < cfg.TABLES_DEPTH → frameAt cfg ram d p = some f → f ≠ A →
      ¬ ZeroFrame cfg ram f) :
    ∀ n d p f, d + n = cfg.TABLES_DEPTH → frameAt cfg ram d p = some f →
      ¬ (d ≤ dA ∧ p = pA / cfg.PAGE_SIZE ^ (dA - d)) →
      ∃ q L, frameAt cfg ram cfg.TABLES_DEPTH q = some L ∧ L ≠ A := by
  intro n
  induction n with
  | zero =>
      intro d p f hd hf _
      have hdD : d = cfg.TABLES_DEPTH := by omega
      subst hdD
      refine ⟨p, f, hf, ?_⟩
      intro e
      rw [e] at hf
      have := (T.inj _ _ _ _ _ le_rfl (by omega) hf hA).1
      omega
  | succ n ih =>
      intro d p f hd hf hoff
      have hfA : f ≠ A := by
        intro e
        rw [e] at hf
        obtain ⟨e1, e2⟩ := T.inj _ _ _ _ _ (by omega) (by omega) hf hA
        apply hoff
        subst e1 e2
        exact ⟨le_rfl, by simp⟩
      have hnz := hne d p f (by omega) hf hfA
      unfold ZeroFrame at hnz
      push_neg at hnz
      obtain ⟨row, hr, hv⟩ := hnz
      obtain ⟨c, hc, _, _⟩ := T.child (by omega) hf hr hv
      apply ih (d + 1) (p * cfg.PAGE_SIZE + row) c (by omega) hc
      rintro ⟨h1, h2⟩
      apply hoff
      refine ⟨by omega, ?_⟩
      have e : dA - d = (dA - (d + 1)) + 1 := by omega
      rw [e, pow_succ, ← Nat.div_div_eq_div_mul, ← h2]
      exact (div_eq_frame cfg p row hr).symm

/-- With all frames in use and at least `TABLES_DEPTH + 1` of them, some frame
of the tree is off the path of the walk. -/
theorem exists_off_path (cfg : Config) (ram : Nat → Int) (m : Nat) (T : TreeInv cfg ram m)
    (dA pA : Nat) (hm : dA + 1 < m + 1) :
    ∃ d p f, d ≤ cfg.TABLES_DEPTH ∧ frameAt cfg ram d p = some f ∧
      ¬ (d ≤ dA ∧ p = pA / cfg.PAGE_SIZE ^ (dA - d)) := by
  classical
  let g : Nat → Nat := fun j => (frameAt cfg ram j (pA / cfg.PAGE_SIZE ^ (dA - j))).getD 0
  have hcard : ((Finset.range (dA + 1)).image g).card < (Finset.range (m + 1)).card := by
    calc ((Finset.range (dA + 1)).image g).card ≤ (Finset.range (dA + 1)).card :=
          Finset.card_image_le
      _ = dA + 1 := Finset.card_range _
      _ < m + 1 := hm
      _ = (Finset.range (m + 1)).card := (Finset.card_range _).symm
  have hex : ∃ f ∈ Finset.range (m + 1), f ∉ (Finset.range (dA + 1)).image g := by
    by_contra hcon
    push_neg at hcon
    have := Finset.card_le_card (s := Finset.range (m + 1))
      (t := (Finset.range (dA + 1)).image g) (fun x hx => hcon x hx)
    omega
  obtain ⟨f, hf, hnot⟩ := hex
  obtain ⟨d, p, hd, hp⟩ := T.sur f (by simpa [Nat.lt_succ_iff] using hf)
  refine ⟨d, p, f, hd, hp, ?_⟩
  rintro ⟨h1, h2⟩
  apply hnot
  rw [Finset.mem_image]
  refine ⟨d, Finset.mem_range.mpr (by omega), ?_⟩
  show (frameAt cfg ram d (pA / cfg.PAGE_SIZE ^ (dA - d))).getD 0 = f
  rw [← h2, hp]
  rfl

theorem leaf_exists (cfg : Config) (ram : Nat → Int) (m : Nat) (T : TreeInv cfg ram m)
    {dA pA A : Nat} (hA : frameAt cfg ram dA pA = some A) (hdA : dA < cfg.TABLES_DEPTH)
    (hfull : cfg.NUM_FRAMES ≤ m + 1) (hN : cfg.TABLES_DEPTH + 1 ≤ cfg.NUM_FRAMES)
    (hne : ∀ d p f, d < cfg.TABLES_DEPTH → frameAt cfg ram d p = some f → f ≠ A →
      ¬ ZeroFrame cfg ram f) :
    ∃ q L, frameAt cfg ram cfg.TABLES_DEPTH q = some L ∧ L ≠ A := by
  obtain ⟨d, p, f, hd, hp, hoff⟩ := exists_off_path cfg ram m T dA pA (by omega)
  exact descend_to_leaf cfg ram m T hA hdA hne (cfg.TABLES_DEPTH - d) d p f (by omega) hp hoff

/-- With distances computed exactly, the scan records a candidate as soon as
the tree has a leaf other than the avoided frame. -/
theorem scan_assigned (cfg : Config) (ram : Nat → Int) (page avoid : Nat)
    (hN : cfg.NUM_PAGES < 2 ^ 31) (hpage : page < cfg.NUM_PAGES)
    (hpages : ∀ q f, frameAt cfg ram cfg.TABLES_DEPTH q = some f → q < cfg.NUM_PAGES)
    {q L : Nat} (hL : frameAt cfg ram cfg.TABLES_DEPTH q = some L) (hLA : L ≠ avoid) :
    (scan cfg ram page avoid).frameToEvict ≠ none := by
  have hb := bestOf_fold cfg ram page avoid (nodes cfg ram cfg.TABLES_DEPTH 0 0) []
    Search.start (bestOf_start cfg page avoid) (by
      intro a ha hc
      obtain ⟨_, hfr⟩ := (mem_nodes_iff cfg ram a).mp ha
      rw [hc.1] at hfr
      have hq := hpages a.2.1 a.2.2 (by simpa using hfr)
      rw [leafDist_eq cfg hN hpage hq]
      exact cyclicDist_nonneg cfg hpage hq)
  rw [List.nil_append] at hb
  rcases hb with ⟨_, _, _, h4⟩ | ⟨l1, n, l2, _, _, h1, _⟩
  · have hmem := nodes_complete cfg ram cfg.TABLES_DEPTH q L le_rfl hL
    rw [Nat.sub_self] at hmem
    exact absurd ⟨rfl, hLA⟩ (h4 _ hmem)
  · intro h
    have h1' : (scan cfg ram page avoid).frameToEvict = some n.2.2 := h1
    rw [h] at h1'
    exact absurd h1' (by simp)

/-! ## One step of the walk -/

theorem pagePfx_step (cfg : Config) (page : Nat) {k : Nat} (hk : k < cfg.TABLES_DEPTH) :
    pagePfx cfg page k * cfg.PAGE_SIZE + pagePfx cfg page (k + 1) % cfg.PAGE_SIZE =
      pagePfx cfg page (k + 1) := by
  rw [← pagePfx_pred cfg page hk]
  exact Nat.div_add_mod' _ _

/-- A page whose prefix is not in the tree is not resident. -/
theorem absent_of_pfx (cfg : Config) (ram : Nat → Int) (page : Nat) {k : Nat}
    (hk : k ≤ cfg.TABLES_DEPTH) (h : frameAt cfg ram k (pagePfx cfg page k) = none) :
    frameAt cfg ram cfg.TABLES_DEPTH page = none := by
  cases hf : frameAt cfg ram cfg.TABLES_DEPTH page with
  | none => rfl
  | some f =>
      have e : cfg.TABLES_DEPTH = k + (cfg.TABLES_DEPTH - k) := by omega
      rw [e] at hf
      obtain ⟨g, hg⟩ := frameAt_pfx cfg ram (cfg.TABLES_DEPTH - k) k page f hf
      have : page / cfg.PAGE_SIZE ^ (cfg.TABLES_DEPTH - k) = pagePfx cfg page k := rfl
      rw [this, h] at hg
      exact absurd hg (by simp)

theorem Walked.start (cfg : Config) (page : Nat) (hpage : page < cfg.NUM_PAGES) (s : Mem)
    (m : Nat) (T : TreeInv cfg s.ram m) : Walked cfg page s m 0 0 s := by
  refine ⟨⟨m, T, le_rfl, by omega⟩, ?_, ?_, ?_, rfl, ?_, Or.inl rfl⟩
  · rw [pagePfx_zero cfg hpage]; exact frameAt_root cfg s.ram
  · intro q f hf _; exact hf
  · intro q _ i _; rfl
  · intro q hq; exact absurd rfl hq

/-- What one iteration of the loop of `_traverse_tree` does. -/
theorem step_spec (cfg : Config) (page : Nat) (hpage : page < cfg.NUM_PAGES) (s0 : Mem)
    (m0 k A : Nat) (s : Mem)
    (W : Walked cfg page s0 m0 k A s) (hk : k < cfg.TABLES_DEPTH) :
    match traverseStep cfg page (k + 1) (A : Int) s with
    | .ok (a, s') => ∃ A' : Nat, a = (A' : Int) ∧ Walked cfg page s0 m0 (k + 1) A' s'
    | .error e => e = Fault.uninitialised ∧ ∃ m, TreeInv cfg s.ram m ∧ m ≤ m0 + k ∧
        cfg.NUM_FRAMES ≤ m + 1 ∧ frameAt cfg s.ram cfg.TABLES_DEPTH page = none ∧
        (scan cfg s.ram page A).emptyFrame = 0 ∧
        (scan cfg s.ram page A).frameToEvict = none := by
  obtain ⟨m, T, hm0, hmk⟩ := W.tree
  have hA := W.here
  have hAN : A < cfg.NUM_FRAMES := T.frame_lt (by omega) hA
  have hc : pagePfx cfg page (k + 1) % cfg.PAGE_SIZE < cfg.PAGE_SIZE :=
    Nat.mod_lt _ (PAGE_SIZE_pos cfg)
  have hrow := row_lt_ram cfg hAN hc
  have hnewpos := pagePfx_step cfg page hk
  unfold traverseStep
  simp only
  rw [shift_chunk, toU64_row cfg hAN hc, toU64_natCast (m_lt_pow cfg hAN), PMread_ok cfg s hrow]
  simp only
  by_cases hv : s.ram (A * cfg.PAGE_SIZE + pagePfx cfg page (k + 1) % cfg.PAGE_SIZE) = 0
  · rw [if_pos hv]
    have hspec := allocate_spec cfg s m T.toTreeBase page A (by omega)
    rw [T.scan_maxFrame page A] at hspec
    have habs : frameAt cfg s.ram cfg.TABLES_DEPTH page = none := by
      apply absent_of_pfx cfg s.ram page (k := k + 1) (by omega)
      rw [← hnewpos]
      exact frameAt_child_zero cfg s.ram hA hc hv
    cases hr : allocate cfg s page A with
    | error e =>
        rw [hr] at hspec
        simp only
        cases hspec with
        | fault h1 h2 h3 => exact ⟨rfl, m, T, hmk, h1, habs, h2, h3⟩
    | ok r =>
        obtain ⟨a, s1⟩ := r
        rw [hr] at hspec
        simp only
        obtain ⟨X, hX, hXA, hall⟩ := hspec.alloced T (by omega) hA (by omega)
        subst hX
        rw [PMwrite_ok cfg s1 _ hrow]
        simp only
        have hlink := hall.link hA (Ne.symm hXA) hk hc hv (by
          rw [hnewpos]; exact pagePfx_bound cfg hpage (k + 1))
        obtain ⟨m2, T2, hm2a, hm2b⟩ := hlink.tree
        have hnotnew : ∀ q, q ≠ page → ¬ (k + 1 = cfg.TABLES_DEPTH ∧
            q = pagePfx cfg page k * cfg.PAGE_SIZE +
              pagePfx cfg page (k + 1) % cfg.PAGE_SIZE) := by
          rintro q hq ⟨e1, e2⟩
          rw [hnewpos, e1, pagePfx_full] at e2
          exact hq e2
        have hswapP : s1.swap page = s.swap page := by
          by_contra hne
          obtain ⟨⟨f, hf⟩, _⟩ := hlink.swapQ page hne
          rw [habs] at hf
          exact absurd hf (by simp)
        refine ⟨X, rfl, ⟨m2, T2, by omega, by omega⟩, ?_, ?_, ?_, ?_, ?_, ?_⟩
        · have := hlink.here
          rw [hnewpos] at this
          exact this
        · intro q f hf hq
          exact W.res q f (hlink.res q f hf (hnotnew q hq)) hq
        · intro q hq i hi
          rw [hlink.cont q (hnotnew q hq) i hi]
          exact W.cont q hq i hi
        · show s1.swap page = s0.swap page
          rw [hswapP]; exact W.swapP
        · intro q hq
          have hq' : s1.swap q ≠ s0.swap q := hq
          by_cases h1 : s.swap q = s0.swap q
          · rw [← h1] at hq'
            obtain ⟨⟨f, hf⟩, hnone⟩ := hlink.swapQ q hq'
            refine ⟨⟨f, W.res q f hf ?_⟩, hnone⟩
            intro e
            rw [e, habs] at hf
            exact absurd hf (by simp)
          · obtain ⟨hres, hnone⟩ := W.swapQ q h1
            refine ⟨hres, ?_⟩
            have hqp : q ≠ page := by
              intro e
              rw [e] at h1
              exact h1 W.swapP
            cases hf : frameAt cfg (setWord s1.ram
                (A * cfg.PAGE_SIZE + pagePfx cfg page (k + 1) % cfg.PAGE_SIZE) (X : Int))
                cfg.TABLES_DEPTH q with
            | none => rfl
            | some f =>
                have := hlink.res q f hf (hnotnew q hqp)
                rw [hnone] at this
                exact absurd this (by simp)
        · right
          refine ⟨?_, hlink.zero⟩
          rcases W.fresh with e | ⟨e, _⟩
          · rw [← e]; exact habs
          · exact e
  · rw [if_neg hv]
    simp only
    obtain ⟨c, hc1, hc2, _⟩ := T.child hk hA hc hv
    rw [hnewpos] at hc1
    refine ⟨c, hc2, ⟨m, T, hm0, by omega⟩, hc1, W.res, W.cont, W.swapP, W.swapQ, ?_⟩
    rcases W.fresh with e | ⟨_, hz⟩
    · exact Or.inl e
    · exact absurd (hz _ hc) hv

/-! ## The whole walk -/

theorem loop_spec (cfg : Config) (page : Nat) (hpage : page < cfg.NUM_PAGES) (s0 : Mem)
    (m0 : Nat) :
    ∀ n k A s, k + n ≤ cfg.TABLES_DEPTH → Walked cfg page s0 m0 k A s →
      match traverseLoop cfg page n (k + 1) (A : Int) s with
      | .ok (a, s') =>
          ∃ F : Nat, a = (F : Int) ∧ Walked cfg page s0 m0 (k + n) F s'
      | .error e => e = Fault.uninitialised ∧ Stuck cfg page s0 m0 := by
  intro n
  induction n with
  | zero =>
      intro k A s hk W
      simp only [traverseLoop]
      exact ⟨A, rfl, W⟩
  | succ n ih =>
      intro k A s hk W
      have hstep := step_spec cfg page hpage s0 m0 k A s W (by omega)
      rw [traverseLoop]
      cases hr : traverseStep cfg page (k + 1) (A : Int) s with
      | error e =>
          rw [hr] at hstep
          simp only at hstep ⊢
          obtain ⟨he, m, T, h1, h2, h3, h4, h5⟩ := hstep
          exact ⟨he, ⟨k, A, s, m, by omega, W, T, h1, h2, h3, h4, h5⟩⟩
      | ok r =>
          obtain ⟨a, s'⟩ := r
          rw [hr] at hstep
          simp only at hstep ⊢
          obtain ⟨A', hA', W'⟩ := hstep
          subst hA'
          have := ih (k + 1) A' s' (by omega) W'
          have e : k + 1 + n = k + (n + 1) := by omega
          rw [e] at this
          exact this

/-- The walk cannot get stuck when the distances are computed exactly and
there are enough frames, nor while never-used frames remain. -/
theorem not_stuck (cfg : Config) (page : Nat) (hpage : page < cfg.NUM_PAGES) (s0 : Mem)
    (m0 : Nat)
    (hsafe : (cfg.TABLES_DEPTH + 1 ≤ cfg.NUM_FRAMES ∧ cfg.NUM_PAGES < 2 ^ 31) ∨
      m0 + cfg.TABLES_DEPTH < cfg.NUM_FRAMES) :
    ¬ Stuck cfg page s0 m0 := by
  rintro ⟨k, A, s, m, hk, W, T, hmk, hfull, _, hE, hF⟩
  rcases hsafe with ⟨hN, hP⟩ | hroom
  · have hne := scan_empty_zero cfg s.ram page W.here hE
    obtain ⟨q, L, hL, hLA⟩ := leaf_exists cfg s.ram m T W.here hk hfull hN hne
    exact scan_assigned cfg s.ram page A hP hpage
      (fun q f hf => by simpa using T.page _ q f le_rfl hf) hL hLA hF
  · omega

theorem restore_spec (cfg : Config) (s : Mem) (F page : Nat) (hF : F < cfg.NUM_FRAMES) :
    ∃ s', PMrestore cfg s F page = .ok s' ∧ s'.swap = s.swap ∧
      (∀ a, a / cfg.PAGE_SIZE ≠ F → s'.ram a = s.ram a) ∧
      (∀ i, i < cfg.PAGE_SIZE → s'.ram (F * cfg.PAGE_SIZE + i) =
        match s.swap page with
        | some c => c i
        | none => if cfg.RESTORE_ZERO_FILLS then 0 else s.ram (F * cfg.PAGE_SIZE + i)) ∧
      (s.swap page = none → cfg.RESTORE_ZERO_FILLS = false → s' = s) := by
  unfold PMrestore
  rw [if_pos hF]
  cases hsw : s.swap page with
  | some c =>
      refine ⟨_, rfl, rfl, ?_, ?_, ?_⟩
      · intro a ha; simp [ha]
      · intro i hi
        simp [div_eq_frame cfg F i hi, mod_eq_row cfg F i hi]
      · intro h; simp at h
  | none =>
      cases hz : cfg.RESTORE_ZERO_FILLS with
      | true =>
          refine ⟨_, rfl, rfl, ?_, ?_, ?_⟩
          · intro a ha; simp [ha]
          · intro i hi
            simp [div_eq_frame cfg F i hi]
          · intro _ h; simp at h
      | false =>
          refine ⟨s, rfl, rfl, ?_, ?_, ?_⟩
          · intro a _; rfl
          · intro i _; simp
          · intro _ _; rfl

/-- What `_traverse_tree` does on the tree of a reachable state. -/
theorem traverse_spec (cfg : Config) (page : Nat) (hpage : page < cfg.NUM_PAGES) (s : Mem)
    (m : Nat) (T : TreeInv cfg s.ram m) :
    match _traverse_tree cfg s page with
    | .ok (a, s') => ∃ F : Nat, a = (F : Int) ∧ Done cfg page s m F s'
    | .error e => e = Fault.uninitialised ∧ Stuck cfg page s m := by
  have hloop := loop_spec cfg page hpage s m cfg.TABLES_DEPTH 0 0 s (by omega)
    (Walked.start cfg page hpage s m T)
  rw [Nat.zero_add] at hloop
  unfold _traverse_tree
  rw [rounded_div]
  simp only [Nat.zero_add, Nat.cast_zero] at hloop
  cases hr : traverseLoop cfg page cfg.TABLES_DEPTH 1 0 s with
  | error e =>
      rw [hr] at hloop
      simpa using hloop
  | ok r =>
      obtain ⟨a, sD⟩ := r
      rw [hr] at hloop
      simp only at hloop ⊢
      obtain ⟨F, hF, W⟩ := hloop
      subst hF
      obtain ⟨m', T', hm1, hm2⟩ := W.tree
      have hFN : F < cfg.NUM_FRAMES := T'.frame_lt le_rfl W.here
      have hhere : frameAt cfg sD.ram cfg.TABLES_DEPTH page = some F := by
        have := W.here
        rwa [pagePfx_full] at this
      rw [toU64_natCast (m_lt_pow cfg hFN)]
      obtain ⟨s', hs', hsw, hout, hin, hsame⟩ := restore_spec cfg sD F page hFN
      rw [hs']
      simp only
      obtain ⟨T2, hfr⟩ := T'.of_leaf_change s'.ram hhere hout
      have hres : ∀ q f, frameAt cfg s'.ram cfg.TABLES_DEPTH q = some f →
          frameAt cfg sD.ram cfg.TABLES_DEPTH q = some f := by
        intro q f hf
        rw [hfr _ le_rfl] at hf
        exact hf
      refine ⟨F, rfl, ⟨m', T2, hm1, hm2⟩, ?_, ?_, ?_, ?_, ?_, ?_, ?_⟩
      · rw [hfr _ le_rfl]; exact hhere
      · intro q f hf hq
        exact W.res q f (hres q f hf) hq
      · intro q hq i hi
        rw [← W.cont q hq i hi]
        cases hf : frameAt cfg sD.ram cfg.TABLES_DEPTH q with
        | none =>
            rw [content_absent cfg sD hf,
              content_absent cfg s' (by rw [hfr _ le_rfl]; exact hf), hsw]
        | some f =>
            rw [content_resident cfg sD hf,
              content_resident cfg s' (by rw [hfr _ le_rfl]; exact hf)]
            apply hout
            rw [div_eq_frame cfg f i hi]
            intro e
            rw [e] at hf
            exact hq (T'.inj _ _ _ _ _ le_rfl le_rfl hf hhere).2
      · intro i hi
        rw [content_resident cfg s' (by rw [hfr _ le_rfl]; exact hhere), hin i hi, W.swapP]
        cases hsp : s.swap page with
        | some c => rfl
        | none =>
            simp only
            cases hz : cfg.RESTORE_ZERO_FILLS with
            | true => rfl
            | false =>
                simp only [Bool.false_eq_true, if_false]
                rcases W.fresh with e | ⟨habs, hzF⟩
                · rw [e] at hhere ⊢
                  rw [content_resident cfg s hhere]
                · rw [hzF i hi, content_absent cfg s habs, hsp]
      · rw [hsw]; exact W.swapP
      · intro q hq
        rw [hsw] at hq
        obtain ⟨h1, h2⟩ := W.swapQ q hq
        exact ⟨h1, by rw [hfr _ le_rfl]; exact h2⟩
      · intro f hresident hnone hz
        rcases W.fresh with e | ⟨habs, _⟩
        · rw [e] at hsame
          exact hsame hnone hz
        · rw [habs] at hresident
          exact absurd hresident (by simp)

/-- A walk for a resident page allocates nothing, so it cannot get stuck. -/
theorem not_stuck_resident (cfg : Config) (page : Nat) (s0 : Mem) (m0 : Nat) {f : Nat}
    (h : frameAt cfg s0.ram cfg.TABLES_DEPTH page = some f) : ¬ Stuck cfg page s0 m0 := by
  rintro ⟨k, A, s, m, _, W, _, _, _, habs, _, _⟩
  rcases W.fresh with e | ⟨e, _⟩
  · rw [e, h] at habs
    exact absurd habs (by simp)
  · rw [h] at e
    exact absurd e (by simp)

/-- A walk that does not get stuck returns. -/
theorem traverse_ok (cfg : Config) (page : Nat) (hpage : page < cfg.NUM_PAGES) (s : Mem)
    (m : Nat) (T : TreeInv cfg s.ram m) (hns : ¬ Stuck cfg page s m) :
    ∃ (F : Nat) (s' : Mem), _traverse_tree cfg s page = .ok ((F : Int), s') ∧
      Done cfg page s m F s' := by
  have h := traverse_spec cfg page hpage s m T
  cases hr : _traverse_tree cfg s page with
  | error e =>
      rw [hr] at h
      exact absurd h.2 hns
  | ok r =>
      obtain ⟨a, s'⟩ := r
      rw [hr] at h
      obtain ⟨F, hF, hD⟩ := h
      subst hF
      exact ⟨F, s', rfl, hD⟩

/-! ## Virtual addresses -/

theorem page_valid (cfg : Config) {a : Nat} (h : a < 2 ^ cfg.VIRTUAL_ADDRESS_WIDTH) :
    a >>> cfg.OFFSET_WIDTH < cfg.NUM_PAGES := by
  rw [Nat.shiftRight_eq_div_pow]
  unfold Config.NUM_PAGES
  by_cases hle : cfg.OFFSET_WIDTH ≤ cfg.VIRTUAL_ADDRESS_WIDTH
  · apply Nat.div_lt_of_lt_mul
    rw [← pow_add]
    have : cfg.OFFSET_WIDTH + (cfg.VIRTUAL_ADDRESS_WIDTH - cfg.OFFSET_WIDTH) =
        cfg.VIRTUAL_ADDRESS_WIDTH := by omega
    rw [this]; exact h
  · have h1 : (2 : Nat) ^ cfg.VIRTUAL_ADDRESS_WIDTH ≤ 2 ^ cfg.OFFSET_WIDTH :=
      Nat.pow_le_pow_right (by norm_num) (by omega)
    rw [Nat.div_eq_of_lt (by omega)]
    positivity

theorem offset_eq (cfg : Config) (a : Nat) :
    a % (2 <<< (cfg.OFFSET_WIDTH - 1)) = a % cfg.PAGE_SIZE := by
  rw [Nat.shiftLeft_eq]
  unfold Config.PAGE_SIZE
  have h := cfg.offset_pos
  have e : 2 * 2 ^ (cfg.OFFSET_WIDTH - 1) = 2 ^ cfg.OFFSET_WIDTH := by
    rw [← pow_succ']
    congr 1
    omega
  rw [e]

theorem page_offset (cfg : Config) (a : Nat) :
    (a >>> cfg.OFFSET_WIDTH) * cfg.PAGE_SIZE + a % cfg.PAGE_SIZE = a := by
  rw [Nat.shiftRight_eq_div_pow]
  exact Nat.div_add_mod' a cfg.PAGE_SIZE

/-! ## `VMread` and `VMwrite` -/

theorem offsetModulus_ok (cfg : Config) (hO : cfg.OFFSET_WIDTH ≤ 30) :
    offsetModulus cfg = .ok (2 <<< (cfg.OFFSET_WIDTH - 1)) := by
  have hpos := cfg.offset_pos
  have h2 : 2 <<< (cfg.OFFSET_WIDTH - 1) = 2 ^ cfg.OFFSET_WIDTH := by
    rw [Nat.shiftLeft_eq, ← pow_succ']
    congr 1
    omega
  unfold offsetModulus
  rw [if_pos]
  rw [h2]
  exact Nat.pow_lt_pow_right (by norm_num) (by omega)

theorem offsetModulus_overflow (cfg : Config) (hO : ¬ cfg.OFFSET_WIDTH ≤ 30) :
    offsetModulus cfg = .error .overflow := by
  have h2 : 2 <<< (cfg.OFFSET_WIDTH - 1) = 2 ^ cfg.OFFSET_WIDTH := by
    rw [Nat.shiftLeft_eq, ← pow_succ']
    congr 1
    omega
  unfold offsetModulus
  rw [if_neg]
  rw [h2]
  have : (2 : Nat) ^ 31 ≤ 2 ^ cfg.OFFSET_WIDTH := Nat.pow_le_pow_right (by norm_num) (by omega)
  omega

/-- Beyond `OFFSET_WIDTH = 30` neither call returns. -/
theorem VM_overflow (cfg : Config) (hO : ¬ cfg.OFFSET_WIDTH ≤ 30) (s : Mem) (a : Nat) :
    (∀ v, VMwrite cfg s a v = .error .overflow) ∧ VMread cfg s a = .error .overflow := by
  constructor
  · intro v
    unfold VMwrite
    rw [offsetModulus_overflow cfg hO]
  · unfold VMread
    rw [offsetModulus_overflow cfg hO]

theorem VMwrite_eq (cfg : Config) (hO : cfg.OFFSET_WIDTH ≤ 30) (s : Mem) (a : Nat) (v : Int)
    (m : Nat) {F : Nat} {s' : Mem}
    (hD : Done cfg (a >>> cfg.OFFSET_WIDTH) s m F s')
    (h : _traverse_tree cfg s (a >>> cfg.OFFSET_WIDTH) = .ok ((F : Int), s')) :
    VMwrite cfg s a v =
      .ok (1, { s' with ram := setWord s'.ram (F * cfg.PAGE_SIZE + a % cfg.PAGE_SIZE) v }) := by
  obtain ⟨m', T', _, _⟩ := hD.tree
  have hFN : F < cfg.NUM_FRAMES := T'.frame_lt le_rfl hD.here
  have ho : a % cfg.PAGE_SIZE < cfg.PAGE_SIZE := Nat.mod_lt _ (PAGE_SIZE_pos cfg)
  unfold VMwrite
  rw [offsetModulus_ok cfg hO]
  simp only
  rw [h, offset_eq]
  simp only
  rw [toU64_row cfg hFN ho, PMwrite_ok cfg s' v (row_lt_ram cfg hFN ho)]

theorem VMread_eq (cfg : Config) (hO : cfg.OFFSET_WIDTH ≤ 30) (s : Mem) (a : Nat) (m : Nat)
    {F : Nat} {s' : Mem}
    (hD : Done cfg (a >>> cfg.OFFSET_WIDTH) s m F s')
    (h : _traverse_tree cfg s (a >>> cfg.OFFSET_WIDTH) = .ok ((F : Int), s')) :
    VMread cfg s a =
      .ok (1, content cfg s' (a >>> cfg.OFFSET_WIDTH) (a % cfg.PAGE_SIZE), s') := by
  obtain ⟨m', T', _, _⟩ := hD.tree
  have hFN : F < cfg.NUM_FRAMES := T'.frame_lt le_rfl hD.here
  have ho : a % cfg.PAGE_SIZE < cfg.PAGE_SIZE := Nat.mod_lt _ (PAGE_SIZE_pos cfg)
  unfold VMread
  rw [offsetModulus_ok cfg hO]
  simp only
  rw [h, offset_eq]
  simp only
  rw [toU64_row cfg hFN ho, PMread_ok cfg s' (row_lt_ram cfg hFN ho),
    content_resident cfg s' hD.here]

/-- The state after the final `PMwrite` of `VMwrite`. -/
theorem Done.write {cfg : Config} {page : Nat} {s : Mem} {m F : Nat} {s' : Mem}
    (hD : Done cfg page s m F s') (off : Nat) (ho : off < cfg.PAGE_SIZE) (v : Int) :
    (∃ m', TreeInv cfg (setWord s'.ram (F * cfg.PAGE_SIZE + off) v) m' ∧ m ≤ m' ∧
      m' ≤ m + cfg.TABLES_DEPTH) ∧
    (∀ d, d ≤ cfg.TABLES_DEPTH → ∀ p,
      frameAt cfg (setWord s'.ram (F * cfg.PAGE_SIZE + off) v) d p = frameAt cfg s'.ram d p) ∧
    (∀ q, q ≠ page → ∀ i, i < cfg.PAGE_SIZE →
      content cfg { s' with ram := setWord s'.ram (F * cfg.PAGE_SIZE + off) v } q i =
        content cfg s' q i) ∧
    (∀ i, i < cfg.PAGE_SIZE →
      content cfg { s' with ram := setWord s'.ram (F * cfg.PAGE_SIZE + off) v } page i =
        if i = off then v else content cfg s' page i) := by
  obtain ⟨m', T', h1, h2⟩ := hD.tree
  obtain ⟨T2, hfr⟩ := T'.of_leaf_change (setWord s'.ram (F * cfg.PAGE_SIZE + off) v)
    hD.here (by
      intro a ha
      apply setWord_other
      intro e
      rw [e, div_eq_frame cfg F off ho] at ha
      exact ha rfl)
  refine ⟨⟨m', T2, h1, h2⟩, hfr, ?_, ?_⟩
  · intro q hq i hi
    cases hf : frameAt cfg s'.ram cfg.TABLES_DEPTH q with
    | none =>
        rw [content_absent cfg s' hf, content_absent cfg _ (by
          show frameAt cfg (setWord s'.ram _ v) _ _ = none
          rw [hfr _ le_rfl]; exact hf)]
    | some f =>
        rw [content_resident cfg s' hf, content_resident cfg _ (by
          show frameAt cfg (setWord s'.ram _ v) _ _ = some f
          rw [hfr _ le_rfl]; exact hf)]
        apply setWord_other
        intro e
        have hfF := (rowAddr_inj cfg hi ho e).1
        rw [hfF] at hf
        exact hq (T'.inj _ _ _ _ _ le_rfl le_rfl hf hD.here).2
  · intro i hi
    rw [content_resident cfg s' hD.here, content_resident cfg _ (by
      show frameAt cfg (setWord s'.ram _ v) _ _ = some F
      rw [hfr _ le_rfl]; exact hD.here)]
    show setWord s'.ram _ v _ = _
    unfold setWord
    by_cases hio : i = off
    · simp [hio]
    · have : F * cfg.PAGE_SIZE + i ≠ F * cfg.PAGE_SIZE + off := by omega
      simp [hio, this]

/-! ## The invariant of the reachable states -/

theorem init_frameAt (cfg : Config) (ram : Nat → Int) :
    ∀ d p, frameAt cfg (zeroFrame cfg ram 0) (d + 1) p = none := by
  intro d
  induction d with
  | zero =>
      intro p
      rw [frameAt]
      cases h : frameAt cfg (zeroFrame cfg ram 0) 0 (p / cfg.PAGE_SIZE) with
      | none => rfl
      | some f =>
          have := (frameAt_zero_inv cfg _ h).2
          subst this
          simp only
          rw [zeroFrame_same cfg ram 0 _ (Nat.mod_lt _ (PAGE_SIZE_pos cfg))]
          simp
  | succ d ih =>
      intro p
      rw [frameAt, ih]

theorem init_tree (cfg : Config) (ram : Nat → Int) : TreeInv cfg (zeroFrame cfg ram 0) 0 := by
  have hpos : ∀ d p f, frameAt cfg (zeroFrame cfg ram 0) d p = some f → d = 0 ∧ p = 0 ∧ f = 0 := by
    intro d p f h
    cases d with
    | zero => exact ⟨rfl, frameAt_zero_inv cfg _ h⟩
    | succ d => rw [init_frameAt] at h; exact absurd h (by simp)
  refine ⟨⟨NUM_FRAMES_pos cfg, ?_, ?_⟩, ?_, ?_⟩
  · intro d p f row _ hf hr
    obtain ⟨_, _, hf0⟩ := hpos d p f hf
    subst hf0
    rw [zeroFrame_same cfg ram 0 row hr]
    exact ⟨le_rfl, le_rfl⟩
  · intro d p d' p' f _ _ h1 h2
    obtain ⟨a1, a2, _⟩ := hpos d p f h1
    obtain ⟨b1, b2, _⟩ := hpos d' p' f h2
    exact ⟨by omega, by omega⟩
  · intro f hf
    have : f = 0 := by omega
    subst this
    exact ⟨0, 0, Nat.zero_le _, frameAt_root cfg _⟩
  · intro d p f _ hf
    obtain ⟨_, hp, _⟩ := hpos d p f hf
    subst hp
    simp [NUM_PAGES_pos cfg]

theorem VMinitialize_eq (cfg : Config) (s : Mem) :
    VMinitialize cfg s = .ok { s with ram := zeroFrame cfg s.ram 0 } := by
  unfold VMinitialize
  exact clearTable_eq cfg s 0 (NUM_FRAMES_pos cfg)

/-- Every reachable state carries a tree that satisfies the invariant. -/
theorem reachable_tree (cfg : Config) (s : Mem) (h : Reachable cfg s) :
    ∃ m, TreeInv cfg s.ram m := by
  induction h with
  | init ram m hm =>
      rw [VMinitialize_eq] at hm
      have := Except.ok.inj hm
      subst this
      exact ⟨0, init_tree cfg ram⟩
  | read s s' a r w _ ha hr ih =>
      obtain ⟨m, T⟩ := ih
      have hO : cfg.OFFSET_WIDTH ≤ 30 := by
        by_contra hO
        rw [(VM_overflow cfg hO s a).2] at hr
        exact absurd hr (by simp)
      have hspec := traverse_spec cfg (a >>> cfg.OFFSET_WIDTH) (page_valid cfg ha) s m T
      cases ht : _traverse_tree cfg s (a >>> cfg.OFFSET_WIDTH) with
      | error e =>
          unfold VMread at hr
          rw [offsetModulus_ok cfg hO] at hr
          simp only [ht] at hr
          exact absurd hr (by simp)
      | ok x =>
          obtain ⟨f, s1⟩ := x
          rw [ht] at hspec
          obtain ⟨F, hF, hD⟩ := hspec
          subst hF
          rw [VMread_eq cfg hO s a m hD ht] at hr
          simp only [Except.ok.injEq, Prod.mk.injEq] at hr
          obtain ⟨_, _, e⟩ := hr
          subst e
          obtain ⟨m', T', _, _⟩ := hD.tree
          exact ⟨m', T'⟩
  | write s s' a v r _ ha hr ih =>
      obtain ⟨m, T⟩ := ih
      have hO : cfg.OFFSET_WIDTH ≤ 30 := by
        by_contra hO
        rw [(VM_overflow cfg hO s a).1 v] at hr
        exact absurd hr (by simp)
      have hspec := traverse_spec cfg (a >>> cfg.OFFSET_WIDTH) (page_valid cfg ha) s m T
      cases ht : _traverse_tree cfg s (a >>> cfg.OFFSET_WIDTH) with
      | error e =>
          unfold VMwrite at hr
          rw [offsetModulus_ok cfg hO] at hr
          simp only [ht] at hr
          exact absurd hr (by simp)
      | ok x =>
          obtain ⟨f, s1⟩ := x
          rw [ht] at hspec
          obtain ⟨F, hF, hD⟩ := hspec
          subst hF
          rw [VMwrite_eq cfg hO s a v m hD ht] at hr
          simp only [Except.ok.injEq, Prod.mk.injEq] at hr
          obtain ⟨_, e⟩ := hr
          subst e
          obtain ⟨⟨m', T', _, _⟩, _⟩ := hD.write (a % cfg.PAGE_SIZE)
            (Nat.mod_lt _ (PAGE_SIZE_pos cfg)) v
          exact ⟨m', T'⟩

/-! ## Concrete runs -/

theorem memInit_ok (cfg : Config) : VMinitialize cfg zeroMem = .ok (memInit cfg) := by
  unfold memInit
  rw [VMinitialize_eq]
  rfl

theorem memInit_reachable (cfg : Config) : Reachable cfg (memInit cfg) :=
  Reachable.init (fun _ => 0) (memInit cfg) (memInit_ok cfg)

theorem memWrite_ok (cfg : Config) (s : Mem) (a : Nat) (v : Int)
    (h : writeOut cfg s a v = some 1) : VMwrite cfg s a v = .ok (1, memWrite cfg s a v) := by
  unfold writeOut at h
  unfold memWrite
  cases hr : VMwrite cfg s a v with
  | error e => rw [hr] at h; simp at h
  | ok r =>
      rw [hr] at h
      simp only [Option.some.injEq] at h
      simp only [okVal]
      rw [← h]

theorem memRead_ok (cfg : Config) (s : Mem) (a : Nat) (w : Int)
    (h : readOut cfg s a = some (1, w)) : VMread cfg s a = .ok (1, w, memRead cfg s a) := by
  unfold readOut at h
  unfold memRead
  cases hr : VMread cfg s a with
  | error e => rw [hr] at h; simp at h
  | ok r =>
      rw [hr] at h
      simp only [Option.some.injEq, Prod.mk.injEq] at h
      simp only [okVal]
      obtain ⟨h1, h2⟩ := h
      rw [← h1, ← h2]

set_option maxRecDepth 1000000 in
theorem small_w1 : writeOut cfgSmall (memInit cfgSmall) 0 5 = some 1 := by decide

set_option maxRecDepth 1000000 in
theorem small_w2 :
    writeOut cfgSmall (memWrite cfgSmall (memInit cfgSmall) 0 5) 6 7 = some 1 := by decide

set_option maxRecDepth 1000000 in
theorem small_w3 :
    writeOut cfgSmall (memWrite cfgSmall (memWrite cfgSmall (memInit cfgSmall) 0 5) 6 7) 0 9
      = some 1 := by decide

set_option maxRecDepth 1000000 in
theorem small_r4 :
    readOut cfgSmall
      (memWrite cfgSmall (memWrite cfgSmall (memWrite cfgSmall (memInit cfgSmall) 0 5) 6 7) 0 9)
      0 = some (1, 5) := by decide

theorem okVal_ok {α : Type} (d : α) (r : Except Fault α) (h : faultOf r = none) :
    r = .ok (okVal d r) := by
  cases r with
  | error e => simp [faultOf] at h
  | ok a => rfl

theorem error_of_faultOf {α : Type} (r : Except Fault α) (e : Fault)
    (h : faultOf r = some e) : r = .error e := by
  cases r with
  | error e' => simp only [faultOf, Option.some.injEq] at h; rw [h]
  | ok a => simp [faultOf] at h

/-! ## From the invariant to the claims -/

/-- C5 (single-parent invariant).  In every state reachable from
`VMinitialize` by `VMread` and `VMwrite` at valid addresses, two non-zero
entries of table frames of the tree (tables at depths `0 .. TABLES_DEPTH - 1`)
that hold the same frame index are the same entry of the same table. -/
theorem C5_single_parent (cfg : Config) (s : Mem) (hs : Reachable cfg s)
    (d1 p1 f1 r1 d2 p2 f2 r2 : Nat)
    (hd1 : d1 < cfg.TABLES_DEPTH) (hd2 : d2 < cfg.TABLES_DEPTH)
    (h1 : frameAt cfg s.ram d1 p1 = some f1) (h2 : frameAt cfg s.ram d2 p2 = some f2)
    (hr1 : r1 < cfg.PAGE_SIZE) (hr2 : r2 < cfg.PAGE_SIZE)
    (hnz : s.ram (f1 * cfg.PAGE_SIZE + r1) ≠ 0)
    (heq : s.ram (f1 * cfg.PAGE_SIZE + r1) = s.ram (f2 * cfg.PAGE_SIZE + r2)) :
    f1 = f2 ∧ r1 = r2 := by
  obtain ⟨m, T⟩ := reachable_tree cfg s hs
  obtain ⟨c1, hc1, e1, _⟩ := T.child hd1 h1 hr1 hnz
  obtain ⟨c2, hc2, e2, _⟩ := T.child hd2 h2 hr2 (by rw [← heq]; exact hnz)
  have hcc : c1 = c2 := by
    have : (c1 : Int) = (c2 : Int) := by rw [← e1, ← e2, heq]
    exact_mod_cast this
  rw [hcc] at hc1
  obtain ⟨hd, hp⟩ := T.inj _ _ _ _ _ (by omega) (by omega) hc1 hc2
  have hpp : p1 = p2 := by
    have := congrArg (· / cfg.PAGE_SIZE) hp
    simpa [div_eq_frame cfg _ _ hr1, div_eq_frame cfg _ _ hr2] using this
  have hrr : r1 = r2 := by
    have := congrArg (· % cfg.PAGE_SIZE) hp
    simpa [mod_eq_row cfg _ _ hr1, mod_eq_row cfg _ _ hr2] using this
  have hdd : d1 = d2 := by omega
  subst hpp hdd
  rw [h1] at h2
  exact ⟨Option.some.inj h2, hrr⟩

/-- A write followed by a read of the same address, on a tree that satisfies
the invariant, when the walk of the write does not get stuck, the page has no
slot in the backing store, and restore leaves the frame of such a page
unchanged. -/
theorem write_read_same (cfg : Config) (hzf : cfg.RESTORE_ZERO_FILLS = false)
    (hO : cfg.OFFSET_WIDTH ≤ 30) (s : Mem)
    (m : Nat) (T : TreeInv cfg s.ram m) (a : Nat) (ha : a < 2 ^ cfg.VIRTUAL_ADDRESS_WIDTH)
    (hns : ¬ Stuck cfg (a >>> cfg.OFFSET_WIDTH) s m)
    (hsw : s.swap (a >>> cfg.OFFSET_WIDTH) = none) (v : Int) :
    ∃ s1 s2, VMwrite cfg s a v = .ok (1, s1) ∧ VMread cfg s1 a = .ok (1, v, s2) := by
  have hpage := page_valid cfg ha
  have ho : a % cfg.PAGE_SIZE < cfg.PAGE_SIZE := Nat.mod_lt _ (PAGE_SIZE_pos cfg)
  obtain ⟨F, s', ht, hD⟩ := traverse_ok cfg _ hpage s m T hns
  obtain ⟨⟨m1, T1, _, _⟩, hfr1, _, hcP1⟩ := hD.write (a % cfg.PAGE_SIZE) ho v
  refine ⟨_, ?_, VMwrite_eq cfg hO s a v m hD ht, ?_⟩
  · exact { s' with ram := setWord s'.ram (F * cfg.PAGE_SIZE + a % cfg.PAGE_SIZE) v }
  · have hres : frameAt cfg (setWord s'.ram (F * cfg.PAGE_SIZE + a % cfg.PAGE_SIZE) v)
        cfg.TABLES_DEPTH (a >>> cfg.OFFSET_WIDTH) = some F := by
      rw [hfr1 _ le_rfl]; exact hD.here
    have hsw1 : s'.swap (a >>> cfg.OFFSET_WIDTH) = none := by rw [hD.swapP]; exact hsw
    obtain ⟨F2, s2, ht2, hD2⟩ := traverse_ok cfg _ hpage
      { s' with ram := setWord s'.ram (F * cfg.PAGE_SIZE + a % cfg.PAGE_SIZE) v } m1 T1
      (not_stuck_resident cfg _ _ m1 hres)
    have hsame := hD2.same F hres hsw1 hzf
    rw [VMread_eq cfg hO _ a m1 hD2 ht2, hsame, hcP1 _ ho, if_pos rfl]

/-- C1, amended (write-then-read round trip).  With physical memory an array
of words, the backing store a partial map from pages to page contents, a
restore that copies the stored contents of a page and leaves the frame
unchanged when there are none, `OFFSET_WIDTH ≤ 30` (so that the `int`
expression `2 << (OFFSET_WIDTH - 1)` has a value), `NUM_FRAMES ≥ TABLES_DEPTH + 1`
and `NUM_PAGES < 2^31`: in every reachable state, for every valid address `a`
whose page has no stored contents in the backing store, and every word `v`,
`VMwrite(a, v)` followed by `VMread(a, &w)` yields `w = v`. -/
theorem C1_write_then_read (cfg : Config) (hzf : cfg.RESTORE_ZERO_FILLS = false)
    (hO : cfg.OFFSET_WIDTH ≤ 30)
    (hN : cfg.TABLES_DEPTH + 1 ≤ cfg.NUM_FRAMES) (hP : cfg.NUM_PAGES < 2 ^ 31)
    (s : Mem) (hs : Reachable cfg s) (a : Nat) (ha : a < 2 ^ cfg.VIRTUAL_ADDRESS_WIDTH)
    (hsw : s.swap (a >>> cfg.OFFSET_WIDTH) = none) (v : Int) :
    ∃ s1 s2, VMwrite cfg s a v = .ok (1, s1) ∧ VMread cfg s1 a = .ok (1, v, s2) := by
  obtain ⟨m, T⟩ := reachable_tree cfg s hs
  exact write_read_same cfg hzf hO s m T a ha
    (not_stuck cfg _ (page_valid cfg ha) s m (Or.inl ⟨hN, hP⟩)) hsw v

/-- C3, amended (contract of restore for a never-evicted page).  Right after
`VMinitialize`, with `OFFSET_WIDTH ≤ 30`, `NUM_FRAMES ≥ TABLES_DEPTH + 1` and a
restore that leaves the frame of a never-evicted page unchanged: for every valid address `a` and
word `v`, `VMwrite(a, v)` followed by `VMread(a, &w)` yields `w = v`. -/
theorem C3_restore_unchanged (cfg : Config) (hzf : cfg.RESTORE_ZERO_FILLS = false)
    (hO : cfg.OFFSET_WIDTH ≤ 30)
    (hN : cfg.TABLES_DEPTH + 1 ≤ cfg.NUM_FRAMES) (ram0 : Nat → Int) (a : Nat)
    (ha : a < 2 ^ cfg.VIRTUAL_ADDRESS_WIDTH) (v : Int) :
    ∃ s0 s1 s2, VMinitialize cfg { ram := ram0, swap := fun _ => none } = .ok s0 ∧
      VMwrite cfg s0 a v = .ok (1, s1) ∧ VMread cfg s1 a = .ok (1, v, s2) := by
  obtain ⟨s1, s2, h1, h2⟩ := write_read_same cfg hzf hO
    { ram := zeroFrame cfg ram0 0, swap := fun _ => none } 0 (init_tree cfg ram0) a ha
    (not_stuck cfg _ (page_valid cfg ha) _ 0 (Or.inr (by omega))) rfl v
  exact ⟨_, s1, s2, VMinitialize_eq cfg _, h1, h2⟩

/-- C2, amended (a written value survives a write to another address).  Right
after `VMinitialize`, with `OFFSET_WIDTH ≤ 30`, `NUM_FRAMES ≥ TABLES_DEPTH + 1`,
`NUM_PAGES < 2^31` and a restore that leaves the frame of a never-evicted page
unchanged: for all valid addresses `a ≠ b` and all words `v1`, `v2`,
`VMwrite(a, v1); VMwrite(b, v2); VMread(a, &w)` yields `w = v1`, whether the
page of `a` stays resident or is evicted by the second write and restored by
the read. -/
theorem C2_value_survives (cfg : Config) (hzf : cfg.RESTORE_ZERO_FILLS = false)
    (hO : cfg.OFFSET_WIDTH ≤ 30)
    (hN : cfg.TABLES_DEPTH + 1 ≤ cfg.NUM_FRAMES) (hP : cfg.NUM_PAGES < 2 ^ 31)
    (ram0 : Nat → Int) (a b : Nat) (ha : a < 2 ^ cfg.VIRTUAL_ADDRESS_WIDTH)
    (hb : b < 2 ^ cfg.VIRTUAL_ADDRESS_WIDTH) (hab : a ≠ b) (v1 v2 : Int) :
    ∃ s0 s1 s2 s3, VMinitialize cfg { ram := ram0, swap := fun _ => none } = .ok s0 ∧
      VMwrite cfg s0 a v1 = .ok (1, s1) ∧ VMwrite cfg s1 b v2 = .ok (1, s2) ∧
      VMread cfg s2 a = .ok (1, v1, s3) := by
  have hpa := page_valid cfg ha
  have hpb := page_valid cfg hb
  have hoa : a % cfg.PAGE_SIZE < cfg.PAGE_SIZE := Nat.mod_lt _ (PAGE_SIZE_pos cfg)
  have hob : b % cfg.PAGE_SIZE < cfg.PAGE_SIZE := Nat.mod_lt _ (PAGE_SIZE_pos cfg)
  have hsafe : ∀ m, (cfg.TABLES_DEPTH + 1 ≤ cfg.NUM_FRAMES ∧ cfg.NUM_PAGES < 2 ^ 31) ∨
      m + cfg.TABLES_DEPTH < cfg.NUM_FRAMES := fun _ => Or.inl ⟨hN, hP⟩
  -- the first write
  obtain ⟨F1, t0, ht1, D1⟩ := traverse_ok cfg _ hpa
    { ram := zeroFrame cfg ram0 0, swap := fun _ => none } 0 (init_tree cfg ram0)
    (not_stuck cfg _ hpa _ 0 (hsafe 0))
  obtain ⟨⟨m1, T1, _, _⟩, _, _, cP1⟩ := D1.write (a % cfg.PAGE_SIZE) hoa v1
  have hw1 := VMwrite_eq cfg hO _ a v1 0 D1 ht1
  have hswap1 : ∀ q, t0.swap q = none := by
    intro q
    by_contra hne
    obtain ⟨⟨f, hf⟩, _⟩ := D1.swapQ q hne
    have hD0 : cfg.TABLES_DEPTH = 0 := by
      by_contra hD
      obtain ⟨k, hk⟩ : ∃ k, cfg.TABLES_DEPTH = k + 1 := ⟨cfg.TABLES_DEPTH - 1, by omega⟩
      rw [hk] at hf
      change frameAt cfg (zeroFrame cfg ram0 0) (k + 1) q = some f at hf
      rw [init_frameAt] at hf
      exact absurd hf (by simp)
    rw [hD0] at hf
    have hq0 := (frameAt_zero_inv cfg _ hf).1
    have hpa0 : a >>> cfg.OFFSET_WIDTH = 0 := by
      have := NUM_PAGES_le cfg
      rw [hD0, pow_zero] at this
      exact Nat.lt_one_iff.mp (lt_of_lt_of_le hpa this)
    apply hne
    rw [hq0, ← hpa0]
    exact D1.swapP
  have hc1 : content cfg
      { t0 with ram := setWord t0.ram (F1 * cfg.PAGE_SIZE + a % cfg.PAGE_SIZE) v1 }
      (a >>> cfg.OFFSET_WIDTH) (a % cfg.PAGE_SIZE) = v1 := by
    rw [cP1 _ hoa, if_pos rfl]
  -- the second write
  obtain ⟨F2, t1, ht2, D2⟩ := traverse_ok cfg _ hpb
    { t0 with ram := setWord t0.ram (F1 * cfg.PAGE_SIZE + a % cfg.PAGE_SIZE) v1 } m1 T1
    (not_stuck cfg _ hpb _ m1 (hsafe m1))
  obtain ⟨⟨m2, T2, _, _⟩, hfr2, c2, cP2⟩ := D2.write (b % cfg.PAGE_SIZE) hob v2
  have hw2 := VMwrite_eq cfg hO _ b v2 m1 D2 ht2
  have hc2 : content cfg
      { t1 with ram := setWord t1.ram (F2 * cfg.PAGE_SIZE + b % cfg.PAGE_SIZE) v2 }
      (a >>> cfg.OFFSET_WIDTH) (a % cfg.PAGE_SIZE) = v1 := by
    by_cases hpp : a >>> cfg.OFFSET_WIDTH = b >>> cfg.OFFSET_WIDTH
    · have hoo : a % cfg.PAGE_SIZE ≠ b % cfg.PAGE_SIZE := by
        intro e
        apply hab
        rw [← page_offset cfg a, ← page_offset cfg b, hpp, e]
      rw [hpp, cP2 _ hoa, if_neg hoo, D2.contP _ hoa]
      have : t0.swap (b >>> cfg.OFFSET_WIDTH) = none := hswap1 _
      simp only [this, hzf, Bool.false_eq_true, if_false]
      rw [← hpp]
      exact hc1
    · rw [c2 _ hpp _ hoa, D2.cont _ hpp _ hoa]
      exact hc1
  -- the read
  obtain ⟨F3, t2, ht3, D3⟩ := traverse_ok cfg _ hpa
    { t1 with ram := setWord t1.ram (F2 * cfg.PAGE_SIZE + b % cfg.PAGE_SIZE) v2 } m2 T2
    (not_stuck cfg _ hpa _ m2 (hsafe m2))
  have hr3 := VMread_eq cfg hO _ a m2 D3 ht3
  refine ⟨_, _, _, t2, VMinitialize_eq cfg _, hw1, hw2, ?_⟩
  rw [hr3, D3.contP _ hoa]
  cases hsw : t1.swap (a >>> cfg.OFFSET_WIDTH) with
  | none =>
      simp only [hsw, hzf, Bool.false_eq_true, if_false]
      rw [hc2]
  | some c =>
      simp only [hsw]
      have hne : t1.swap (a >>> cfg.OFFSET_WIDTH) ≠
          t0.swap (a >>> cfg.OFFSET_WIDTH) := by
        rw [hsw, hswap1]; simp
      obtain ⟨_, habs⟩ := D2.swapQ _ hne
      have habs2 : frameAt cfg (setWord t1.ram (F2 * cfg.PAGE_SIZE + b % cfg.PAGE_SIZE) v2)
          cfg.TABLES_DEPTH (a >>> cfg.OFFSET_WIDTH) = none := by
        rw [hfr2 _ le_rfl]; exact habs
      have := content_absent cfg
        { t1 with ram := setWord t1.ram (F2 * cfg.PAGE_SIZE + b % cfg.PAGE_SIZE) v2 }
        habs2 (a % cfg.PAGE_SIZE)
      rw [hc2] at this
      simp only [hsw] at this
      rw [this]

/-! ## Concrete scenarios -/

theorem memInit_eq (cfg : Config) :
    memInit cfg = { ram := zeroFrame cfg (fun _ => 0) 0, swap := fun _ => none } := by
  unfold memInit
  rw [VMinitialize_eq]
  rfl

theorem memInit_tree (cfg : Config) : TreeInv cfg (memInit cfg).ram 0 := by
  rw [memInit_eq]
  exact init_tree cfg _

theorem walk_ok (cfg : Config) (s : Mem) (page : Nat) (f : Int)
    (h : walkOut cfg s page = some f) :
    _traverse_tree cfg s page = .ok (f, (okVal (0, s) (_traverse_tree cfg s page)).2) := by
  unfold walkOut at h
  cases hr : _traverse_tree cfg s page with
  | error e => rw [hr] at h; simp at h
  | ok r =>
      rw [hr] at h
      simp only [Option.some.injEq] at h
      simp only [okVal]
      rw [← h]

theorem smallMem_reachable : Reachable cfgSmall smallMem :=
  Reachable.write _ _ 0 5 1 (memInit_reachable cfgSmall) (by decide)
    (memWrite_ok cfgSmall _ 0 5 small_w1)

theorem small2_reachable :
    Reachable cfgSmall (memWrite cfgSmall smallMem 6 7) :=
  Reachable.write _ _ 6 7 1 smallMem_reachable (by decide)
    (memWrite_ok cfgSmall _ 6 7 small_w2)

set_option maxRecDepth 10000000 in
set_option maxHeartbeats 4000000 in
theorem wide_facts :
    writeOut cfgWide (memInit cfgWide) 0 5 = some 1 ∧
    faultOf (VMwrite cfgWide wideMem 4294967296 7) = some Fault.uninitialised ∧
    faultOf wideLoop = none ∧
    faultOf wideFind = none ∧
    cfgWide.NUM_FRAMES ≤ (okVal (0, zeroMem, Search.start) wideFind).2.2.maxFrame + 1 ∧
    (okVal (0, zeroMem, Search.start) wideFind).2.2.emptyFrame = 0 ∧
    (okVal (0, zeroMem, Search.start) wideFind).2.2.frameToEvict = none := by decide

theorem wide_w1 : writeOut cfgWide (memInit cfgWide) 0 5 = some 1 := wide_facts.1

theorem wide_w2 :
    faultOf (VMwrite cfgWide wideMem 4294967296 7) = some Fault.uninitialised :=
  wide_facts.2.1

theorem wideMem_reachable : Reachable cfgWide wideMem :=
  Reachable.write _ _ 0 5 1 (memInit_reachable cfgWide) (by decide)
    (memWrite_ok cfgWide _ 0 5 wide_w1)

set_option maxRecDepth 10000000 in
set_option maxHeartbeats 4000000 in
theorem zero_facts :
    writeOut cfgZero (memInit cfgZero) 13 3 = some 1 ∧
    readOut cfgZero (memWrite cfgZero (memInit cfgZero) 13 3) 13 = some (1, 0) ∧
    writeOut cfgZero (memWrite cfgZero (memInit cfgZero) 13 3) 14 7 = some 1 ∧
    readOut cfgZero (memWrite cfgZero (memWrite cfgZero (memInit cfgZero) 13 3) 14 7) 13 =
      some (1, 0) := by decide

theorem zero_w1 : writeOut cfgZero (memInit cfgZero) 13 3 = some 1 := zero_facts.1

theorem zero_r2 :
    readOut cfgZero (memWrite cfgZero (memInit cfgZero) 13 3) 13 = some (1, 0) :=
  zero_facts.2.1

theorem zero_w2 :
    writeOut cfgZero (memWrite cfgZero (memInit cfgZero) 13 3) 14 7 = some 1 :=
  zero_facts.2.2.1

theorem zero_r3 :
    readOut cfgZero (memWrite cfgZero (memWrite cfgZero (memInit cfgZero) 13 3) 14 7) 13 =
      some (1, 0) := zero_facts.2.2.2

set_option maxRecDepth 1000000 in
theorem tiny_w1 :
    faultOf (VMwrite cfgTiny (memInit cfgTiny) 0 5) = some Fault.uninitialised := by decide

set_option maxRecDepth 10000000 in
set_option maxHeartbeats 4000000 in
theorem spec_facts :
    writeOut cfgSpec (memInit cfgSpec) 13 3 = some 1 ∧
    readOut cfgSpec (memWrite cfgSpec (memInit cfgSpec) 13 3) 13 = some (1, 3) ∧
    walkOut cfgSpec (memInit cfgSpec) 0 = some 4 ∧
    walkOut cfgSpec (memWrite cfgSpec (memInit cfgSpec) 13 3) 0 = some 4 ∧
    frameAt cfgSpec (memWrite cfgSpec (memInit cfgSpec) 13 3).ram 1 0 = some 1 ∧
    frameAt cfgSpec (memWrite cfgSpec (memInit cfgSpec) 13 3).ram 2 0 = some 2 ∧
    frameAt cfgSpec (memWrite cfgSpec (memInit cfgSpec) 13 3).ram 3 0 = some 3 ∧
    frameAt cfgSpec (memWrite cfgSpec (memInit cfgSpec) 13 3).ram 4 0 = some 4 := by decide

theorem spec_w1 : writeOut cfgSpec (memInit cfgSpec) 13 3 = some 1 := spec_facts.1

theorem spec_r2 :
    readOut cfgSpec (memWrite cfgSpec (memInit cfgSpec) 13 3) 13 = some (1, 3) :=
  spec_facts.2.1

theorem spec_walk0 : walkOut cfgSpec (memInit cfgSpec) 0 = some 4 := spec_facts.2.2.1

theorem spec_walk1 :
    walkOut cfgSpec (memWrite cfgSpec (memInit cfgSpec) 13 3) 0 = some 4 :=
  spec_facts.2.2.2.1

theorem spec_tree1 :
    frameAt cfgSpec (memWrite cfgSpec (memInit cfgSpec) 13 3).ram 1 0 = some 1 ∧
    frameAt cfgSpec (memWrite cfgSpec (memInit cfgSpec) 13 3).ram 2 0 = some 2 ∧
    frameAt cfgSpec (memWrite cfgSpec (memInit cfgSpec) 13 3).ram 3 0 = some 3 ∧
    frameAt cfgSpec (memWrite cfgSpec (memInit cfgSpec) 13 3).ram 4 0 = some 4 :=
  spec_facts.2.2.2.2

/-- After the first write the frames of the tree are exactly `0 .. 4`. -/
theorem spec_tree_inv : TreeInv cfgSpec (memWrite cfgSpec (memInit cfgSpec) 13 3).ram 4 := by
  have hpage : 13 >>> cfgSpec.OFFSET_WIDTH < cfgSpec.NUM_PAGES := by decide
  obtain ⟨F, s', ht, hD⟩ := traverse_ok cfgSpec _ hpage (memInit cfgSpec) 0
    (memInit_tree cfgSpec) (not_stuck cfgSpec _ hpage _ 0 (Or.inr (by decide)))
  have hw := VMwrite_eq cfgSpec (by decide) (memInit cfgSpec) 13 3 0 hD ht
  have hw' := memWrite_ok cfgSpec (memInit cfgSpec) 13 3 spec_w1
  rw [hw] at hw'
  simp only [Except.ok.injEq, Prod.mk.injEq, true_and] at hw'
  obtain ⟨⟨m', T', _, hm⟩, _⟩ := hD.write (13 % cfgSpec.PAGE_SIZE) (by decide) 3
  rw [← hw']
  have h4 := spec_tree1.2.2.2
  rw [← hw'] at h4
  have hle : 4 ≤ m' := T'.frame_le (by decide) h4
  have hD4 : cfgSpec.TABLES_DEPTH = 4 := by decide
  have : m' = 4 := by omega
  rw [this] at T'
  exact T'

/-! ## Counterexamples to the claims as stated -/

/-- C1 as stated fails.
(1) In `cfgSmall` (4 frames, 2 levels, 4 pages), after
`VMwrite(0, 5); VMwrite(6, 7)` the page of address 0 has been evicted, so its
old contents stay in the backing store; then `VMwrite(0, 9)` followed by
`VMread(0, &w)` yields `w = 5`.
(2) In `cfgWide`, where `NUM_PAGES = 2^32`, the reachable state after
`VMwrite(0, 5)` has a valid address whose `VMwrite` evicts without an assigned
candidate.
(3) In `cfgTiny`, where `NUM_FRAMES = 2 < TABLES_DEPTH + 1 = 3`, the first
`VMwrite` after `VMinitialize` evicts without an assigned candidate.
(4) In `cfgInt32`, where `OFFSET_WIDTH = 32`, `VMwrite` at the valid address 5
right after `VMinitialize` stops at the offset modulus `2 << 31`, which does
not fit an `int`. -/
theorem C1_counterexample :
    (∃ s s1 s2, cfgSmall.RESTORE_ZERO_FILLS = false ∧
      cfgSmall.TABLES_DEPTH + 1 ≤ cfgSmall.NUM_FRAMES ∧ cfgSmall.NUM_PAGES < 2 ^ 31 ∧
      Reachable cfgSmall s ∧ 0 < 2 ^ cfgSmall.VIRTUAL_ADDRESS_WIDTH ∧
      VMwrite cfgSmall s 0 9 = .ok (1, s1) ∧ VMread cfgSmall s1 0 = .ok (1, 5, s2) ∧
      (5 : Int) ≠ 9) ∧
    (Reachable cfgWide wideMem ∧ 4294967296 < 2 ^ cfgWide.VIRTUAL_ADDRESS_WIDTH ∧
      VMwrite cfgWide wideMem 4294967296 7 = .error .uninitialised) ∧
    (Reachable cfgTiny (memInit cfgTiny) ∧ 0 < 2 ^ cfgTiny.VIRTUAL_ADDRESS_WIDTH ∧
      VMwrite cfgTiny (memInit cfgTiny) 0 5 = .error .uninitialised) ∧
    (cfgInt32.TABLES_DEPTH + 1 ≤ cfgInt32.NUM_FRAMES ∧ cfgInt32.NUM_PAGES < 2 ^ 31 ∧
      Reachable cfgInt32 (memInit cfgInt32) ∧ 5 < 2 ^ cfgInt32.VIRTUAL_ADDRESS_WIDTH ∧
      VMwrite cfgInt32 (memInit cfgInt32) 5 1 = .error .overflow) :=
  ⟨⟨memWrite cfgSmall smallMem 6 7, _, _, rfl, by decide, by decide, small2_reachable,
      by decide, memWrite_ok cfgSmall _ 0 9 small_w3, memRead_ok cfgSmall _ 0 5 small_r4,
      by decide⟩,
    ⟨wideMem_reachable, by decide, error_of_faultOf _ _ wide_w2⟩,
    ⟨memInit_reachable cfgTiny, by decide, error_of_faultOf _ _ tiny_w1⟩,
    ⟨by decide, by decide, memInit_reachable cfgInt32, by decide,
      (VM_overflow cfgInt32 (by decide) _ 5).1 1⟩⟩

/-- C2 as stated fails.
(1) In `cfgWide`, where `NUM_FRAMES = 32 ≥ TABLES_DEPTH + 1 = 17` and
`NUM_PAGES = 2^32`, after `VMwrite(0, 5)` the call `VMwrite(2^32, 7)` evicts
without an assigned candidate.
(2) In `cfgZero`, where the restore zero-fills the frame of a never-evicted
page, `VMwrite(13, 3); VMwrite(14, 7); VMread(13, &w)` yields `w = 0`.
(3) In `cfgInt32`, where `NUM_FRAMES = 1 ≥ TABLES_DEPTH + 1 = 1` and
`OFFSET_WIDTH = 32`, the first `VMwrite` stops at the offset modulus
`2 << 31`, which does not fit an `int`. -/
theorem C2_counterexample :
    (cfgWide.TABLES_DEPTH + 1 ≤ cfgWide.NUM_FRAMES ∧
      0 < 2 ^ cfgWide.VIRTUAL_ADDRESS_WIDTH ∧
      4294967296 < 2 ^ cfgWide.VIRTUAL_ADDRESS_WIDTH ∧
      ∃ s0 s1, VMinitialize cfgWide { ram := fun _ => 0, swap := fun _ => none } = .ok s0 ∧
        VMwrite cfgWide s0 0 5 = .ok (1, s1) ∧
        VMwrite cfgWide s1 4294967296 7 = .error .uninitialised) ∧
    (cfgZero.TABLES_DEPTH + 1 ≤ cfgZero.NUM_FRAMES ∧ cfgZero.RESTORE_ZERO_FILLS = true ∧
      ∃ s0 s1 s2 s3,
        VMinitialize cfgZero { ram := fun _ => 0, swap := fun _ => none } = .ok s0 ∧
        VMwrite cfgZero s0 13 3 = .ok (1, s1) ∧ VMwrite cfgZero s1 14 7 = .ok (1, s2) ∧
        VMread cfgZero s2 13 = .ok (1, 0, s3) ∧ (0 : Int) ≠ 3) ∧
    (cfgInt32.TABLES_DEPTH + 1 ≤ cfgInt32.NUM_FRAMES ∧ cfgInt32.NUM_PAGES < 2 ^ 31 ∧
      5 < 2 ^ cfgInt32.VIRTUAL_ADDRESS_WIDTH ∧
      ∃ s0, VMinitialize cfgInt32 { ram := fun _ => 0, swap := fun _ => none } = .ok s0 ∧
        VMwrite cfgInt32 s0 5 1 = .error .overflow) :=
  ⟨⟨by decide, by decide, by decide, memInit cfgWide, wideMem, memInit_ok cfgWide,
      memWrite_ok cfgWide _ 0 5 wide_w1, error_of_faultOf _ _ wide_w2⟩,
    ⟨by decide, rfl, memInit cfgZero, _, _, _, memInit_ok cfgZero,
      memWrite_ok cfgZero _ 13 3 zero_w1, memWrite_ok cfgZero _ 14 7 zero_w2,
      memRead_ok cfgZero _ 13 0 zero_r3, by decide⟩,
    ⟨by decide, by decide, by decide, memInit cfgInt32, memInit_ok cfgInt32,
      (VM_overflow cfgInt32 (by decide) _ 5).1 1⟩⟩

/-- C3 as stated fails.
(1) For the zero-filling restore: in `cfgZero`, right after `VMinitialize`,
`VMwrite(13, 3)` followed by `VMread(13, &w)` yields `w = 0`.
(2) For the restore that leaves the frame unchanged: in `cfgTiny`, where
`NUM_FRAMES = 2 < TABLES_DEPTH + 1 = 3`, the `VMwrite` right after
`VMinitialize` evicts without an assigned candidate.
(3) For the restore that leaves the frame unchanged: in `cfgInt32`, where
`OFFSET_WIDTH = 32`, the `VMwrite` right after `VMinitialize` stops at the
offset modulus `2 << 31`, which does not fit an `int`. -/
theorem C3_counterexample :
    (∃ s0 s1 s2, cfgZero.RESTORE_ZERO_FILLS = true ∧
      VMinitialize cfgZero { ram := fun _ => 0, swap := fun _ => none } = .ok s0 ∧
      VMwrite cfgZero s0 13 3 = .ok (1, s1) ∧ VMread cfgZero s1 13 = .ok (1, 0, s2) ∧
      (0 : Int) ≠ 3) ∧
    (∃ s0, cfgTiny.RESTORE_ZERO_FILLS = false ∧
      VMinitialize cfgTiny { ram := fun _ => 0, swap := fun _ => none } = .ok s0 ∧
      VMwrite cfgTiny s0 0 5 = .error .uninitialised) ∧
    (∃ s0, cfgInt32.RESTORE_ZERO_FILLS = false ∧
      cfgInt32.TABLES_DEPTH + 1 ≤ cfgInt32.NUM_FRAMES ∧
      5 < 2 ^ cfgInt32.VIRTUAL_ADDRESS_WIDTH ∧
      VMinitialize cfgInt32 { ram := fun _ => 0, swap := fun _ => none } = .ok s0 ∧
      VMwrite cfgInt32 s0 5 1 = .error .overflow) :=
  ⟨⟨memInit cfgZero, _, _, rfl, memInit_ok cfgZero, memWrite_ok cfgZero _ 13 3 zero_w1,
      memRead_ok cfgZero _ 13 0 zero_r2, by decide⟩,
    ⟨memInit cfgTiny, rfl, memInit_ok cfgTiny, error_of_faultOf _ _ tiny_w1⟩,
    ⟨memInit cfgInt32, rfl, by decide, by decide, memInit_ok cfgInt32,
      (VM_overflow cfgInt32 (by decide) _ 5).1 1⟩⟩

/-- C4 as stated fails: in the configuration of the scenario, after
`VMwrite(13, 3)` the walk for page 0 returns frame 4, not frame 5, and frame 5
is at no position of the tree. -/
theorem C4_counterexample :
    ∃ s0 s1 s2, VMinitialize cfgSpec { ram := fun _ => 0, swap := fun _ => none } = .ok s0 ∧
      VMwrite cfgSpec s0 13 3 = .ok (1, s1) ∧ _traverse_tree cfgSpec s1 0 = .ok (4, s2) ∧
      (4 : Int) ≠ 5 ∧
      ∀ d p, d ≤ cfgSpec.TABLES_DEPTH → frameAt cfgSpec s1.ram d p ≠ some 5 :=
  ⟨memInit cfgSpec, _, _, memInit_ok cfgSpec, memWrite_ok cfgSpec _ 13 3 spec_w1,
    walk_ok cfgSpec _ 0 4 spec_walk1, by decide,
    fun d p hd h => absurd (spec_tree_inv.frame_le hd h) (by decide)⟩

/-- C4, amended (cold write-read scenario).  With `OFFSET_WIDTH = 4`,
`PHYSICAL_ADDRESS_WIDTH = 8`, `VIRTUAL_ADDRESS_WIDTH = 20`, right after
`VMinitialize`: `VMwrite(13, 3); VMread(13, &w)` yields `w = 3`; the write
allocates exactly three table frames, 1 to 3, and one leaf frame, 4 (the
frames of the tree are then exactly 0 to 4), and the walk for page 0 returns
frame 4. -/
theorem C4_cold_write_read :
    ∃ s0 s1 s2 s3, VMinitialize cfgSpec { ram := fun _ => 0, swap := fun _ => none } = .ok s0 ∧
      VMwrite cfgSpec s0 13 3 = .ok (1, s1) ∧ VMread cfgSpec s1 13 = .ok (1, 3, s2) ∧
      _traverse_tree cfgSpec s0 0 = .ok (4, s3) ∧
      frameAt cfgSpec s1.ram 1 0 = some 1 ∧ frameAt cfgSpec s1.ram 2 0 = some 2 ∧
      frameAt cfgSpec s1.ram 3 0 = some 3 ∧ frameAt cfgSpec s1.ram 4 0 = some 4 ∧
      TreeInv cfgSpec s1.ram 4 :=
  ⟨memInit cfgSpec, _, _, _, memInit_ok cfgSpec, memWrite_ok cfgSpec _ 13 3 spec_w1,
    memRead_ok cfgSpec _ 13 3 spec_r2, walk_ok cfgSpec _ 0 4 spec_walk0,
    spec_tree1.1, spec_tree1.2.1, spec_tree1.2.2.1, spec_tree1.2.2.2, spec_tree_inv⟩

/-! ## The claims at concrete inputs -/

set_option maxRecDepth 1000000 in
theorem small_tree :
    frameAt cfgSmall smallMem.ram 0 0 = some 0 ∧
    smallMem.ram (0 * cfgSmall.PAGE_SIZE + 0) ≠ 0 := by decide

theorem smallMem_swap : smallMem.swap (6 >>> cfgSmall.OFFSET_WIDTH) = none := by
  obtain ⟨F, s', ht, hD⟩ := traverse_ok cfgSmall (0 >>> cfgSmall.OFFSET_WIDTH) (by decide)
    (memInit cfgSmall) 0 (memInit_tree cfgSmall)
    (not_stuck cfgSmall _ (by decide) _ 0 (Or.inr (by decide)))
  have hw := VMwrite_eq cfgSmall (by decide) (memInit cfgSmall) 0 5 0 hD ht
  have hw' := memWrite_ok cfgSmall (memInit cfgSmall) 0 5 small_w1
  rw [hw] at hw'
  simp only [Except.ok.injEq, Prod.mk.injEq, true_and] at hw'
  have hs : smallMem = memWrite cfgSmall (memInit cfgSmall) 0 5 := rfl
  rw [hs, ← hw']
  show s'.swap _ = none
  by_contra hne
  have h0 : (memInit cfgSmall).swap (6 >>> cfgSmall.OFFSET_WIDTH) = none := by
    rw [memInit_eq]
  obtain ⟨⟨f, hf⟩, _⟩ := hD.swapQ (6 >>> cfgSmall.OFFSET_WIDTH) (by rw [h0]; exact hne)
  have hD2 : cfgSmall.TABLES_DEPTH = 1 + 1 := by decide
  rw [memInit_eq, hD2] at hf
  change frameAt cfgSmall (zeroFrame cfgSmall (fun _ => 0) 0) (1 + 1) _ = some f at hf
  rw [init_frameAt] at hf
  exact absurd hf (by simp)

/-- C1, amended, in `cfgSmall` after `VMwrite(0, 5)`: `VMwrite(6, 7)` followed
by `VMread(6, &w)` yields `w = 7`. -/
theorem C1_write_then_read_witness :
    cfgSmall.RESTORE_ZERO_FILLS = false ∧ cfgSmall.OFFSET_WIDTH ≤ 30 ∧
    cfgSmall.TABLES_DEPTH + 1 ≤ cfgSmall.NUM_FRAMES ∧
    cfgSmall.NUM_PAGES < 2 ^ 31 ∧ Reachable cfgSmall smallMem ∧
    6 < 2 ^ cfgSmall.VIRTUAL_ADDRESS_WIDTH ∧
    smallMem.swap (6 >>> cfgSmall.OFFSET_WIDTH) = none ∧
    ∃ s1 s2, VMwrite cfgSmall smallMem 6 7 = .ok (1, s1) ∧
      VMread cfgSmall s1 6 = .ok (1, 7, s2) :=
  ⟨rfl, by decide, by decide, by decide, smallMem_reachable, by decide, smallMem_swap,
    C1_write_then_read cfgSmall rfl (by decide) (by decide) (by decide) smallMem smallMem_reachable 6
      (by decide) smallMem_swap 7⟩

/-- C2, amended, in `cfgSmall`: `VMwrite(0, 5); VMwrite(6, 7); VMread(0, &w)`
yields `w = 5` (the second write evicts page 0). -/
theorem C2_value_survives_witness :
    cfgSmall.RESTORE_ZERO_FILLS = false ∧ cfgSmall.OFFSET_WIDTH ≤ 30 ∧
    cfgSmall.TABLES_DEPTH + 1 ≤ cfgSmall.NUM_FRAMES ∧
    cfgSmall.NUM_PAGES < 2 ^ 31 ∧ 0 < 2 ^ cfgSmall.VIRTUAL_ADDRESS_WIDTH ∧
    6 < 2 ^ cfgSmall.VIRTUAL_ADDRESS_WIDTH ∧ (0 : Nat) ≠ 6 ∧
    ∃ s0 s1 s2 s3, VMinitialize cfgSmall { ram := fun _ => 0, swap := fun _ => none } = .ok s0 ∧
      VMwrite cfgSmall s0 0 5 = .ok (1, s1) ∧ VMwrite cfgSmall s1 6 7 = .ok (1, s2) ∧
      VMread cfgSmall s2 0 = .ok (1, 5, s3) :=
  ⟨rfl, by decide, by decide, by decide, by decide, by decide, by decide,
    C2_value_survives cfgSmall rfl (by decide) (by decide) (by decide) (fun _ => 0) 0 6 (by decide)
      (by decide) (by decide) 5 7⟩

/-- C3, amended, in the configuration of the scenarios: `VMwrite(13, 3)`
followed by `VMread(13, &w)` yields `w = 3`. -/
theorem C3_restore_unchanged_witness :
    cfgSpec.RESTORE_ZERO_FILLS = false ∧ cfgSpec.OFFSET_WIDTH ≤ 30 ∧
    cfgSpec.TABLES_DEPTH + 1 ≤ cfgSpec.NUM_FRAMES ∧
    13 < 2 ^ cfgSpec.VIRTUAL_ADDRESS_WIDTH ∧
    ∃ s0 s1 s2, VMinitialize cfgSpec { ram := fun _ => 0, swap := fun _ => none } = .ok s0 ∧
      VMwrite cfgSpec s0 13 3 = .ok (1, s1) ∧ VMread cfgSpec s1 13 = .ok (1, 3, s2) :=
  ⟨rfl, by decide, by decide, by decide,
    C3_restore_unchanged cfgSpec rfl (by decide) (by decide) (fun _ => 0) 13 (by decide) 3⟩

/-- C5 in `cfgSmall` after `VMwrite(0, 5)`, at the non-zero entry 0 of the
root table. -/
theorem C5_single_parent_witness :
    Reachable cfgSmall smallMem ∧ 0 < cfgSmall.TABLES_DEPTH ∧
    frameAt cfgSmall smallMem.ram 0 0 = some 0 ∧ 0 < cfgSmall.PAGE_SIZE ∧
    smallMem.ram (0 * cfgSmall.PAGE_SIZE + 0) ≠ 0 ∧ ((0 : Nat) = 0 ∧ (0 : Nat) = 0) :=
  ⟨smallMem_reachable, by decide, small_tree.1, by decide, small_tree.2,
    C5_single_parent cfgSmall smallMem smallMem_reachable 0 0 0 0 0 0 0 0 (by decide)
      (by decide) small_tree.1 small_tree.1 (by decide) (by decide) small_tree.2 rfl⟩

theorem chunk_eq (cfg : Config) (page i : Nat) :
    chunk cfg page i = pagePfx cfg page i % cfg.PAGE_SIZE :=
  shift_chunk cfg page i

theorem chunk_lt (cfg : Config) (page i : Nat) : chunk cfg page i < cfg.PAGE_SIZE := by
  rw [chunk_eq]
  exact Nat.mod_lt _ (PAGE_SIZE_pos cfg)

/-- The read-only walk follows the positions of the prefixes of the page. -/
theorem readWalk_eq (cfg : Config) (ram : Nat → Int) (page : Nat) :
    ∀ n k a, k + n ≤ cfg.TABLES_DEPTH → frameAt cfg ram k (pagePfx cfg page k) = some a →
      readWalk cfg ram page n (k + 1) a = frameAt cfg ram (k + n) (pagePfx cfg page (k + n)) := by
  intro n
  induction n with
  | zero =>
      intro k a _ h
      simp only [readWalk, Nat.add_zero]
      exact h.symm
  | succ n ih =>
      intro k a hk h
      have hk' : k < cfg.TABLES_DEPTH := by omega
      have hstep := pagePfx_step cfg page hk'
      have hc := chunk_lt cfg page (k + 1)
      rw [chunk_eq] at hc
      unfold readWalk
      rw [chunk_eq]
      by_cases hz : ram (a * cfg.PAGE_SIZE + pagePfx cfg page (k + 1) % cfg.PAGE_SIZE) = 0
      · rw [if_pos hz]
        have hnone := frameAt_child_zero cfg ram h hc hz
        rw [hstep] at hnone
        have hsub : frameAt cfg ram (k + 1 + n) (pagePfx cfg page (k + 1 + n)) = none := by
          by_contra hne
          obtain ⟨f, hf⟩ := Option.ne_none_iff_exists'.mp hne
          obtain ⟨g, hg⟩ := frameAt_pfx cfg ram n (k + 1) _ f hf
          have hdiv := pagePfx_div cfg page (show k + 1 ≤ k + 1 + n by omega)
            (show k + 1 + n ≤ cfg.TABLES_DEPTH by omega)
          rw [show k + 1 + n - (k + 1) = n by omega] at hdiv
          rw [hdiv, hnone] at hg
          exact absurd hg (by simp)
        rw [show k + 1 + n = k + (n + 1) by omega] at hsub
        exact hsub.symm
      · rw [if_neg hz]
        have hsome := frameAt_child cfg ram h hc hz
        rw [hstep] at hsome
        rw [ih (k + 1) _ (by omega) hsome]
        rw [show k + 1 + n = k + (n + 1) by omega]

/-- For a valid page the read-only walk from the root is the position of the
page. -/
theorem readWalk_page (cfg : Config) (ram : Nat → Int) {page : Nat}
    (hpage : page < cfg.NUM_PAGES) {n : Nat} (hn : n ≤ cfg.TABLES_DEPTH) :
    readWalk cfg ram page n 1 0 = frameAt cfg ram n (pagePfx cfg page n) := by
  have h0 : frameAt cfg ram 0 (pagePfx cfg page 0) = some 0 := by
    rw [pagePfx_zero cfg hpage]
    exact frameAt_root cfg ram
  have := readWalk_eq cfg ram page n 0 0 (by omega) h0
  simpa using this

/-- The accumulated prefix is the prefix of the page. -/
theorem accumulate_eq (cfg : Config) {page : Nat} (hpage : page < cfg.NUM_PAGES) :
    ∀ i, i ≤ cfg.TABLES_DEPTH → accumulate cfg page i = pagePfx cfg page i := by
  intro i
  induction i with
  | zero =>
      intro _
      rw [pagePfx_zero cfg hpage]
      rfl
  | succ i ih =>
      intro hi
      unfold accumulate
      rw [ih (by omega), chunk_eq, Nat.shiftLeft_eq]
      have : (2 : Nat) ^ cfg.OFFSET_WIDTH = cfg.PAGE_SIZE := rfl
      rw [this]
      exact pagePfx_step cfg page (by omega)

/-! ## The states of the walk -/

/-- C14 (the prefix of the scan and the chunks of the walk agree).  For a
valid page `q`, accumulating the `TABLES_DEPTH` chunks of the walk of `q` the
way `_find_frame` does, `acc := (acc << OFFSET_WIDTH) + chunk` from 0, gives
`q`; and in every memory the scan reaches a leaf frame `f` with prefix `q`
exactly when the read-only walk of `q` ends at `f`. -/
theorem C14_prefix_agrees (cfg : Config) (q : Nat) (hq : q < cfg.NUM_PAGES) :
    accumulate cfg q cfg.TABLES_DEPTH = q ∧
    ∀ (ram : Nat → Int) (f : Nat),
      (0, q, f) ∈ nodes cfg ram cfg.TABLES_DEPTH 0 0 ↔
        readWalk cfg ram q cfg.TABLES_DEPTH 1 0 = some f := by
  constructor
  · rw [accumulate_eq cfg hq _ (le_refl _), pagePfx_full]
  · intro ram f
    rw [mem_nodes_iff, readWalk_page cfg ram hq (le_refl _), pagePfx_full]
    simp

/-- The effect of the loop of `_unlink_parent`. -/
theorem unlinkLoop_effect (cfg : Config) (page : Nat) (frame : Int) (add_width : Nat) :
    ∀ n i address m,
      unlinkLoop cfg page frame add_width n i address m = .error .outOfRange ∨
      ∃ m', unlinkLoop cfg page frame add_width n i address m = .ok m' ∧ m'.swap = m.swap ∧
        (m' = m ∨ ∃ addr, addr < cfg.RAM_SIZE ∧ m.ram addr = frame ∧
          m'.ram = setWord m.ram addr 0) ∧
        ((∀ e ∈ unlinkReads cfg m.ram page add_width n i address, e ≠ frame) → m' = m) := by
  intro n
  induction n with
  | zero =>
      intro i address m
      exact Or.inr ⟨m, rfl, rfl, Or.inl rfl, fun _ => rfl⟩
  | succ n ih =>
      intro i address m
      unfold unlinkLoop unlinkReads
      simp only
      generalize hrow : toU64 (address * (cfg.PAGE_SIZE : Int) +
        ((page >>> (add_width - i * cfg.OFFSET_WIDTH)) % (1 <<< cfg.OFFSET_WIDTH) : Nat)) = row
      by_cases hin : row < cfg.RAM_SIZE
      · rw [PMread_ok cfg m hin]
        simp only
        by_cases he : m.ram row = frame
        · rw [if_pos he, PMwrite_ok cfg m 0 hin]
          refine Or.inr ⟨_, rfl, rfl, Or.inr ⟨row, hin, he, rfl⟩, ?_⟩
          intro hall
          exact absurd he (hall _ (List.mem_cons_self _ _))
        · rw [if_neg he]
          rcases ih (i + 1) (m.ram row) m with herr | ⟨m', hok, hsw, heff, hno⟩
          · exact Or.inl herr
          · refine Or.inr ⟨m', hok, hsw, heff, ?_⟩
            intro hall
            exact hno (fun e hmem => hall e (List.mem_cons_of_mem _ hmem))
      · left
        unfold PMread
        rw [if_neg hin]

/-- C16 (frame effect of the linker).  For every memory, prefix, frame and
width, `_unlink_parent` either stops at an access outside the physical array,
or returns having left the backing store alone and changed at most one word
of the physical memory: a word whose old value was `frame` and whose new value
is 0.  When none of the entries on the path of the prefix equals `frame`, the
memory is unchanged. -/
theorem C16_unlink_frame_effect (cfg : Config) (m : Mem) (page : Nat) (frame : Int)
    (add_width : Nat) :
    _unlink_parent cfg m page frame add_width = .error .outOfRange ∨
    ∃ m', _unlink_parent cfg m page frame add_width = .ok m' ∧ m'.swap = m.swap ∧
      (m' = m ∨ ∃ addr, addr < cfg.RAM_SIZE ∧ m.ram addr = frame ∧
        m'.ram = setWord m.ram addr 0) ∧
      ((∀ e ∈ unlinkReads cfg m.ram page add_width (add_width / cfg.OFFSET_WIDTH) 1 0,
        e ≠ frame) → m' = m) :=
  unlinkLoop_effect cfg page frame add_width (add_width / cfg.OFFSET_WIDTH) 1 0 m

/-- C17, amended (the restore and the last mutation).  In every state and at
every address: the memory a `VMread` returns is the memory the `PMrestore` of
line 168 produced, so nothing is written after it; the memory a `VMwrite`
returns is the memory that `PMrestore` produced with one word of the physical
memory replaced by the written value (the `PMwrite` of line 190), the backing
store being the same. -/
theorem C17_restore_then_write (cfg : Config) (s : Mem) (a : Nat) :
    (∀ r w s', VMread cfg s a = .ok (r, w, s') →
      ∃ f sk, traverseLoop cfg (a >>> cfg.OFFSET_WIDTH)
          (rounded_add_width cfg / cfg.OFFSET_WIDTH) 1 0 s = .ok (f, sk) ∧
        PMrestore cfg sk (toU64 f) (a >>> cfg.OFFSET_WIDTH) = .ok s') ∧
    (∀ v r s', VMwrite cfg s a v = .ok (r, s') →
      ∃ f sk sr, traverseLoop cfg (a >>> cfg.OFFSET_WIDTH)
          (rounded_add_width cfg / cfg.OFFSET_WIDTH) 1 0 s = .ok (f, sk) ∧
        PMrestore cfg sk (toU64 f) (a >>> cfg.OFFSET_WIDTH) = .ok sr ∧
        s'.swap = sr.swap ∧
        s'.ram = setWord sr.ram
          (toU64 (f * (cfg.PAGE_SIZE : Int) + ((a % (2 <<< (cfg.OFFSET_WIDTH - 1)) : Nat) : Int)))
          v) := by
  constructor
  · intro r w s' h
    have hO : cfg.OFFSET_WIDTH ≤ 30 := by
      by_contra hO
      rw [(VM_overflow cfg hO s a).2] at h
      exact absurd h (by simp)
    unfold VMread _traverse_tree at h
    rw [offsetModulus_ok cfg hO] at h
    simp only at h
    cases hl : traverseLoop cfg (a >>> cfg.OFFSET_WIDTH)
        (rounded_add_width cfg / cfg.OFFSET_WIDTH) 1 0 s with
    | error e => rw [hl] at h; exact absurd h (by simp)
    | ok x =>
        obtain ⟨f, sk⟩ := x
        rw [hl] at h
        simp only at h
        cases hr : PMrestore cfg sk (toU64 f) (a >>> cfg.OFFSET_WIDTH) with
        | error e => rw [hr] at h; exact absurd h (by simp)
        | ok sr =>
            rw [hr] at h
            simp only at h
            refine ⟨f, sk, rfl, ?_⟩
            split at h
            · exact absurd h (by simp)
            · simp only [Except.ok.injEq, Prod.mk.injEq] at h
              rw [← h.2.2]
              exact hr
  · intro v r s' h
    have hO : cfg.OFFSET_WIDTH ≤ 30 := by
      by_contra hO
      rw [(VM_overflow cfg hO s a).1 v] at h
      exact absurd h (by simp)
    unfold VMwrite _traverse_tree at h
    rw [offsetModulus_ok cfg hO] at h
    simp only at h
    cases hl : traverseLoop cfg (a >>> cfg.OFFSET_WIDTH)
        (rounded_add_width cfg / cfg.OFFSET_WIDTH) 1 0 s with
    | error e => rw [hl] at h; exact absurd h (by simp)
    | ok x =>
        obtain ⟨f, sk⟩ := x
        rw [hl] at h
        simp only at h
        cases hr : PMrestore cfg sk (toU64 f) (a >>> cfg.OFFSET_WIDTH) with
        | error e => rw [hr] at h; exact absurd h (by simp)
        | ok sr =>
            rw [hr] at h
            simp only at h
            refine ⟨f, sk, sr, rfl, hr, ?_⟩
            unfold PMwrite at h
            split at h
            · exact absurd h (by simp)
            · rename_i m' hm'
              split at hm'
              · simp only [Except.ok.injEq] at hm'
                simp only [Except.ok.injEq, Prod.mk.injEq] at h
                rw [← h.2, ← hm']
                exact ⟨rfl, rfl⟩
              · exact absurd hm' (by simp)

/-! ## Claims about the configuration and the frames in use -/

theorem narrow_width (cfg : Config)
    (hr : (cfg.VIRTUAL_ADDRESS_WIDTH - cfg.OFFSET_WIDTH) % cfg.OFFSET_WIDTH ≠ 0) :
    cfg.OFFSET_WIDTH * (cfg.TABLES_DEPTH - 1) +
        (cfg.VIRTUAL_ADDRESS_WIDTH - cfg.OFFSET_WIDTH) % cfg.OFFSET_WIDTH =
      cfg.VIRTUAL_ADDRESS_WIDTH - cfg.OFFSET_WIDTH ∧ 0 < cfg.TABLES_DEPTH := by
  have h1 := rounded_eq cfg
  unfold rounded_add_width at h1
  simp only at h1
  rw [if_pos hr] at h1
  have hlt : (cfg.VIRTUAL_ADDRESS_WIDTH - cfg.OFFSET_WIDTH) % cfg.OFFSET_WIDTH <
      cfg.OFFSET_WIDTH := Nat.mod_lt _ cfg.offset_pos
  have hD : 0 < cfg.TABLES_DEPTH := by
    by_contra h0
    have : cfg.TABLES_DEPTH = 0 := by omega
    rw [this] at h1
    omega
  refine ⟨?_, hD⟩
  obtain ⟨k, hk⟩ : ∃ k, cfg.TABLES_DEPTH = k + 1 := ⟨cfg.TABLES_DEPTH - 1, by omega⟩
  rw [hk] at h1 ⊢
  simp only [Nat.add_sub_cancel]
  have h2 : (k + 1) * cfg.OFFSET_WIDTH = cfg.OFFSET_WIDTH * k + cfg.OFFSET_WIDTH := by ring
  rw [h2] at h1
  generalize cfg.OFFSET_WIDTH * k = x at h1 ⊢
  omega

/-- C18 (narrow top chunk).  When `VIRTUAL_ADDRESS_WIDTH - OFFSET_WIDTH` is
not a multiple of `OFFSET_WIDTH`, with `r` the remainder: the number of
iterations of the walk, `rounded_add_width / OFFSET_WIDTH`, is `TABLES_DEPTH`,
the least number of chunks of `OFFSET_WIDTH` bits covering the page number;
the first chunk of every valid page is below `2^r`; and in every reachable
state the entries of the root at indices `≥ 2^r` are zero. -/
theorem C18_narrow_top_chunk (cfg : Config)
    (hr : (cfg.VIRTUAL_ADDRESS_WIDTH - cfg.OFFSET_WIDTH) % cfg.OFFSET_WIDTH ≠ 0) :
    rounded_add_width cfg / cfg.OFFSET_WIDTH = cfg.TABLES_DEPTH ∧
    (cfg.TABLES_DEPTH - 1) * cfg.OFFSET_WIDTH < cfg.VIRTUAL_ADDRESS_WIDTH - cfg.OFFSET_WIDTH ∧
    cfg.VIRTUAL_ADDRESS_WIDTH - cfg.OFFSET_WIDTH ≤ cfg.TABLES_DEPTH * cfg.OFFSET_WIDTH ∧
    (∀ p, p < cfg.NUM_PAGES →
      chunk cfg p 1 < 2 ^ ((cfg.VIRTUAL_ADDRESS_WIDTH - cfg.OFFSET_WIDTH) % cfg.OFFSET_WIDTH)) ∧
    (∀ s, Reachable cfg s → ∀ row,
      2 ^ ((cfg.VIRTUAL_ADDRESS_WIDTH - cfg.OFFSET_WIDTH) % cfg.OFFSET_WIDTH) ≤ row →
      row < cfg.PAGE_SIZE → s.ram (0 * cfg.PAGE_SIZE + row) = 0) := by
  obtain ⟨hw, hD⟩ := narrow_width cfg hr
  have hpos : 0 < (cfg.VIRTUAL_ADDRESS_WIDTH - cfg.OFFSET_WIDTH) % cfg.OFFSET_WIDTH := by omega
  have hpow : cfg.PAGE_SIZE ^ (cfg.TABLES_DEPTH - 1) *
      2 ^ ((cfg.VIRTUAL_ADDRESS_WIDTH - cfg.OFFSET_WIDTH) % cfg.OFFSET_WIDTH) =
      cfg.NUM_PAGES := by
    rw [PAGE_SIZE_pow, ← pow_add, hw]
    rfl
  have hppos : 0 < cfg.PAGE_SIZE ^ (cfg.TABLES_DEPTH - 1) :=
    Nat.pow_pos (PAGE_SIZE_pos cfg)
  refine ⟨rounded_div cfg, ?_, ?_, ?_, ?_⟩
  · rw [Nat.mul_comm]
    omega
  · have := width_le_rounded cfg
    rw [Nat.mul_comm]
    exact this
  · intro p hp
    rw [chunk_eq]
    apply lt_of_le_of_lt (Nat.mod_le _ _)
    unfold pagePfx
    rw [Nat.div_lt_iff_lt_mul hppos, Nat.mul_comm, hpow]
    exact hp
  · intro s hs row hrow hlt
    obtain ⟨m, T⟩ := reachable_tree cfg s hs
    by_contra hne
    have hch := frameAt_child cfg s.ram (frameAt_root cfg s.ram) hlt hne
    have hpg := T.page 1 _ _ (by omega) hch
    rw [← hpow] at hpg
    simp only [Nat.zero_mul, Nat.zero_add] at hpg
    rw [Nat.mul_comm] at hpg
    have := Nat.lt_of_mul_lt_mul_left hpg
    omega

/-- C20 (the `int` arithmetic of the cyclic distance).  For
`NUM_PAGES < 2^31` and pages `p, q < NUM_PAGES`, the value line 56 computes
with `int` casts is `min(NUM_PAGES - |p - q|, |p - q|)`; it is symmetric in
`p` and `q`, lies in `[0, NUM_PAGES / 2]`, and is greater than the initial
`maxCyclicDistance = -1`, so a leaf other than the avoided frame that is
visited while `maxCyclicDistance` is still `-1` is recorded as the
candidate. -/
theorem C20_distance_exact (cfg : Config) (hN : cfg.NUM_PAGES < 2 ^ 31) (p q : Nat)
    (hp : p < cfg.NUM_PAGES) (hq : q < cfg.NUM_PAGES) :
    leafDist cfg p q =
      min ((cfg.NUM_PAGES : Int) - |(p : Int) - (q : Int)|) |(p : Int) - (q : Int)| ∧
    leafDist cfg p q = leafDist cfg q p ∧
    0 ≤ leafDist cfg p q ∧ leafDist cfg p q ≤ (cfg.NUM_PAGES : Int) / 2 ∧
    Search.start.maxCyclicDistance < leafDist cfg p q ∧
    ∀ avoid f st, f ≠ avoid → st.maxCyclicDistance = -1 →
      (visitLeaf cfg p avoid f q st).frameToEvict = some f ∧
      (visitLeaf cfg p avoid f q st).pageToEvict = some q := by
  have h1 := leafDist_eq cfg hN hp hq
  have h2 := leafDist_eq cfg hN hq hp
  have h0 := cyclicDist_nonneg cfg hp hq
  have hsymm : cyclicDist cfg p q = cyclicDist cfg q p := by
    unfold cyclicDist
    rw [abs_sub_comm (p : Int) (q : Int)]
  have hhalf : 2 * cyclicDist cfg p q ≤ (cfg.NUM_PAGES : Int) := by
    unfold cyclicDist
    have ha := min_le_left ((cfg.NUM_PAGES : Int) - |(p : Int) - (q : Int)|) |(p : Int) - (q : Int)|
    have hb := min_le_right ((cfg.NUM_PAGES : Int) - |(p : Int) - (q : Int)|) |(p : Int) - (q : Int)|
    omega
  refine ⟨h1, ?_, ?_, ?_, ?_, ?_⟩
  · rw [h1, h2, hsymm]
  · rw [h1]; exact h0
  · rw [h1]; omega
  · rw [h1]
    show (-1 : Int) < cyclicDist cfg p q
    omega
  · intro avoid f st hf hst
    have hd : 0 ≤ leafDist cfg p q := by rw [h1]; exact h0
    have hle : st.maxCyclicDistance ≤ leafDist cfg p q := by
      rw [hst]
      omega
    unfold visitLeaf
    simp only [ne_eq, hf, not_false_eq_true, if_true]
    rw [max_eq_right hle]
    simp

/-- C12, amended (the calls report success).  In a configuration with
`OFFSET_WIDTH ≤ 30` (so that the `int` expression `2 << (OFFSET_WIDTH - 1)` has
a value), `NUM_FRAMES ≥ TABLES_DEPTH + 1` and `NUM_PAGES < 2^31`, from every
reachable state and at every valid address, `VMwrite` and `VMread` return, and
return 1.  In such a configuration, in every state and at every address,
reachable and valid or not, a call that returns has returned 1. -/
theorem C12_calls_succeed (cfg : Config) (hO : cfg.OFFSET_WIDTH ≤ 30)
    (hN : cfg.TABLES_DEPTH + 1 ≤ cfg.NUM_FRAMES)
    (hP : cfg.NUM_PAGES < 2 ^ 31) (s : Mem) (hs : Reachable cfg s) (a : Nat)
    (ha : a < 2 ^ cfg.VIRTUAL_ADDRESS_WIDTH) :
    (∀ v, ∃ s', VMwrite cfg s a v = .ok (1, s')) ∧
    (∃ w s', VMread cfg s a = .ok (1, w, s')) ∧
    (∀ (s0 : Mem) (a0 : Nat),
      (∀ v r s', VMwrite cfg s0 a0 v = .ok (r, s') → r = 1) ∧
      (∀ r w s', VMread cfg s0 a0 = .ok (r, w, s') → r = 1)) := by
  obtain ⟨m, T⟩ := reachable_tree cfg s hs
  have hpage := page_valid cfg ha
  obtain ⟨F, s', ht, hD⟩ := traverse_ok cfg _ hpage s m T
    (not_stuck cfg _ hpage s m (Or.inl ⟨hN, hP⟩))
  refine ⟨fun v => ⟨_, VMwrite_eq cfg hO s a v m hD ht⟩,
    ⟨_, _, VMread_eq cfg hO s a m hD ht⟩, ?_⟩
  intro s0 a0
  constructor
  · intro v r s1 h
    unfold VMwrite at h
    rw [offsetModulus_ok cfg hO] at h
    simp only at h
    split at h
    · exact absurd h (by simp)
    · split at h
      · exact absurd h (by simp)
      · simp only [Except.ok.injEq, Prod.mk.injEq] at h
        exact h.1.symm
  · intro r w s1 h
    unfold VMread at h
    rw [offsetModulus_ok cfg hO] at h
    simp only at h
    split at h
    · exact absurd h (by simp)
    · split at h
      · exact absurd h (by simp)
      · simp only [Except.ok.injEq, Prod.mk.injEq] at h
        exact h.1.symm

/-! ## The later claims at concrete inputs -/

set_option maxRecDepth 1000000 in
theorem stray_facts :
    faultOf (VMread cfgSmall strayMem 0) = some Fault.uninitialised ∧
    faultOf (VMwrite cfgSmall strayMem 0 1) = some Fault.uninitialised ∧
    faultOf (VMread cfgSmall smallMem 4294967302) = some Fault.uninitialised ∧
    faultOf (VMread cfgTiny (memInit cfgTiny) 0) = some Fault.uninitialised := by decide

set_option maxRecDepth 1000000 in
theorem small_loop_facts :
    faultOf smallLoop = none ∧ faultOf smallRestore = none ∧
    (okVal zeroMem smallRestore).ram 4 = 0 ∧ smallMem.ram 4 = 5 := by decide

/-- C12 as stated fails: a call need not return.
(1) In `cfgSmall` (4 frames, 2 levels, 4 pages), on the memory `strayMem`,
where entry 0 of the root holds the empty table 3 and there is no leaf,
`VMread(0)` and `VMwrite(0, 1)` evict without an assigned candidate.
(2) In `cfgSmall`, from the reachable state after `VMwrite(0, 5)`, `VMread` at
the address `2^32 + 6`, which is not below `2^VIRTUAL_ADDRESS_WIDTH`, evicts
without an assigned candidate.
(3) In `cfgTiny`, where `NUM_FRAMES = 2 < TABLES_DEPTH + 1 = 3`, `VMread(0)`
right after `VMinitialize` evicts without an assigned candidate.
(4) In `cfgWide`, where `NUM_PAGES = 2^32`, from the reachable state after
`VMwrite(0, 5)`, `VMwrite(2^32, 7)` evicts without an assigned candidate.
(5) In `cfgInt32`, where `OFFSET_WIDTH = 32`, right after `VMinitialize`,
`VMwrite(5, 1)` and `VMread(5)` stop at the `int` shift `2 << 31` of lines 185
and 174. -/
theorem C12_counterexample :
    (cfgSmall.TABLES_DEPTH + 1 ≤ cfgSmall.NUM_FRAMES ∧ cfgSmall.NUM_PAGES < 2 ^ 31 ∧
      0 < 2 ^ cfgSmall.VIRTUAL_ADDRESS_WIDTH ∧
      VMread cfgSmall strayMem 0 = .error .uninitialised ∧
      VMwrite cfgSmall strayMem 0 1 = .error .uninitialised) ∧
    (Reachable cfgSmall smallMem ∧ 4294967302 < 2 ^ 64 ∧
      VMread cfgSmall smallMem 4294967302 = .error .uninitialised) ∧
    (Reachable cfgTiny (memInit cfgTiny) ∧ 0 < 2 ^ cfgTiny.VIRTUAL_ADDRESS_WIDTH ∧
      VMread cfgTiny (memInit cfgTiny) 0 = .error .uninitialised) ∧
    (cfgWide.TABLES_DEPTH + 1 ≤ cfgWide.NUM_FRAMES ∧ Reachable cfgWide wideMem ∧
      4294967296 < 2 ^ cfgWide.VIRTUAL_ADDRESS_WIDTH ∧
      VMwrite cfgWide wideMem 4294967296 7 = .error .uninitialised) ∧
    (cfgInt32.TABLES_DEPTH + 1 ≤ cfgInt32.NUM_FRAMES ∧ cfgInt32.NUM_PAGES < 2 ^ 31 ∧
      Reachable cfgInt32 (memInit cfgInt32) ∧ 5 < 2 ^ cfgInt32.VIRTUAL_ADDRESS_WIDTH ∧
      VMwrite cfgInt32 (memInit cfgInt32) 5 1 = .error .overflow ∧
      VMread cfgInt32 (memInit cfgInt32) 5 = .error .overflow) :=
  ⟨⟨by decide, by decide, by decide, error_of_faultOf _ _ stray_facts.1,
      error_of_faultOf _ _ stray_facts.2.1⟩,
    ⟨smallMem_reachable, by decide, error_of_faultOf _ _ stray_facts.2.2.1⟩,
    ⟨memInit_reachable cfgTiny, by decide, error_of_faultOf _ _ stray_facts.2.2.2⟩,
    ⟨by decide, wideMem_reachable, by decide, error_of_faultOf _ _ wide_w2⟩,
    ⟨by decide, by decide, memInit_reachable cfgInt32, by decide,
      (VM_overflow cfgInt32 (by decide) _ 5).1 1, (VM_overflow cfgInt32 (by decide) _ 5).2⟩⟩

/-- C17 as stated fails for `VMwrite`: in `cfgSmall`, right after
`VMinitialize`, the walk of `VMwrite(0, 5)` for page 0 ends with a `PMrestore`
that leaves 0 in word 4 of the physical memory (frame 2, offset 0), and when
`VMwrite` returns that word holds 5: it was written after the restore. -/
theorem C17_counterexample :
    ∃ f sk sr s2,
      traverseLoop cfgSmall 0 (rounded_add_width cfgSmall / cfgSmall.OFFSET_WIDTH) 1 0
        (memInit cfgSmall) = .ok (f, sk) ∧
      PMrestore cfgSmall sk (toU64 f) 0 = .ok sr ∧
      VMwrite cfgSmall (memInit cfgSmall) 0 5 = .ok (1, s2) ∧
      sr.ram 4 = 0 ∧ s2.ram 4 = 5 :=
  ⟨(okVal (0, zeroMem) smallLoop).1, (okVal (0, zeroMem) smallLoop).2,
    okVal zeroMem smallRestore, smallMem,
    okVal_ok (0, zeroMem) smallLoop small_loop_facts.1,
    okVal_ok zeroMem smallRestore small_loop_facts.2.1,
    memWrite_ok cfgSmall _ 0 5 small_w1, small_loop_facts.2.2.1, small_loop_facts.2.2.2⟩

/-- C12, amended, in `cfgSmall` after `VMwrite(0, 5)`, at address 6. -/
theorem C12_calls_succeed_witness :
    cfgSmall.OFFSET_WIDTH ≤ 30 ∧
    cfgSmall.TABLES_DEPTH + 1 ≤ cfgSmall.NUM_FRAMES ∧ cfgSmall.NUM_PAGES < 2 ^ 31 ∧
    Reachable cfgSmall smallMem ∧ 6 < 2 ^ cfgSmall.VIRTUAL_ADDRESS_WIDTH ∧
    (∀ v, ∃ s', VMwrite cfgSmall smallMem 6 v = .ok (1, s')) ∧
    (∃ w s', VMread cfgSmall smallMem 6 = .ok (1, w, s')) :=
  ⟨by decide, by decide, by decide, smallMem_reachable, by decide,
    (C12_calls_succeed cfgSmall (by decide) (by decide) (by decide) smallMem
      smallMem_reachable 6 (by decide)).1,
    (C12_calls_succeed cfgSmall (by decide) (by decide) (by decide) smallMem
      smallMem_reachable 6 (by decide)).2.1⟩

/-- C14 in `cfgSmall`, for page 3. -/
theorem C14_prefix_agrees_witness :
    3 < cfgSmall.NUM_PAGES ∧ accumulate cfgSmall 3 cfgSmall.TABLES_DEPTH = 3 :=
  ⟨by decide, (C14_prefix_agrees cfgSmall 3 (by decide)).1⟩

/-- C18 in `cfgNarrow`, where the remainder is 1: the root entries 2 and 3 of
the initial memory are zero. -/
theorem C18_narrow_top_chunk_witness :
    (cfgNarrow.VIRTUAL_ADDRESS_WIDTH - cfgNarrow.OFFSET_WIDTH) % cfgNarrow.OFFSET_WIDTH ≠ 0 ∧
    rounded_add_width cfgNarrow / cfgNarrow.OFFSET_WIDTH = cfgNarrow.TABLES_DEPTH ∧
    (∀ p, p < cfgNarrow.NUM_PAGES →
      chunk cfgNarrow p 1 <
        2 ^ ((cfgNarrow.VIRTUAL_ADDRESS_WIDTH - cfgNarrow.OFFSET_WIDTH) %
          cfgNarrow.OFFSET_WIDTH)) :=
  ⟨by decide, (C18_narrow_top_chunk cfgNarrow (by decide)).1,
    (C18_narrow_top_chunk cfgNarrow (by decide)).2.2.2.1⟩

/-- C20 in `cfgSmall`, for the pages 0 and 3. -/
theorem C20_distance_exact_witness :
    cfgSmall.NUM_PAGES < 2 ^ 31 ∧ 0 < cfgSmall.NUM_PAGES ∧ 3 < cfgSmall.NUM_PAGES ∧
    leafDist cfgSmall 0 3 = leafDist cfgSmall 3 0 ∧ 0 ≤ leafDist cfgSmall 0 3 ∧
    leafDist cfgSmall 0 3 ≤ (cfgSmall.NUM_PAGES : Int) / 2 :=
  ⟨by decide, by decide, by decide,
    (C20_distance_exact cfgSmall (by decide) 0 3 (by decide) (by decide)).2.1,
    (C20_distance_exact cfgSmall (by decide) 0 3 (by decide) (by decide)).2.2.1,
    (C20_distance_exact cfgSmall (by decide) 0 3 (by decide) (by decide)).2.2.2.1⟩

/-! ## The allocation block when no candidate was assigned -/

end VirtualMemory
